import Mathlib

/-!
Verification development for the OAS3-Tools repository.

This file shallowly embeds the core computational components of the
repository — the JSON-pointer resolver, the conservative schema merger and
composite flattener of extract_schema_to_csv.py, the schema merger and
combinator expander of oas3_data_dictionary_agent.py, and the row
de-duplication / grouping / sorting pipeline of
compile_http_errors_from_oas.py — and proves or refutes the frozen claims
about them.

Modelling conventions:
* Python values (parsed JSON/YAML trees) are modelled by the inductive
  type Json below.  Python dicts are insertion-ordered association lists;
  all operations below maintain Python's dict semantics (update-in-place
  keeps the key position, new keys are appended at the end).
* Numbers are modelled as integers (the claims under study never depend
  on float semantics).
* Python runtime type errors (AttributeError / TypeError on values of the
  wrong shape) are modelled by the error value Err.typeErr; unbounded
  recursion is modelled with an explicit fuel parameter, Err.fuelOut
  standing for Python recursion-limit exhaustion.
* Functions are written as executable structural recursions so that every
  concrete witness below evaluates inside the kernel.
-/

/-- Model of a parsed JSON/YAML value (a Python object tree). -/
inductive Json where
  | null : Json
  | bool (b : Bool) : Json
  | num (n : Int) : Json
  | str (s : String) : Json
  | arr (xs : List Json) : Json
  | obj (fields : List (String × Json)) : Json

mutual

/-- Structural (Python ==) equality test on Json values. -/
def Json.beq : Json → Json → Bool
  | .null, .null => true
  | .bool a, .bool b => a == b
  | .num a, .num b => a == b
  | .str a, .str b => a == b
  | .arr xs, .arr ys => Json.beqList xs ys
  | .obj fs, .obj gs => Json.beqFields fs gs
  | _, _ => false

/-- Elementwise equality of Json lists. -/
def Json.beqList : List Json → List Json → Bool
  | [], [] => true
  | x :: xs, y :: ys => Json.beq x y && Json.beqList xs ys
  | _, _ => false

/-- Elementwise equality of Json object field lists. -/
def Json.beqFields : List (String × Json) → List (String × Json) → Bool
  | [], [] => true
  | (k1, v1) :: fs, (k2, v2) :: gs => k1 == k2 && Json.beq v1 v2 && Json.beqFields fs gs
  | _, _ => false

end




/-- Errors of the embedded Python programs. -/
inductive PtrErr where
  /-- ValueError: pointer does not start with a '#' (external references are
  unsupported); the spec calls this UnsupportedReferenceKind. -/
  | unsupportedRef : PtrErr
  /-- KeyError: missing mapping key or out-of-range sequence index; the spec
  calls this PointerNotFound. -/
  | notFound : PtrErr
  /-- KeyError: non-integer segment applied to a sequence, or descent into a
  scalar; the spec calls this InvalidPointerSegment. -/
  | invalidSegment : PtrErr
deriving DecidableEq

/-- Runtime errors of the embedded programs. -/
inductive Err where
  /-- A JSON-pointer resolution error raised by resolve_json_pointer. -/
  | ptr (e : PtrErr) : Err
  /-- A Python AttributeError/TypeError: an operation applied to a value of
  the wrong runtime type. -/
  | typeErr : Err
  /-- Recursion-limit exhaustion (modelled by running out of fuel). -/
  | fuelOut : Err
deriving DecidableEq

/-! ## Character-list string utilities

Core String functions (splitOn, replace, startsWith, trim, ≤) are
implemented on byte positions in Lean's standard library and do not reduce
inside the kernel, so the string manipulations of the Python sources are
re-implemented here structurally over the character list of the string. -/

/-- Split a character list on a separator character; Python s.split(sep)
for a one-character separator (the only kind the sources use). -/
def splitCharAux (sep : Char) : List Char → List Char → List String
  | [], acc => [String.mk acc.reverse]
  | c :: cs, acc =>
      if c = sep then String.mk acc.reverse :: splitCharAux sep cs []
      else splitCharAux sep cs (c :: acc)

/-- Python str.split(sep) with a one-character separator. -/
def pySplit (s : String) (sep : Char) : List String := splitCharAux sep s.data []

/-- Replace a two-character pattern by a one-character replacement,
left to right and non-overlapping; Python str.replace for the "~1"/"~0"
escape patterns of RFC 6901. -/
def replacePair (a b r : Char) : List Char → List Char
  | [] => []
  | [c] => [c]
  | c :: d :: cs =>
      if c = a ∧ d = b then r :: replacePair a b r cs
      else c :: replacePair a b r (d :: cs)

/-- Unescape one JSON-pointer segment: "~1" → "/" then "~0" → "~"
(line 59 of extract_schema_to_csv.py). -/
def unescapeSegment (part : String) : String :=
  String.mk (replacePair '~' '0' '~' (replacePair '~' '1' '/' part.data))

/-- Python s.lstrip("#/"): drop every leading '#' or '/' character. -/
def stripHashSlash (s : String) : String :=
  String.mk (s.data.dropWhile (fun c => c = '#' ∨ c = '/'))

/-- Python s.startswith(p), by character-list comparison. -/
def pyStartsWith (s p : String) : Bool := p.data.isPrefixOf s.data

/-- Python str.strip(): remove leading and trailing whitespace. -/
def pyStrip (s : String) : String :=
  String.mk (((s.data.dropWhile Char.isWhitespace).reverse.dropWhile Char.isWhitespace).reverse)

/-- Lexicographic comparison of character lists by code point, the order
Python uses to compare strings. -/
def charListLe : List Char → List Char → Bool
  | [], _ => true
  | _ :: _, [] => false
  | a :: as, b :: bs =>
      if a.toNat < b.toNat then true
      else if b.toNat < a.toNat then false
      else charListLe as bs

/-- Python string ≤ (lexicographic by code point). -/
def strLe (a b : String) : Bool := charListLe a.data b.data

/-- The Prop-level string order used for the sorted outputs below. -/
def strRel (a b : String) : Prop := strLe a b = true

instance : DecidableRel strRel := fun _ _ => instDecidableEqBool _ _

/-- Python sorted(...) on a list of strings. -/
def sortStrs (l : List String) : List String := List.insertionSort strRel l

/-! ## Python int() parsing and decimal rendering -/

/-- Continue parsing a decimal literal after its first digit: digits with
single underscores allowed between digits (Python int() literal rule). -/
def digitsCore : List Char → Nat → Option Nat
  | [], acc => some acc
  | '_' :: c :: cs, acc =>
      if c.isDigit then digitsCore cs (acc * 10 + (c.toNat - 48)) else none
  | c :: cs, acc =>
      if c.isDigit then digitsCore cs (acc * 10 + (c.toNat - 48)) else none

/-- Parse a non-empty run of decimal digits (with Python's underscore rule). -/
def digitsStart : List Char → Option Nat
  | [] => none
  | c :: cs => if c.isDigit then digitsCore cs (c.toNat - 48) else none

/-- Parse an optionally signed decimal integer. -/
def pyIntOfChars : List Char → Option Int
  | [] => none
  | '+' :: cs => (digitsStart cs).map (fun n => (n : Int))
  | '-' :: cs => (digitsStart cs).map (fun n => -(n : Int))
  | cs => (digitsStart cs).map (fun n => (n : Int))

/-- Python int(s) for a string argument: strip whitespace, then an optionally
signed decimal literal; none models the ValueError raised otherwise. -/
def pyInt? (s : String) : Option Int := pyIntOfChars (pyStrip s).data

/-- The decimal digit character for a value below ten. -/
def digitChar10 (d : Nat) : Char := Char.ofNat (48 + d)

/-- Fuelled base-10 digit expansion of a natural number (most significant
digit first); fuel n + 1 always suffices for input n. -/
def natDigitsAux : Nat → Nat → List Char
  | 0, _ => []
  | fuel + 1, n =>
      if n < 10 then [digitChar10 n]
      else natDigitsAux fuel (n / 10) ++ [digitChar10 (n % 10)]

/-- Decimal rendering of a natural number, modelling Python str(n) and
f-string interpolation of a non-negative int. -/
def natToStr (n : Nat) : String := String.mk (natDigitsAux (n + 1) n)

/-! ## Json object helpers (Python dict semantics) -/

instance : BEq Json := ⟨Json.beq⟩

/-- The keys of an object's field list, in insertion order. -/
def keysOf (fs : List (String × Json)) : List String := fs.map Prod.fst

/-- Python `k in d` for a dict. -/
def hasKey (fs : List (String × Json)) (k : String) : Bool :=
  fs.any (fun kv => kv.1 == k)

/-- Python d[k] = v: replace in place if the key exists (keeping its
position), otherwise append at the end. -/
def objSet : List (String × Json) → String → Json → List (String × Json)
  | [], k, v => [(k, v)]
  | (k1, v1) :: fs, k, v =>
      if k1 = k then (k1, v) :: fs else (k1, v1) :: objSet fs k v

/-- Python d.pop(k, None): remove the key if present. -/
def objRemove : List (String × Json) → String → List (String × Json)
  | [], _ => []
  | (k1, v1) :: fs, k => if k1 = k then objRemove fs k else (k1, v1) :: objRemove fs k

/-- Python base.update(upd) for dicts: each key of upd in order overwrites
in place or is appended. -/
def objUpdate (base upd : List (String × Json)) : List (String × Json) :=
  upd.foldl (fun acc kv => objSet acc kv.1 kv.2) base

/-- Contiguous-substring test on character lists (Python `p in s` for
strings). -/
def charsInfix : List Char → List Char → Bool
  | p, [] => p.isEmpty
  | p, s =>
      match s with
      | [] => p.isEmpty
      | _ :: rest => p.isPrefixOf s || charsInfix p rest

/-- Python `k in x` for an arbitrary value x: dict key membership, list
element membership, substring test on strings; TypeError on other values. -/
def pyHasKeyE : Json → String → Except Err Bool
  | .obj fs, k => .ok (hasKey fs k)
  | .arr xs, k => .ok (xs.contains (.str k))
  | .str s, k => .ok (charsInfix k.data s.data)
  | _, _ => .error .typeErr

/-- Python x[k] for a string subscript: only dicts support it; the sources
only subscript after a positive containment check, so a dict miss cannot
occur in the modelled paths (mapped to typeErr like the TypeError raised by
list/str/int subscripts with a string key). -/
def pyGetItem : Json → String → Except Err Json
  | .obj fs, k =>
      match List.lookup k fs with
      | some v => .ok v
      | none => .error .typeErr
  | _, _ => .error .typeErr

/-! ## Model of json.dumps (used as the deterministic enum sort key and by
the CSV value renderer).  String escaping is modelled for quote and
backslash; control-character escapes are not modelled (no claim exercises
them). ensure_ascii=False, so all other characters appear verbatim. -/

/-- Escape quote and backslash characters as json.dumps does. -/
def escapeJsonChars : List Char → List Char
  | [] => []
  | c :: cs =>
      if c = '"' then '\\' :: '"' :: escapeJsonChars cs
      else if c = '\\' then '\\' :: '\\' :: escapeJsonChars cs
      else c :: escapeJsonChars cs

/-- A JSON string literal as json.dumps renders it. -/
def jstrLit (s : String) : String := String.mk ('"' :: (escapeJsonChars s.data ++ ['"']))

mutual

/-- Model of json.dumps(v, ensure_ascii=False) with default separators. -/
def jdumps : Json → String
  | .null => "null"
  | .bool true => "true"
  | .bool false => "false"
  | .num n => toString n
  | .str s => jstrLit s
  | .arr xs => "[" ++ jdumpsList xs ++ "]"
  | .obj fs => "\x7b" ++ jdumpsFields fs ++ "\x7d"

/-- Comma-separated dump of array elements. -/
def jdumpsList : List Json → String
  | [] => ""
  | [x] => jdumps x
  | x :: xs => jdumps x ++ ", " ++ jdumpsList xs

/-- Comma-separated dump of object entries. -/
def jdumpsFields : List (String × Json) → String
  | [] => ""
  | [(k, v)] => jstrLit k ++ ": " ++ jdumps v
  | (k, v) :: fs => jstrLit k ++ ": " ++ jdumps v ++ ", " ++ jdumpsFields fs

end

/-! ## resolve_json_pointer (extract_schema_to_csv.py, lines 51-84) -/

/-- The segment list of a pointer: Python pointer.lstrip("#/").split("/"). -/
def ptrSegments (p : String) : List String := pySplit (stripHashSlash p) '/'

/-- The descent loop of resolve_json_pointer (lines 58-83): each segment is
unescaped and then used to index a dict by key or a list by integer
position; each raise site maps to its PtrErr constructor. -/
def descendPtr : Json → List String → Except PtrErr Json
  | cur, [] => .ok cur
  | cur, part :: rest =>
      match cur with
      | .obj fs =>
          match List.lookup (unescapeSegment part) fs with
          | some v => descendPtr v rest
          | none => .error .notFound
      | .arr xs =>
          match pyInt? (unescapeSegment part) with
          | none => .error .invalidSegment
          | some i =>
              if h : 0 ≤ i ∧ i.toNat < xs.length then descendPtr (xs.get ⟨i.toNat, h.2⟩) rest
              else .error .notFound
      | _ => .error .invalidSegment

/-- Model of resolve_json_pointer: reject pointers not starting with '#',
return the root for "#", otherwise descend through the stripped segments. -/
def resolveJsonPointer (doc : Json) (p : String) : Except PtrErr Json :=
  if pyStartsWith p "#" = false then .error .unsupportedRef
  else if p = "#" then .ok doc
  else descendPtr doc (ptrSegments p)

/-! Spec-side characterization of pointer resolution, written from the
claim's words: a resolution succeeds exactly when every segment, after
unescaping, indexes an existing mapping key or an in-range integer index of
a sequence, reaching the returned subtree by that manual indexing. -/

/-- Manual indexing through a segment list reaches a subtree. -/
inductive SpecReach : Json → List String → Json → Prop
  | nil (j : Json) : SpecReach j [] j
  | key (fs : List (String × Json)) (part : String) (rest : List String) (v out : Json)
      (hv : List.lookup (unescapeSegment part) fs = some v)
      (h : SpecReach v rest out) : SpecReach (.obj fs) (part :: rest) out
  | idx (xs : List Json) (part : String) (rest : List String) (i : Int) (out : Json)
      (hi : pyInt? (unescapeSegment part) = some i) (h0 : 0 ≤ i)
      (hl : i.toNat < xs.length)
      (h : SpecReach (xs.get ⟨i.toNat, hl⟩) rest out) : SpecReach (.arr xs) (part :: rest) out

/-- Manual indexing first fails at a missing mapping key or an out-of-range
sequence index (the claim's PointerNotFound cases). -/
inductive SpecMiss : Json → List String → Prop
  | keyMiss (fs : List (String × Json)) (part : String) (rest : List String)
      (hv : List.lookup (unescapeSegment part) fs = none) : SpecMiss (.obj fs) (part :: rest)
  | idxOut (xs : List Json) (part : String) (rest : List String) (i : Int)
      (hi : pyInt? (unescapeSegment part) = some i)
      (hout : ¬(0 ≤ i ∧ i.toNat < xs.length)) : SpecMiss (.arr xs) (part :: rest)
  | keyStep (fs : List (String × Json)) (part : String) (rest : List String) (v : Json)
      (hv : List.lookup (unescapeSegment part) fs = some v)
      (h : SpecMiss v rest) : SpecMiss (.obj fs) (part :: rest)
  | idxStep (xs : List Json) (part : String) (rest : List String) (i : Int)
      (hi : pyInt? (unescapeSegment part) = some i) (h0 : 0 ≤ i)
      (hl : i.toNat < xs.length)
      (h : SpecMiss (xs.get ⟨i.toNat, hl⟩) rest) : SpecMiss (.arr xs) (part :: rest)

/-- Manual indexing first fails at a non-numeric segment applied to a
sequence or at a descent into a scalar (the claim's InvalidPointerSegment
cases). -/
inductive SpecBadSeg : Json → List String → Prop
  | nonNum (xs : List Json) (part : String) (rest : List String)
      (hi : pyInt? (unescapeSegment part) = none) : SpecBadSeg (.arr xs) (part :: rest)
  | scalar (cur : Json) (part : String) (rest : List String)
      (ho : ∀ fs, cur ≠ .obj fs) (ha : ∀ xs, cur ≠ .arr xs) :
      SpecBadSeg cur (part :: rest)
  | keyStep (fs : List (String × Json)) (part : String) (rest : List String) (v : Json)
      (hv : List.lookup (unescapeSegment part) fs = some v)
      (h : SpecBadSeg v rest) : SpecBadSeg (.obj fs) (part :: rest)
  | idxStep (xs : List Json) (part : String) (rest : List String) (i : Int)
      (hi : pyInt? (unescapeSegment part) = some i) (h0 : 0 ≤ i)
      (hl : i.toNat < xs.length)
      (h : SpecBadSeg (xs.get ⟨i.toNat, hl⟩) rest) : SpecBadSeg (.arr xs) (part :: rest)


/-! ## conservative_merge (extract_schema_to_csv.py, lines 115-143) -/

/-- Collect the members of a required-names list, all of which must be
strings. -/
def pyReqStrsList : List Json → Except Err (List String)
  | [] => .ok []
  | .str s :: xs => do
      let rest ← pyReqStrsList xs
      .ok (s :: rest)
  | _ :: _ => .error .typeErr

/-- Python set(v or []) for a required-names value: a false-y value (None,
[], "", 0, False, empty dict) gives the empty set, a list of strings gives
its elements.  Other shapes (a non-empty string or dict, a non-zero
number, a list with non-string members) are not exercised by any claim and
are modelled as typeErr. -/
def pyReqStrs : Json → Except Err (List String)
  | .null => .ok []
  | .bool false => .ok []
  | .num 0 => .ok []
  | .str "" => .ok []
  | .obj [] => .ok []
  | .arr xs => pyReqStrsList xs
  | _ => .error .typeErr

/-- Python out.get("required", []) (absent key defaults to []). -/
def pyReqOf (v : Option Json) : Except Err (List String) :=
  match v with
  | none => .ok []
  | some j => pyReqStrs j

/-- Add the members of an enum list to a deduplicating accumulator
(Python set.update); members must be hashable, so a nested list or dict
raises TypeError. -/
def enumElems : List Json → List Json → Except Err (List Json)
  | acc, [] => .ok acc
  | _, .arr _ :: _ => .error .typeErr
  | _, .obj _ :: _ => .error .typeErr
  | acc, x :: xs => if acc.contains x then enumElems acc xs else enumElems (acc ++ [x]) xs

/-- Fold of merge_enums over its argument list. -/
def mergeEnumsAux : List Json → List (Option Json) → Except Err (List Json)
  | acc, [] => .ok acc
  | acc, some (.arr xs) :: rest => do
      let acc2 ← enumElems acc xs
      mergeEnumsAux acc2 rest
  | acc, _ :: rest => mergeEnumsAux acc rest

/-- Model of merge_enums (lines 115-120): take the union of the list-valued
entries, skipping None and non-list values; None when the union is empty. -/
def mergeEnums (values : List (Option Json)) : Except Err (Option (List Json)) := do
  let acc ← mergeEnumsAux [] values
  match acc with
  | [] => .ok none
  | _ => .ok (some acc)

/-- The deterministic enum order: sorted by the json.dumps rendering
(line 129-131). -/
def jdRel (a b : Json) : Prop := strLe (jdumps a) (jdumps b) = true

instance : DecidableRel jdRel := fun _ _ => instDecidableEqBool _ _

/-- Python sorted(set-members, key=json.dumps). -/
def sortEnums (l : List Json) : List Json := List.insertionSort jdRel l

/-- One iteration of the conservative_merge loop body (lines 125-142) for
the entry (k, v) of the overlay:
enum entries are unioned and re-sorted, required entries are unioned and
lexically sorted, a key absent from the accumulator is appended, and a key
already present keeps its existing value (the code compares out[k] with v
but does nothing in either branch). -/
def conservativeMergeStep (out : Json) (k : String) (v : Json) : Except Err Json :=
  match out with
  | .obj os =>
      if k = "enum" then do
        match ← mergeEnums [List.lookup "enum" os, some v] with
        | some merged => .ok (.obj (objSet os "enum" (.arr (sortEnums merged))))
        | none => .ok (.obj os)
      else if k = "required" then do
        let ra ← pyReqOf (List.lookup "required" os)
        let rb ← pyReqStrs v
        if ra = [] ∧ rb = [] then .ok (.obj os)
        else .ok (.obj (objSet os "required"
          (.arr ((sortStrs ((ra ++ rb).dedup)).map Json.str))))
      else if hasKey os k then .ok (.obj os)
      else .ok (.obj (os ++ [(k, v)]))
  | _ => .error .typeErr

/-- The loop of conservative_merge over the overlay entries. -/
def conservativeMergeFields : Json → List (String × Json) → Except Err Json
  | out, [] => .ok out
  | out, (k, v) :: rest => do
      let out2 ← conservativeMergeStep out k v
      conservativeMergeFields out2 rest

/-- Model of conservative_merge(a, b) (lines 123-143): deep-copy a, then
fold the entries of b through the loop body; b must be a dict (b.items()). -/
def conservativeMerge (a b : Json) : Except Err Json :=
  match b with
  | .obj bs => conservativeMergeFields a bs
  | _ => .error .typeErr


/-! ## merge_schemas and expand_combinators
(oas3_data_dictionary_agent.py, lines 54-159) -/

/-- Python extension of merged["required"] with the members of the other
node's required list, appending each member not already present
(agent lines 128-130).  Membership is Python ==, modelled structurally. -/
def extendUnique : List Json → List Json → List Json
  | acc, [] => acc
  | acc, r :: rs => if acc.contains r then extendUnique acc rs else extendUnique (acc ++ [r]) rs

/-- The properties action of merge_schemas (agent lines 121-123):
when other carries a dict-valued properties key, compute the updated
properties mapping; the Bool records whether base's own nested dict was
mutated in place (true exactly when base already had a properties key,
whose dict object merged["properties"] aliases after dict(base)).
A non-dict properties value in base cannot be .update()d: typeErr. -/
def mergePropsAct (bfs : List (String × Json)) (other : Json) :
    Except Err (Option (List (String × Json) × Bool)) := do
  let hasP ← pyHasKeyE other "properties"
  if hasP then do
    let pv ← pyGetItem other "properties"
    match pv with
    | .obj ops =>
        match List.lookup "properties" bfs with
        | some (.obj bps) => .ok (some (objUpdate bps ops, true))
        | some _ => .error Err.typeErr
        | none => .ok (some (objUpdate [] ops, false))
    | _ => .ok none
  else .ok none

/-- The required action of merge_schemas (agent lines 126-130): when other
carries a list-valued required key, extend base's list (or a fresh one)
with the members not already present; the Bool records in-place mutation of
base's own list.  Base's required being present but not a list raises in
Python (membership test or append): typeErr. -/
def mergeReqAct (bfs : List (String × Json)) (other : Json) :
    Except Err (Option (List Json × Bool)) := do
  let hasR ← pyHasKeyE other "required"
  if hasR then do
    let rv ← pyGetItem other "required"
    match rv with
    | .arr rs =>
        match List.lookup "required" bfs with
        | some (.arr brs) => .ok (some (extendUnique brs rs, true))
        | some _ => .error Err.typeErr
        | none => .ok (some (extendUnique [] rs, false))
    | _ => .ok none
  else .ok none

/-- The type action of merge_schemas (agent lines 133-134): copy other's
type only when base (hence merged) has none. -/
def mergeTypeAct (bfs : List (String × Json)) (other : Json) :
    Except Err (Option Json) := do
  let hasT ← pyHasKeyE other "type"
  if hasT ∧ hasKey bfs "type" = false then do
    let tv ← pyGetItem other "type"
    .ok (some tv)
  else .ok none

/-- Model of merge_schemas(base, other) (agent lines 116-136).  Returns the
pair (merged, baseAfter): merged is the value of the returned dict, and
baseAfter is the value of base after the call.  merged = dict(base)
(line 118) is a top-level copy only, so when base carries a "properties"
dict the call merged["properties"].update(other["properties"]) (line 123)
mutates base's nested dict in place, and likewise
merged["required"].append(r) (line 130) mutates base's required list;
baseAfter records exactly that effect.  other is only read. -/
def mergeSchemas (base other : Json) : Except Err (Json × Json) :=
  match base with
  | .obj bfs => do
      let pAct ← mergePropsAct bfs other
      let rAct ← mergeReqAct bfs other
      let tAct ← mergeTypeAct bfs other
      let m1 := match pAct with
        | some (ps, _) => objSet bfs "properties" (.obj ps)
        | none => bfs
      let m2 := match rAct with
        | some (r, _) => objSet m1 "required" (.arr r)
        | none => m1
      let m3 := match tAct with
        | some tv => objSet m2 "type" tv
        | none => m2
      let b1 := match pAct with
        | some (ps, true) => objSet bfs "properties" (.obj ps)
        | _ => bfs
      let b2 := match rAct with
        | some (r, true) => objSet b1 "required" (.arr r)
        | _ => b1
      .ok (.obj m3, .obj b2)
  | _ => .error Err.typeErr

/-- Descent loop of the agent's resolve_ref (lines 60-61): node = node[part]
with a string subscript; only a dict supports it (any raise is caught by the
enclosing except, yielding the empty dict). -/
def descendAgent : Json → List String → Option Json
  | cur, [] => some cur
  | .obj fs, part :: rest =>
      match List.lookup part fs with
      | some v => descendAgent v rest
      | none => none
  | _, _ :: _ => none

/-- Model of resolve_ref(doc, ref) (agent lines 54-64): a non-local or
unresolvable reference, or a non-dict target, silently yields the empty
dict (no escaping of ~1/~0 is performed). -/
def resolveRefAgent (doc : Json) (ref : String) : Json :=
  if ref = "" ∨ pyStartsWith ref "#/" = false then .obj []
  else
    match descendAgent doc (pySplit (stripHashSlash ref) '/') with
    | some (.obj fs) => .obj fs
    | _ => .obj []

/-- Handling of a branch["$ref"] value: resolve_ref requires a string (a
false-y value short-circuits `not ref` inside resolve_ref and yields the
empty dict; a truthy non-string raises AttributeError on .startswith). -/
def refValueResolve (doc : Json) : Json → Except Err Json
  | .str s => .ok (resolveRefAgent doc s)
  | .null => .ok (.obj [])
  | .bool false => .ok (.obj [])
  | .num 0 => .ok (.obj [])
  | .arr [] => .ok (.obj [])
  | .obj [] => .ok (.obj [])
  | _ => .error Err.typeErr

mutual

/-- Model of expand_combinators(doc, schema) (agent lines 139-159): a
non-dict is returned unchanged; otherwise the three combinator keys are
processed in source order oneOf, anyOf, allOf over a copy of schema. -/
def expandCombinators : Nat → Json → Json → Except Err Json
  | 0, _, _ => .error Err.fuelOut
  | n + 1, doc, schema =>
      match schema with
      | .obj _ => do
          let o1 ← expandStep n doc schema schema "oneOf"
          let o2 ← expandStep n doc schema o1 "anyOf"
          expandStep n doc schema o2 "allOf"
      | s => .ok s

/-- One combinator key of the expand_combinators loop (lines 146-157):
when schema.get(comb) is a list, fold the branches into a fresh
accumulator, merge the accumulator onto the running output, and pop the
combinator key from the output; otherwise the output passes unchanged. -/
def expandStep : Nat → Json → Json → Json → String → Except Err Json
  | 0, _, _, _, _ => .error Err.fuelOut
  | n + 1, doc, schema, out, comb =>
      match schema with
      | .obj sfs =>
          match List.lookup comb sfs with
          | some (.arr branches) => do
              let merged ← expandBranches n doc (.obj []) branches
              let (out2, _) ← mergeSchemas out merged
              match out2 with
              | .obj ofs => .ok (.obj (objRemove ofs comb))
              | o => .ok o
          | _ => .ok out
      | _ => .ok out

/-- Fold of the branch loop (lines 150-155) over a branch list. -/
def expandBranches : Nat → Json → Json → List Json → Except Err Json
  | 0, _, _, _ => .error Err.fuelOut
  | _ + 1, _, acc, [] => .ok acc
  | n + 1, doc, acc, b :: bs => do
      let acc2 ← expandBranch n doc acc b
      expandBranches n doc acc2 bs

/-- One branch (lines 151-155): a dict branch carrying $ref is replaced by
the bare resolved target (sibling keys are discarded), the branch is
recursively expanded, and the result is merged onto the accumulator; the
accumulator is a function-local fresh dict, so merge_schemas' in-place
mutation of it is invisible outside and only the merged value is kept. -/
def expandBranch : Nat → Json → Json → Json → Except Err Json
  | 0, _, _, _ => .error Err.fuelOut
  | n + 1, doc, acc, branch => do
      let b1 ← match branch with
        | .obj bfs =>
            match List.lookup "$ref" bfs with
            | some rv => refValueResolve doc rv
            | none => .ok branch
        | _ => .ok branch
      let b2 ← expandCombinators n doc b1
      let (m, _) ← mergeSchemas acc b2
      .ok m

end

/-! ## SchemaWalker.deref and flatten_composites
(extract_schema_to_csv.py, lines 151-195) -/

/-- The walker's reference cache, keyed by pointer string. -/
abbrev Cache := List (String × Json)

/-- Model of SchemaWalker.deref (lines 156-171): a schema without $ref is
returned as is; otherwise the pointer target is resolved (errors
propagate), recursively dereferenced when it is a dict, cached, and the
sibling keys are merged onto it with conservative_merge. -/
def derefW : Nat → Json → Cache → Json → Except Err (Json × Cache)
  | 0, _, _, _ => .error Err.fuelOut
  | n + 1, root, cache, schema => do
      let has ← pyHasKeyE schema "$ref"
      if has then do
        let rv ← pyGetItem schema "$ref"
        let ref ← match rv with
          | .str s => .ok s
          | _ => .error Err.typeErr
        let sib ← match schema with
          | .obj fs => .ok (Json.obj (objRemove fs "$ref"))
          | _ => .error Err.typeErr
        match List.lookup ref cache with
        | some b => do
            let out ← conservativeMerge b sib
            .ok (out, cache)
        | none => do
            let target ← (resolveJsonPointer root ref).mapError Err.ptr
            let bc ← match target with
              | .obj tfs => derefW n root cache (.obj tfs)
              | t => .ok (t, cache)
            let cache3 : Cache := (ref, bc.1) :: bc.2
            let out ← conservativeMerge bc.1 sib
            .ok (out, cache3)
      else .ok (schema, cache)

/-- CONSTRAINT_KEYS ∪ TYPE_KEYS ∪ TITLE_DESC_KEYS ∪ PROPERTIES_KEYS
(lines 91-112). -/
def flattenWhitelist : List String :=
  ["pattern", "minLength", "maxLength", "minimum", "maximum",
   "exclusiveMinimum", "exclusiveMaximum", "multipleOf", "minItems",
   "maxItems", "uniqueItems", "format", "enum", "default", "example",
   "const", "required", "type", "description", "x-internal",
   "properties", "items", "additionalProperties"]

/-- The branch-key filter of flatten_composites (lines 182-192). -/
def filterWhitelist (fs : List (String × Json)) : List (String × Json) :=
  fs.filter (fun kv => flattenWhitelist.contains kv.1)

mutual

/-- Model of SchemaWalker.flatten_composites (lines 173-195): dereference,
then process allOf, anyOf, oneOf in source order.  Note that the source
never removes the combinator key from its output. -/
def flattenComposites : Nat → Json → Cache → Json → Except Err (Json × Cache)
  | 0, _, _, _ => .error Err.fuelOut
  | n + 1, root, cache, schema => do
      let sc ← derefW n root cache schema
      let sc2 ← flattenStep n root sc.2 sc.1 "allOf"
      let sc3 ← flattenStep n root sc2.2 sc2.1 "anyOf"
      flattenStep n root sc3.2 sc3.1 "oneOf"

/-- One combinator key of the flatten_composites loop (lines 175-194):
when present with a list value, the branches are folded through the
whitelist filter into an accumulator which is then conservatively merged
onto the schema (the key itself stays). -/
def flattenStep : Nat → Json → Cache → Json → String → Except Err (Json × Cache)
  | 0, _, _, _, _ => .error Err.fuelOut
  | n + 1, root, cache, schema, key => do
      let has ← pyHasKeyE schema key
      if has then do
        let v ← pyGetItem schema key
        match v with
        | .arr subs => do
            let mc ← flattenFold n root cache (.obj []) subs
            let s2 ← conservativeMerge schema mc.1
            .ok (s2, mc.2)
        | _ => .ok (schema, cache)
      else .ok (schema, cache)

/-- The branch fold of flatten_composites (lines 177-193). -/
def flattenFold : Nat → Json → Cache → Json → List Json → Except Err (Json × Cache)
  | 0, _, _, _, _ => .error Err.fuelOut
  | _ + 1, _, cache, acc, [] => .ok (acc, cache)
  | n + 1, root, cache, acc, sub :: rest => do
      let sc ← derefW n root cache sub
      let sc2 ← flattenComposites n root sc.2 sc.1
      let fs ← match sc2.1 with
        | .obj sfs => .ok sfs
        | _ => .error Err.typeErr
      let acc2 ← conservativeMerge acc (.obj (filterWhitelist fs))
      flattenFold n root sc2.2 acc2 rest

end


/-- The required entry of a schema node (none for a non-dict). -/
def reqOf : Json → Option Json
  | .obj fs => List.lookup "required" fs
  | _ => none


/-- Whether a node is a dict carrying key k with a sequence value. -/
def hasListValue (j : Json) (k : String) : Bool :=
  match j with
  | .obj fs =>
      match List.lookup k fs with
      | some (.arr _) => true
      | _ => false
  | _ => false


/-- The entry of a schema node at a key (none for a non-dict). -/
def objLookup : Json → String → Option Json
  | .obj fs, k => List.lookup k fs
  | _, _ => none


/-- The top-level keys of a schema node (empty for a non-dict). -/
def jsonKeys : Json → List String
  | .obj fs => keysOf fs
  | _ => []


/-! ## compile_http_errors_from_oas.py: rows, dedupe, sort, group
(lines 329-406) -/

/-- One output row: Status, ErrorCode, Description, EnumValues. -/
structure ErrRow where
  status : String
  errorCode : String
  description : String
  enumValues : String
deriving DecidableEq

/-- The dedupe_rows loop (lines 329-349): first-seen filtering keyed by the
full four-field tuple, each kept row rebuilt from its key fields. -/
def dedupeRowsAux : List ErrRow → List ErrRow → List ErrRow
  | _, [] => []
  | seen, r :: rs =>
      if r ∈ seen then dedupeRowsAux seen rs
      else
        {status := r.status, errorCode := r.errorCode, description := r.description,
          enumValues := r.enumValues} :: dedupeRowsAux (r :: seen) rs

/-- Model of dedupe_rows. -/
def dedupeRows (rows : List ErrRow) : List ErrRow := dedupeRowsAux [] rows

/-- Modelled from the spec: dedupe keeps the first occurrence of every
record and removes the later exact duplicates, preserving first-seen
order.  (Second, spec-side definition used to compare dedupe_rows
against the claim's words.) -/
def dedupeSpecFirstSeen : List ErrRow → List ErrRow
  | [] => []
  | r :: rs => r :: dedupeSpecFirstSeen (rs.filter (fun x => x ≠ r))
termination_by rows => rows.length
decreasing_by
  simp only [List.length_cons]
  exact Nat.lt_succ_of_le (List.length_filter_le _ _)

/-- The sort key's first component (lines 353-359): int(status), with
10^9 substituted when the status does not parse. -/
def statusNum (r : ErrRow) : Int :=
  match pyInt? r.status with
  | some n => n
  | none => 1000000000

/-- Three-way comparison of character lists by code point. -/
def charListCmp : List Char → List Char → Ordering
  | [], [] => .eq
  | [], _ :: _ => .lt
  | _ :: _, [] => .gt
  | a :: as, b :: bs =>
      if a.toNat < b.toNat then .lt
      else if b.toNat < a.toNat then .gt
      else charListCmp as bs

/-- Three-way comparison of strings (Python string order). -/
def strCmp (a b : String) : Ordering := charListCmp a.data b.data

/-- Three-way comparison of integers. -/
def intCmp (a b : Int) : Ordering :=
  if a < b then .lt else if b < a then .gt else .eq

/-- Python tuple comparison of the sort keys
(status_num, status, ErrorCode, Description) of two rows. -/
def rowCmp (a b : ErrRow) : Ordering :=
  (intCmp (statusNum a) (statusNum b)).then
    ((strCmp a.status b.status).then
      ((strCmp a.errorCode b.errorCode).then (strCmp a.description b.description)))

/-- The row order used by sorted(rows, key=sort_key). -/
def rowRel (a b : ErrRow) : Prop := rowCmp a b ≠ .gt

instance : DecidableRel rowRel := fun a b => instDecidableNot

/-- Model of sort_rows (lines 352-361): a stable sort by the numeric-aware
key (any stable sort produces the same list as Python's sorted). -/
def sortRows (rows : List ErrRow) : List ErrRow := List.insertionSort rowRel rows

/-- The integer order for smart_sort's numeric part. -/
def intRel (a b : Int) : Prop := a ≤ b

instance : DecidableRel intRel := fun a b => Int.decLe a b

/-- smart_sort (lines 385-392): values parsing as ints, sorted numerically
and rendered with str(); then the remaining values sorted lexically. -/
def smartSort (vs : List String) : List String :=
  (List.insertionSort intRel (vs.filterMap pyInt?)).map (fun n => toString n) ++
    sortStrs (vs.filter (fun v => (pyInt? v).isNone))

/-- One status bucket of group_by_status: sets of codes, descriptions and
enum values, modelled as insertion-ordered duplicate-free lists. -/
structure Bucket where
  codes : List String
  descs : List String
  enums : List String

/-- Set insertion (Python set.add). -/
def insertUniq (l : List String) (s : String) : List String :=
  if s ∈ l then l else l ++ [s]

/-- Lines 375-381: add one row's fields to its status bucket. -/
def updateBucket (b : Bucket) (r : ErrRow) : Bucket :=
  let b1 := if r.errorCode ≠ "" then {b with codes := insertUniq b.codes r.errorCode} else b
  let b2 :=
    if r.description ≠ "" then {b1 with descs := insertUniq b1.descs r.description} else b1
  if r.enumValues ≠ "" then
    let parts := ((pySplit r.enumValues ',').map pyStrip).filter (fun x => x ≠ "")
    {b2 with enums := parts.foldl insertUniq b2.enums}
  else b2

/-- buckets.setdefault(s, fresh) followed by the updates, preserving
first-seen bucket order. -/
def bucketsIns : List (String × Bucket) → String → ErrRow → List (String × Bucket)
  | [], s, r => [(s, updateBucket ⟨[], [], []⟩ r)]
  | (s1, b1) :: bs, s, r =>
      if s1 = s then (s1, updateBucket b1 r) :: bs else (s1, b1) :: bucketsIns bs s r

/-- The bucket-building loop of group_by_status (lines 371-381). -/
def mkBuckets (rows : List ErrRow) : List (String × Bucket) :=
  rows.foldl (fun bs r => bucketsIns bs r.status r) []

/-- Model of group_by_status (lines 364-406): collapse each bucket to one
row (codes and enums smart-sorted and comma-joined, descriptions sorted and
semicolon-joined) and finally sort by status. -/
def groupByStatus (rows : List ErrRow) : List ErrRow :=
  sortRows ((mkBuckets rows).map (fun sb =>
    {status := sb.1,
     errorCode := String.intercalate ", " (smartSort sb.2.codes),
     description := String.intercalate "; " (sortStrs sb.2.descs),
     enumValues := String.intercalate ", " (smartSort sb.2.enums)}))

/-! ## build_dictionary's dedupe pass
(oas3_data_dictionary_agent.py, lines 389-420) -/

/-- One data-dictionary row of the agent. -/
structure DRow where
  element : String
  definition : String
  dtype : String
  exampleConstraints : String
  location : String
  dpath : String
deriving DecidableEq

/-- The dedupe loop of build_dictionary (lines 405-418): the key is the
full visible tuple plus id(r).  Each row dict is freshly allocated, so the
id(r) values are pairwise distinct; they are modelled by the row's position
index. -/
def bdAux : List (DRow × Nat) → List (DRow × Nat) → List DRow
  | _, [] => []
  | seen, p :: ps =>
      if p ∈ seen then bdAux seen ps else p.1 :: bdAux (p :: seen) ps

/-- Model of the dedupe pass of build_dictionary. -/
def buildDictionaryDedupe (rows : List DRow) : List DRow :=
  bdAux [] (rows.zip (List.range rows.length))


/-! ## SchemaWalker.iter_elements / _walk (extract_schema_to_csv.py,
lines 196-251) -/

/-- One emitted record, kept as the triple of _make_record's arguments:
_make_record (lines 252-320) computes the CSV row as a pure function of
(path, schema, parent_required), so path uniqueness of the emitted rows is
path uniqueness of these triples. -/
structure WRec where
  path : String
  node : Json
  parentRequired : Json

/-- Whether the type entry of a schema equals the string array
(t == "array" in line 239). -/
def typeIsArray (fs : List (String × Json)) : Bool :=
  match List.lookup "type" fs with
  | some v => Json.beq v (.str "array")
  | none => false

/-- fs when the node is a dict, a TypeError otherwise (schema.get and
item access need a dict). -/
def asObjFields : Json → Except Err (List (String × Json))
  | .obj fs => .ok fs
  | _ => .error Err.typeErr

/-- Line 227: sub = self.deref(sub) if isinstance(sub, dict) else sub. -/
def derefIfDict (n : Nat) (root : Json) (cache : Cache) (sub : Json) :
    Except Err (Json × Cache) :=
  match sub with
  | .obj sfs => derefW n root cache (.obj sfs)
  | _ => .ok (sub, cache)

mutual

/-- Model of SchemaWalker._walk (lines 209-251): flatten, record the node
when the path is nonempty, then recurse into properties (with this node's
required list), additionalProperties (path suffix .*), and items (path
suffix [] for a dict, [idx] for a tuple list).  The record list is
returned instead of appended to a shared out parameter; the ref cache is
threaded.  A non-dict node after flattening raises (AttributeError on
.get), modelled by typeErr; the three child blocks are split into the
Part helpers below. -/
def walkF : Nat → Json → Cache → Json → String → Json → Except Err (List WRec × Cache)
  | 0, _, _, _, _, _ => .error Err.fuelOut
  | n + 1, root, cache, schema, path, parentReq => do
      let sc ← flattenComposites n root cache schema
      let recHere : List WRec := if path = "" then [] else [⟨path, sc.1, parentReq⟩]
      let fs ← asObjFields sc.1
      let requiredHere := (List.lookup "required" fs).getD (.arr [])
      let pc ← walkPropsPart n root sc.2 fs path requiredHere
      let ac ← walkAddlPart n root pc.2 fs path
      let ic ← walkArrayPart n root ac.2 fs path
      .ok (recHere ++ pc.1 ++ ac.1 ++ ic.1, ic.2)

/-- Lines 225-230: when the node carries a nonempty properties dict, walk
every property (an absent, falsy or non-dict properties entry walks
nothing). -/
def walkPropsPart : Nat → Json → Cache → List (String × Json) → String → Json →
    Except Err (List WRec × Cache)
  | 0, _, _, _, _, _ => .error Err.fuelOut
  | n + 1, root, cache, fs, path, requiredHere =>
      match List.lookup "properties" fs with
      | some (.obj pfs) => walkProps n root cache pfs path requiredHere
      | _ => .ok ([], cache)

/-- Lines 232-235: a dict additionalProperties entry is dereferenced and
walked at path.* (bare * at the root) with an empty parent_required. -/
def walkAddlPart : Nat → Json → Cache → List (String × Json) → String →
    Except Err (List WRec × Cache)
  | 0, _, _, _, _ => .error Err.fuelOut
  | n + 1, root, cache, fs, path =>
      match List.lookup "additionalProperties" fs with
      | some (.obj afs) => do
          let dc ← derefW n root cache (.obj afs)
          walkF n root dc.2 dc.1 (if path = "" then "*" else path ++ ".*") (.arr [])
      | _ => .ok ([], cache)

/-- Lines 238-249: when type == "array" or an items key is present, a
dict items entry is walked at path[], a list items entry is walked
per index at path[idx]. -/
def walkArrayPart : Nat → Json → Cache → List (String × Json) → String →
    Except Err (List WRec × Cache)
  | 0, _, _, _, _ => .error Err.fuelOut
  | n + 1, root, cache, fs, path =>
      if typeIsArray fs || hasKey fs "items" then
        match List.lookup "items" fs with
        | some (.obj ifs) => do
            let dc ← derefW n root cache (.obj ifs)
            walkF n root dc.2 dc.1 (if path = "" then "[]" else path ++ "[]") (.arr [])
        | some (.arr its) => walkItems n root cache its path 0
        | _ => .ok ([], cache)
      else .ok ([], cache)

/-- The properties loop of _walk (lines 226-230): a dict child is
dereferenced, a non-dict child is passed unchanged. -/
def walkProps : Nat → Json → Cache → List (String × Json) → String → Json →
    Except Err (List WRec × Cache)
  | 0, _, _, _, _, _ => .error Err.fuelOut
  | _ + 1, _, cache, [], _, _ => .ok ([], cache)
  | n + 1, root, cache, (name, sub) :: rest, path, reqHere => do
      let dc ← derefIfDict n root cache sub
      let wc ← walkF n root dc.2 dc.1 (if path = "" then name else path ++ "." ++ name) reqHere
      let rc ← walkProps n root wc.2 rest path reqHere
      .ok (wc.1 ++ rc.1, rc.2)

/-- The tuple-validation loop of _walk (lines 245-249): every item is
dereferenced unconditionally; paths carry the running index. -/
def walkItems : Nat → Json → Cache → List Json → String → Nat →
    Except Err (List WRec × Cache)
  | 0, _, _, _, _, _ => .error Err.fuelOut
  | _ + 1, _, cache, [], _, _ => .ok ([], cache)
  | n + 1, root, cache, it :: rest, path, idx => do
      let dc ← derefW n root cache it
      let wc ← walkF n root dc.2 dc.1
        (if path = "" then "[" ++ natToStr idx ++ "]"
         else path ++ "[" ++ natToStr idx ++ "]") (.arr [])
      let rc ← walkItems n root wc.2 rest path (idx + 1)
      .ok (wc.1 ++ rc.1, rc.2)

end

/-- Model of SchemaWalker.iter_elements (lines 196-207): flatten, then
walk with parent_required taken from the flattened root; the cache
argument is the walker's ref_cache state. -/
def iterElements (n : Nat) (root : Json) (cache : Cache) (schema : Json)
    (basePath : String) : Except Err (List WRec) := do
  let sc ← flattenComposites n root cache schema
  let wc ← walkF n root sc.2 sc.1 basePath ((objLookup sc.1 "required").getD (.arr []))
  .ok wc.1

/-- The path column of an iter_elements run. -/
def emittedPaths (n : Nat) (root : Json) (cache : Cache) (schema : Json)
    (basePath : String) : Except Err (List String) :=
  (iterElements n root cache schema basePath).map (List.map WRec.path)

/-- A key character that cannot be confused with the path punctuation
. * [ ] used by _walk. -/
def goodChar (c : Char) : Bool :=
  !(c == '.' || c == '*' || c == '[' || c == ']')

/-- A dictionary key that is nonempty and free of path punctuation. -/
def goodKey (s : String) : Bool := (!(s == "")) && s.data.all goodChar

def nodupKeys : List String → Bool
  | [] => true
  | k :: ks => (!(ks.contains k)) && nodupKeys ks

mutual

/-- Every object in the value has pairwise-distinct keys that are
nonempty and free of the path punctuation . * [ ]. -/
def GoodJson : Json → Bool
  | .obj fs => nodupKeys (keysOf fs) && GoodFields fs
  | .arr xs => GoodList xs
  | _ => true

def GoodList : List Json → Bool
  | [] => true
  | x :: xs => GoodJson x && GoodList xs

def GoodFields : List (String × Json) → Bool
  | [] => true
  | (k, v) :: fs => goodKey k && GoodJson v && GoodFields fs

end

/-- Every schema cached in the walker's ref_cache is good. -/
def CacheGood (c : Cache) : Bool := c.all (fun kv => GoodJson kv.2)

/-- One path segment of the walk: a property name, the
additionalProperties star, the homogeneous-items marker, or a tuple
index. -/
inductive Seg where
  | prop (name : String)
  | star
  | items
  | idx (i : Nat)
deriving DecidableEq

/-- The path-extension step of _walk for one segment. -/
def appendSeg (p : String) : Seg → String
  | .prop name => if p = "" then name else p ++ "." ++ name
  | .star => if p = "" then "*" else p ++ ".*"
  | .items => if p = "" then "[]" else p ++ "[]"
  | .idx i => if p = "" then "[" ++ natToStr i ++ "]" else p ++ "[" ++ natToStr i ++ "]"

def renderAux : String → List Seg → String
  | p, [] => p
  | p, s :: rest => renderAux (appendSeg p s) rest

/-- The path of a segment track, starting from the empty base path. -/
def renderTrack (t : List Seg) : String := renderAux "" t

/-- The characters one segment contributes to a path (first = the path so
far is empty). -/
def segChunk : Bool → Seg → List Char
  | true, .prop name => name.data
  | false, .prop name => '.' :: name.data
  | true, .star => ['*']
  | false, .star => ['.', '*']
  | _, .items => ['[', ']']
  | _, .idx i => '[' :: ((natToStr i).data ++ [']'])

def trackChars : Bool → List Seg → List Char
  | _, [] => []
  | first, s :: rest => segChunk first s ++ trackChars false rest

def myIsDigit (c : Char) : Bool := decide (48 ≤ c.toNat) && decide (c.toNat ≤ 57)

/-- A schema whose properties key "*" collides with additionalProperties
in the emitted paths. -/
def c8CexSchema : Json :=
  .obj [("properties", .obj [("*", .obj [("type", .str "string")])]),
        ("additionalProperties", .obj [("type", .str "integer")])]

/-- A well-behaved concrete schema for instantiating the amended claim. -/
def c8WitSchema : Json :=
  .obj [("type", .str "object"),
        ("properties", .obj [("a", .obj [("type", .str "string")]),
                             ("b", .obj [("type", .str "integer")])]),
        ("required", .arr [.str "a"])]

/-- The records of the witness run. -/
def c8WitRecs : List WRec :=
  match iterElements 15 c8WitSchema [] c8WitSchema "" with
  | .ok r => r
  | .error _ => []


/-- The numeric value of a big-endian base-10 digit string. -/
def digitsToNat (ds : List Char) : Nat :=
  ds.foldl (fun a c => a * 10 + (c.toNat - 48)) 0

/-- A segment whose property name (if any) is a good key. -/
def goodSeg (s : Seg) : Prop := ∀ name, s = Seg.prop name → goodKey name = true

/-- A track all of whose property names are good keys. -/
def GoodTrack (t : List Seg) : Prop := ∀ s ∈ t, goodSeg s


/-- The shape of a successful walk result: a good output cache, and the
emitted paths are the renderings of a duplicate-free list of good segment
extensions of the current track, each satisfying a per-caller shape. -/
def WalkOut (t : List Seg) (pr : List WRec × Cache) (shape : List Seg → Prop) : Prop :=
  CacheGood pr.2 = true ∧ ∃ exts : List (List Seg),
    pr.1.map WRec.path = exts.map (fun e => renderTrack (t ++ e)) ∧
    exts.Nodup ∧ (∀ e ∈ exts, ∀ x ∈ e, goodSeg x) ∧ (∀ e ∈ exts, shape e)

/-! #### THEOREMS-SECTION  (definitions above, theorems below) -/

mutual

theorem Json.beq_iff : ∀ a b : Json, Json.beq a b = true ↔ a = b
  | .null, b => by cases b <;> simp [Json.beq]
  | .bool a, b => by cases b <;> simp [Json.beq]
  | .num a, b => by cases b <;> simp [Json.beq]
  | .str a, b => by cases b <;> simp [Json.beq]
  | .arr xs, b => by
      cases b <;> simp [Json.beq]
      exact Json.beqList_iff xs _
  | .obj fs, b => by
      cases b <;> simp [Json.beq]
      exact Json.beqFields_iff fs _

theorem Json.beqList_iff : ∀ xs ys : List Json, Json.beqList xs ys = true ↔ xs = ys
  | [], [] => by simp [Json.beqList]
  | [], _ :: _ => by simp [Json.beqList]
  | _ :: _, [] => by simp [Json.beqList]
  | x :: xs, y :: ys => by
      simp [Json.beqList, Json.beq_iff x y, Json.beqList_iff xs ys]

theorem Json.beqFields_iff :
    ∀ fs gs : List (String × Json), Json.beqFields fs gs = true ↔ fs = gs
  | [], [] => by simp [Json.beqFields]
  | [], _ :: _ => by simp [Json.beqFields]
  | _ :: _, [] => by simp [Json.beqFields]
  | (k1, v1) :: fs, (k2, v2) :: gs => by
      simp [Json.beqFields, Json.beq_iff v1 v2, Json.beqFields_iff fs gs, and_assoc]

end

instance : DecidableEq Json := fun a b => decidable_of_iff _ (Json.beq_iff a b)

theorem charListLe_total : ∀ a b : List Char, charListLe a b = true ∨ charListLe b a = true
  | [], _ => Or.inl rfl
  | _ :: _, [] => Or.inr rfl
  | a :: as, b :: bs => by
      by_cases hab : a.toNat < b.toNat
      · exact Or.inl (by simp [charListLe, hab])
      · by_cases hba : b.toNat < a.toNat
        · exact Or.inr (by simp [charListLe, hba, hab])
        · rcases charListLe_total as bs with h | h
          · exact Or.inl (by simp [charListLe, hab, hba, h])
          · exact Or.inr (by simp [charListLe, hab, hba, h])

theorem charListLe_cons (a b : Char) (as bs : List Char) :
    charListLe (a :: as) (b :: bs) = true ↔
      a.toNat < b.toNat ∨ (a.toNat = b.toNat ∧ charListLe as bs = true) := by
  simp only [charListLe]
  by_cases h1 : a.toNat < b.toNat
  · simp [h1]
  · by_cases h2 : b.toNat < a.toNat
    · simp only [if_neg h1, if_pos h2]
      constructor
      · intro h; exact absurd h (by simp)
      · rintro (h | ⟨h, _⟩) <;> omega
    · have he : a.toNat = b.toNat := by omega
      simp [h1, h2, he]

theorem charListLe_trans :
    ∀ a b c : List Char, charListLe a b = true → charListLe b c = true →
      charListLe a c = true
  | [], _, _, _, _ => rfl
  | _ :: _, [], _, h, _ => by simp [charListLe] at h
  | _ :: _, _ :: _, [], _, h => by simp [charListLe] at h
  | a :: as, b :: bs, c :: cs, h1, h2 => by
      rw [charListLe_cons] at h1 h2 ⊢
      rcases h1 with h1 | ⟨e1, r1⟩ <;> rcases h2 with h2 | ⟨e2, r2⟩
      · exact Or.inl (by omega)
      · exact Or.inl (by omega)
      · exact Or.inl (by omega)
      · exact Or.inr ⟨by omega, charListLe_trans as bs cs r1 r2⟩

theorem charListLe_antisymm :
    ∀ a b : List Char, charListLe a b = true → charListLe b a = true → a = b
  | [], [], _, _ => rfl
  | [], _ :: _, _, h => by simp [charListLe] at h
  | _ :: _, [], h, _ => by simp [charListLe] at h
  | a :: as, b :: bs, h1, h2 => by
      rw [charListLe_cons] at h1 h2
      rcases h1 with h1 | ⟨e1, r1⟩
      · rcases h2 with h2 | ⟨e2, _⟩ <;> [omega; omega]
      · rcases h2 with h2 | ⟨_, r2⟩
        · omega
        · have ha : a = b := Char.ext (UInt32.ext e1)
          rw [ha, charListLe_antisymm as bs r1 r2]

instance : IsTotal String strRel :=
  ⟨fun a b => charListLe_total a.data b.data⟩

instance : IsTrans String strRel :=
  ⟨fun a b c h1 h2 => charListLe_trans a.data b.data c.data h1 h2⟩

instance : IsAntisymm String strRel :=
  ⟨fun a b h1 h2 => by
    have h := charListLe_antisymm a.data b.data h1 h2
    cases a; cases b; exact congrArg String.mk h⟩

theorem descendPtr_ok_iff :
    ∀ (segs : List String) (cur v : Json), descendPtr cur segs = .ok v ↔ SpecReach cur segs v
  | [], cur, v => by
      constructor
      · intro h
        cases h
        exact SpecReach.nil cur
      · intro h
        cases h
        rfl
  | part :: rest, cur, v => by
      constructor
      · intro h
        cases cur with
        | obj fs =>
            simp only [descendPtr] at h
            cases hv : List.lookup (unescapeSegment part) fs with
            | none => simp only [hv] at h; cases h
            | some w =>
                simp only [hv] at h
                exact SpecReach.key fs part rest w v hv ((descendPtr_ok_iff rest w v).1 h)
        | arr xs =>
            simp only [descendPtr] at h
            cases hi : pyInt? (unescapeSegment part) with
            | none => simp only [hi] at h; cases h
            | some i =>
                simp only [hi] at h
                by_cases hb : 0 ≤ i ∧ i.toNat < xs.length
                · rw [dif_pos hb] at h
                  exact SpecReach.idx xs part rest i v hi hb.1 hb.2
                    ((descendPtr_ok_iff rest _ v).1 h)
                · rw [dif_neg hb] at h; cases h
        | null => simp only [descendPtr] at h; cases h
        | bool b => simp only [descendPtr] at h; cases h
        | num n => simp only [descendPtr] at h; cases h
        | str s => simp only [descendPtr] at h; cases h
      · intro h
        exact match h with
        | SpecReach.key fs part rest w out hv hr => by
            simp only [descendPtr, hv]
            exact (descendPtr_ok_iff rest w out).2 hr
        | SpecReach.idx xs part rest i out hi h0 hl hr => by
            simp only [descendPtr, hi]
            rw [dif_pos ⟨h0, hl⟩]
            exact (descendPtr_ok_iff rest _ out).2 hr

theorem descendPtr_notFound_iff :
    ∀ (segs : List String) (cur : Json),
      descendPtr cur segs = .error .notFound ↔ SpecMiss cur segs
  | [], cur => by
      constructor
      · intro h; cases h
      · intro h; cases h
  | part :: rest, cur => by
      constructor
      · intro h
        cases cur with
        | obj fs =>
            simp only [descendPtr] at h
            cases hv : List.lookup (unescapeSegment part) fs with
            | none => exact SpecMiss.keyMiss fs part rest hv
            | some w =>
                simp only [hv] at h
                exact SpecMiss.keyStep fs part rest w hv
                  ((descendPtr_notFound_iff rest w).1 h)
        | arr xs =>
            simp only [descendPtr] at h
            cases hi : pyInt? (unescapeSegment part) with
            | none => simp only [hi] at h; cases h
            | some i =>
                simp only [hi] at h
                by_cases hb : 0 ≤ i ∧ i.toNat < xs.length
                · rw [dif_pos hb] at h
                  exact SpecMiss.idxStep xs part rest i hi hb.1 hb.2
                    ((descendPtr_notFound_iff rest _).1 h)
                · exact SpecMiss.idxOut xs part rest i hi hb
        | null => simp only [descendPtr] at h; cases h
        | bool b => simp only [descendPtr] at h; cases h
        | num n => simp only [descendPtr] at h; cases h
        | str s => simp only [descendPtr] at h; cases h
      · intro h
        exact match h with
        | SpecMiss.keyMiss fs part rest hv => by simp only [descendPtr, hv]
        | SpecMiss.idxOut xs part rest i hi hout => by
            simp only [descendPtr, hi]
            rw [dif_neg hout]
        | SpecMiss.keyStep fs part rest w hv hr => by
            simp only [descendPtr, hv]
            exact (descendPtr_notFound_iff rest w).2 hr
        | SpecMiss.idxStep xs part rest i hi h0 hl hr => by
            simp only [descendPtr, hi]
            rw [dif_pos ⟨h0, hl⟩]
            exact (descendPtr_notFound_iff rest _).2 hr

theorem descendPtr_badSeg_iff :
    ∀ (segs : List String) (cur : Json),
      descendPtr cur segs = .error .invalidSegment ↔ SpecBadSeg cur segs
  | [], cur => by
      constructor
      · intro h; cases h
      · intro h; cases h
  | part :: rest, cur => by
      constructor
      · intro h
        cases cur with
        | obj fs =>
            simp only [descendPtr] at h
            cases hv : List.lookup (unescapeSegment part) fs with
            | none => simp only [hv] at h; cases h
            | some w =>
                simp only [hv] at h
                exact SpecBadSeg.keyStep fs part rest w hv
                  ((descendPtr_badSeg_iff rest w).1 h)
        | arr xs =>
            simp only [descendPtr] at h
            cases hi : pyInt? (unescapeSegment part) with
            | none => exact SpecBadSeg.nonNum xs part rest hi
            | some i =>
                simp only [hi] at h
                by_cases hb : 0 ≤ i ∧ i.toNat < xs.length
                · rw [dif_pos hb] at h
                  exact SpecBadSeg.idxStep xs part rest i hi hb.1 hb.2
                    ((descendPtr_badSeg_iff rest _).1 h)
                · rw [dif_neg hb] at h; cases h
        | null => exact SpecBadSeg.scalar _ part rest (by intro fs h2; cases h2) (by intro xs h2; cases h2)
        | bool b => exact SpecBadSeg.scalar _ part rest (by intro fs h2; cases h2) (by intro xs h2; cases h2)
        | num n => exact SpecBadSeg.scalar _ part rest (by intro fs h2; cases h2) (by intro xs h2; cases h2)
        | str s => exact SpecBadSeg.scalar _ part rest (by intro fs h2; cases h2) (by intro xs h2; cases h2)
      · intro h
        exact match h with
        | SpecBadSeg.nonNum xs part rest hi => by simp only [descendPtr, hi]
        | SpecBadSeg.scalar c part rest ho ha => by
            cases c with
            | obj fs => exact absurd rfl (ho fs)
            | arr xs => exact absurd rfl (ha xs)
            | null => simp only [descendPtr]
            | bool b => simp only [descendPtr]
            | num n => simp only [descendPtr]
            | str s => simp only [descendPtr]
        | SpecBadSeg.keyStep fs part rest w hv hr => by
            simp only [descendPtr, hv]
            exact (descendPtr_badSeg_iff rest w).2 hr
        | SpecBadSeg.idxStep xs part rest i hi h0 hl hr => by
            simp only [descendPtr, hi]
            rw [dif_pos ⟨h0, hl⟩]
            exact (descendPtr_badSeg_iff rest _).2 hr

theorem descendPtr_ne_unsupportedRef :
    ∀ (segs : List String) (cur : Json), descendPtr cur segs ≠ .error .unsupportedRef
  | [], cur => by intro h; cases h
  | part :: rest, cur => by
      intro h
      cases cur with
      | obj fs =>
          simp only [descendPtr] at h
          cases hv : List.lookup (unescapeSegment part) fs with
          | none => simp only [hv] at h; cases h
          | some w =>
              simp only [hv] at h
              exact descendPtr_ne_unsupportedRef rest w h
      | arr xs =>
          simp only [descendPtr] at h
          cases hi : pyInt? (unescapeSegment part) with
          | none => simp only [hi] at h; cases h
          | some i =>
              simp only [hi] at h
              by_cases hb : 0 ≤ i ∧ i.toNat < xs.length
              · rw [dif_pos hb] at h
                exact descendPtr_ne_unsupportedRef rest _ h
              · rw [dif_neg hb] at h; cases h
      | null => simp only [descendPtr] at h; cases h
      | bool b => simp only [descendPtr] at h; cases h
      | num n => simp only [descendPtr] at h; cases h
      | str s => simp only [descendPtr] at h; cases h

instance {e a : Type} [DecidableEq e] [DecidableEq a] : DecidableEq (Except e a) := fun x y =>
  match x, y with
  | .ok v, .ok w =>
      if h : v = w then isTrue (by rw [h]) else isFalse (by intro he; cases he; exact h rfl)
  | .error v, .error w =>
      if h : v = w then isTrue (by rw [h]) else isFalse (by intro he; cases he; exact h rfl)
  | .ok _, .error _ => isFalse (by intro he; cases he)
  | .error _, .ok _ => isFalse (by intro he; cases he)

/-- C4: resolve(document, pointer) succeeds exactly when the pointer starts
with '#' and every segment, after unescaping, indexes an existing mapping
key or an in-range integer index of a sequence, returning the exact subtree
reached by that manual indexing ('#' alone returning the document root);
it fails with UnsupportedReferenceKind on a pointer not starting with '#',
with PointerNotFound on a missing mapping key or out-of-range sequence
index, and with InvalidPointerSegment on a non-numeric segment applied to a
sequence or a descent into a scalar. -/
theorem c4_resolve_pointer_characterization (doc : Json) (p : String) (v : Json) :
    (resolveJsonPointer doc p = .ok v ↔
        pyStartsWith p "#" = true ∧
          ((p = "#" ∧ v = doc) ∨ (p ≠ "#" ∧ SpecReach doc (ptrSegments p) v))) ∧
    (resolveJsonPointer doc p = .error .unsupportedRef ↔ pyStartsWith p "#" = false) ∧
    (resolveJsonPointer doc p = .error .notFound ↔
        pyStartsWith p "#" = true ∧ p ≠ "#" ∧ SpecMiss doc (ptrSegments p)) ∧
    (resolveJsonPointer doc p = .error .invalidSegment ↔
        pyStartsWith p "#" = true ∧ p ≠ "#" ∧ SpecBadSeg doc (ptrSegments p)) := by
  unfold resolveJsonPointer
  by_cases hs : pyStartsWith p "#" = false
  · simp [hs]
  · have hs' : pyStartsWith p "#" = true := by
      revert hs; cases pyStartsWith p "#" <;> simp
    by_cases hp : p = "#"
    · subst hp
      have hps : pyStartsWith "#" "#" = true := by decide
      simp [hps]
      exact ⟨fun h => h.symm, fun h => h.symm⟩
    · simp [hs, hs', hp, descendPtr_ok_iff, descendPtr_notFound_iff,
        descendPtr_badSeg_iff, descendPtr_ne_unsupportedRef]

theorem exceptBind_ok {e a b : Type} (x : Except e a) (f : a → Except e b) (r : b) :
    (x >>= f) = .ok r ↔ ∃ v, x = .ok v ∧ f v = .ok r := by
  cases x with
  | ok v => simp [Bind.bind, Except.bind]
  | error err => simp [Bind.bind, Except.bind]

/-- C1 counterexample: merge_schemas is not pure — merging two nodes that
both carry a properties dict mutates base in place (its properties mapping
gains the overlay's entries), so base is not left structurally unchanged. -/
theorem c1_cex_merge_mutates_base :
    (mergeSchemas (.obj [("properties", .obj [("a", .obj [])])])
        (.obj [("properties", .obj [("b", .obj [])])])).map Prod.snd =
      .ok (.obj [("properties", .obj [("a", .obj []), ("b", .obj [])])]) ∧
    Json.obj [("properties", .obj [("a", .obj []), ("b", .obj [])])] ≠
      Json.obj [("properties", .obj [("a", .obj [])])] := by
  constructor
  · decide
  · decide

theorem exceptBind_ok_elim {e a b : Type} {x : Except e a} {f : a → Except e b} {r : b}
    (h : (x >>= f) = .ok r) : ∃ v, x = .ok v ∧ f v = .ok r :=
  (exceptBind_ok x f r).1 h

theorem mergePropsAct_mut (bfs : List (String × Json)) (other : Json)
    (ps : List (String × Json)) (h : mergePropsAct bfs other = .ok (some (ps, true))) :
    ∃ bps, List.lookup "properties" bfs = some (.obj bps) := by
  unfold mergePropsAct at h
  obtain ⟨hp, hhp, h⟩ := exceptBind_ok_elim h
  cases hp with
  | false => simp at h
  | true =>
      rw [if_pos rfl] at h
      obtain ⟨pv, hpv, h⟩ := exceptBind_ok_elim h
      cases pv with
      | obj ops =>
          cases hlb : List.lookup "properties" bfs with
          | none => simp [hlb] at h
          | some b =>
              cases b with
              | obj bps => exact ⟨bps, rfl⟩
              | null => simp [hlb] at h
              | bool x => simp [hlb] at h
              | num x => simp [hlb] at h
              | str x => simp [hlb] at h
              | arr x => simp [hlb] at h
      | null => simp at h
      | bool x => simp at h
      | num x => simp at h
      | str x => simp at h
      | arr x => simp at h

theorem mergeReqAct_mut (bfs : List (String × Json)) (other : Json)
    (r : List Json) (h : mergeReqAct bfs other = .ok (some (r, true))) :
    ∃ brs, List.lookup "required" bfs = some (.arr brs) := by
  unfold mergeReqAct at h
  obtain ⟨hp, hhp, h⟩ := exceptBind_ok_elim h
  cases hp with
  | false => simp at h
  | true =>
      rw [if_pos rfl] at h
      obtain ⟨rv, hrv, h⟩ := exceptBind_ok_elim h
      cases rv with
      | arr rs =>
          cases hlb : List.lookup "required" bfs with
          | none => simp [hlb] at h
          | some b =>
              cases b with
              | arr brs => exact ⟨brs, rfl⟩
              | null => simp [hlb] at h
              | bool x => simp [hlb] at h
              | num x => simp [hlb] at h
              | str x => simp [hlb] at h
              | obj x => simp [hlb] at h
      | null => simp at h
      | bool x => simp at h
      | num x => simp at h
      | str x => simp at h
      | obj x => simp at h

/-- C1 amended: merge_schemas returns a fresh top-level node and leaves the
overlay unchanged, but it mutates base's nested properties dict and
required list in place whenever base already carries them; base is left
structurally unchanged in every run where base carries neither a
properties nor a required key (conservative_merge, modelled as a pure value
function, copies instead and never mutates its inputs). -/
theorem c1_amended_merge_base_preserved (bfs : List (String × Json)) (other m ba : Json)
    (hp : List.lookup "properties" bfs = none)
    (hr : List.lookup "required" bfs = none)
    (h : mergeSchemas (.obj bfs) other = .ok (m, ba)) :
    ba = .obj bfs := by
  simp only [mergeSchemas] at h
  obtain ⟨pAct, hPA, h⟩ := exceptBind_ok_elim h
  obtain ⟨rAct, hRA, h⟩ := exceptBind_ok_elim h
  obtain ⟨tAct, hTA, h⟩ := exceptBind_ok_elim h
  have hpa : ∀ ps, pAct ≠ some (ps, true) := by
    intro ps hcon
    subst hcon
    obtain ⟨bps, hbps⟩ := mergePropsAct_mut bfs other ps hPA
    rw [hp] at hbps
    cases hbps
  have hra : ∀ r, rAct ≠ some (r, true) := by
    intro r hcon
    subst hcon
    obtain ⟨brs, hbrs⟩ := mergeReqAct_mut bfs other r hRA
    rw [hr] at hbrs
    cases hbrs
  simp only [Except.ok.injEq, Prod.mk.injEq] at h
  obtain ⟨_, hba⟩ := h
  subst hba
  rcases pAct with _ | ⟨ps, pmut⟩
  · rcases rAct with _ | ⟨r, rmut⟩
    · rfl
    · cases rmut with
      | false => rfl
      | true => exact absurd rfl (hra r)
  · cases pmut with
    | true => exact absurd rfl (hpa ps)
    | false =>
        rcases rAct with _ | ⟨r, rmut⟩
        · rfl
        · cases rmut with
          | false => rfl
          | true => exact absurd rfl (hra r)

/-- C1 witness: a run of merge_schemas on a base without properties or
required keys, where the amended theorem yields that base is preserved. -/
theorem c1_witness :
    mergeSchemas (.obj [("type", .str "object")]) (.obj [("properties", .obj [("b", .obj [])])]) =
        .ok (.obj [("type", .str "object"), ("properties", .obj [("b", .obj [])])],
             .obj [("type", .str "object")]) ∧
      (Json.obj [("type", Json.str "object")]) = .obj [("type", .str "object")] :=
  ⟨by decide,
   c1_amended_merge_base_preserved [("type", .str "object")]
     (.obj [("properties", .obj [("b", .obj [])])])
     (.obj [("type", .str "object"), ("properties", .obj [("b", .obj [])])])
     (.obj [("type", .str "object")]) (by decide) (by decide) (by decide)⟩

theorem exceptBind_okLeft {e a b : Type} (v : a) (f : a → Except e b) :
    ((Except.ok v : Except e a) >>= f) = f v := rfl

theorem exceptBind_errLeft {e a b : Type} (err : e) (f : a → Except e b) :
    ((Except.error err : Except e a) >>= f) = .error err := rfl

theorem hasKey_eq_isSome : ∀ (fs : List (String × Json)) (k : String),
    hasKey fs k = (List.lookup k fs).isSome
  | [], _ => rfl
  | (k1, v1) :: fs, k => by
      simp only [hasKey, List.any, List.lookup]
      by_cases h : k1 = k
      · subst h
        simp
      · have h2 : (k == k1) = false := by
          simp [h, Ne.symm h]
        have h3 : (k1 == k) = false := by simp [h]
        simp only [h2, h3, Bool.false_or, if_neg]
        exact hasKey_eq_isSome fs k

/-- C5 counterexample: in the agent an unresolvable $ref is silently
converted into an empty schema and processing continues — resolve_ref
returns the empty dict and expand_combinators completes with a result
rather than failing the run. -/
theorem c5_cex_agent_silent_empty_schema :
    resolveRefAgent (.obj [("a", .num 1)]) "#/missing" = .obj [] ∧
    expandCombinators 10 (.obj [("a", .num 1)])
        (.obj [("allOf", .arr [.obj [("$ref", .str "#/nope")]])]) = .ok (.obj []) := by
  constructor
  · decide
  · decide

/-- C5 amended: in extract_schema_to_csv an unresolvable $ref is fatal —
SchemaWalker.deref propagates the pointer-resolution error, and
flatten_composites at that node therefore fails too, so the run produces no
records; the agent's resolve_ref instead returns an empty dict and its
expansion continues. -/
theorem c5_amended_walker_deref_propagates (n : Nat) (root : Json) (cache : Cache)
    (fs : List (String × Json)) (ref : String) (e : PtrErr)
    (href : List.lookup "$ref" fs = some (.str ref))
    (hc : List.lookup ref cache = none)
    (hres : resolveJsonPointer root ref = .error e) :
    derefW (n + 1) root cache (.obj fs) = .error (Err.ptr e) ∧
    flattenComposites (n + 2) root cache (.obj fs) = .error (Err.ptr e) := by
  have hk : hasKey fs "$ref" = true := by
    rw [hasKey_eq_isSome, href]
    rfl
  have hd : derefW (n + 1) root cache (.obj fs) = .error (Err.ptr e) := by
    simp only [derefW, pyHasKeyE, exceptBind_okLeft, hk, if_pos rfl, pyGetItem, href,
      hc, hres, Except.mapError, exceptBind_errLeft]
    simp
  refine ⟨hd, ?_⟩
  simp only [flattenComposites, hd, exceptBind_errLeft]

/-- C5 witness: a concrete dangling reference where deref and
flatten_composites fail with the propagated PointerNotFound error. -/
theorem c5_witness :
    derefW 4 (.obj [("a", .num 1)]) [] (.obj [("$ref", .str "#/missing")]) =
        .error (Err.ptr .notFound) ∧
    flattenComposites 5 (.obj [("a", .num 1)]) [] (.obj [("$ref", .str "#/missing")]) =
        .error (Err.ptr .notFound) :=
  c5_amended_walker_deref_propagates 3 (.obj [("a", .num 1)]) []
    [("$ref", .str "#/missing")] "#/missing" .notFound (by decide) rfl (by decide)

theorem lookup_objSet_self : ∀ (os : List (String × Json)) (k : String) (v : Json),
    List.lookup k (objSet os k v) = some v
  | [], k, v => by simp [objSet, List.lookup]
  | (k1, v1) :: os, k, v => by
      by_cases h : k1 = k
      · subst h
        simp [objSet, List.lookup]
      · simp only [objSet, if_neg h, List.lookup]
        have : (k == k1) = false := by simp [Ne.symm h]
        rw [this]
        exact lookup_objSet_self os k v

theorem lookup_objSet_ne : ∀ (os : List (String × Json)) (k k2 : String) (v : Json),
    k2 ≠ k → List.lookup k2 (objSet os k v) = List.lookup k2 os
  | [], k, k2, v, hne => by
      simp only [objSet, List.lookup]
      have : (k2 == k) = false := by simp [hne]
      rw [this]
  | (k1, v1) :: os, k, k2, v, hne => by
      by_cases h : k1 = k
      · subst h
        simp only [objSet, if_pos rfl, List.lookup]
        have hb : (k2 == k1) = false := by simp [hne]
        rw [hb]
      · simp only [objSet, if_neg h, List.lookup]
        by_cases h2 : k2 = k1
        · subst h2
          simp
        · have hb : (k2 == k1) = false := by simp [h2]
          rw [hb]
          exact lookup_objSet_ne os k k2 v hne

theorem lookup_append_single_ne : ∀ (os : List (String × Json)) (k k2 : String) (v : Json),
    k2 ≠ k → List.lookup k2 (os ++ [(k, v)]) = List.lookup k2 os
  | [], k, k2, v, hne => by
      simp only [List.nil_append, List.lookup]
      have : (k2 == k) = false := by simp [hne]
      rw [this]
  | (k1, v1) :: os, k, k2, v, hne => by
      simp only [List.cons_append, List.lookup]
      by_cases h2 : k2 = k1
      · subst h2
        simp
      · have hb : (k2 == k1) = false := by simp [h2]
        rw [hb]
        exact lookup_append_single_ne os k k2 v hne

theorem pyReqStrsList_map : ∀ l : List String, pyReqStrsList (l.map Json.str) = .ok l
  | [] => rfl
  | s :: l => by
      simp only [List.map, pyReqStrsList, pyReqStrsList_map l, exceptBind_okLeft]

theorem stepPreservesRequired (out : Json) (k : String) (v : Json) (out2 : Json)
    (hk : k ≠ "required") (h : conservativeMergeStep out k v = .ok out2) :
    reqOf out2 = reqOf out := by
  cases out with
  | obj os =>
      simp only [conservativeMergeStep] at h
      by_cases he : k = "enum"
      · subst he
        rw [if_pos rfl] at h
        obtain ⟨me, hme, h⟩ := exceptBind_ok_elim h
        cases me with
        | some merged =>
            rw [Except.ok.injEq] at h
            subst h
            simp only [reqOf]
            exact lookup_objSet_ne os "enum" "required" _ (by decide)
        | none =>
            rw [Except.ok.injEq] at h
            subst h
            rfl
      · rw [if_neg he, if_neg hk] at h
        by_cases hh : hasKey os k = true
        · rw [if_pos hh, Except.ok.injEq] at h
          subst h
          rfl
        · rw [if_neg hh, Except.ok.injEq] at h
          subst h
          simp only [reqOf]
          exact lookup_append_single_ne os k "required" v (fun hcon => hk hcon.symm)
  | null => simp only [conservativeMergeStep] at h; cases h
  | bool b => simp only [conservativeMergeStep] at h; cases h
  | num n => simp only [conservativeMergeStep] at h; cases h
  | str s => simp only [conservativeMergeStep] at h; cases h
  | arr xs => simp only [conservativeMergeStep] at h; cases h

theorem stepRequiredSets (os : List (String × Json)) (ras rbs : List String)
    (ha : List.lookup "required" os = some (.arr (ras.map Json.str))) :
    ∃ os2, conservativeMergeStep (.obj os) "required" (.arr (rbs.map Json.str)) =
        .ok (.obj os2) ∧
      List.lookup "required" os2 =
        some (.arr ((sortStrs ((ras ++ rbs).dedup)).map Json.str)) := by
  simp only [conservativeMergeStep]
  rw [if_pos trivial]
  simp only [pyReqOf, ha, pyReqStrs, pyReqStrsList_map, exceptBind_okLeft]
  by_cases hz : ras = [] ∧ rbs = []
  · rw [if_pos hz]
    refine ⟨os, rfl, ?_⟩
    rw [ha, hz.1, hz.2]
    rfl
  · rw [if_neg hz]
    exact ⟨objSet os "required" (.arr ((sortStrs ((ras ++ rbs).dedup)).map Json.str)), rfl,
      lookup_objSet_self os "required" _⟩

theorem cmfPreservesRequired : ∀ (bs : List (String × Json)) (out m : Json),
    (∀ k, k ∈ keysOf bs → k ≠ "required") →
    conservativeMergeFields out bs = .ok m → reqOf m = reqOf out
  | [], out, m, _, h => by
      rw [conservativeMergeFields, Except.ok.injEq] at h
      subst h
      rfl
  | (k, v) :: bs, out, m, hks, h => by
      rw [conservativeMergeFields] at h
      obtain ⟨out2, hstep, h⟩ := exceptBind_ok_elim h
      have h1 : reqOf out2 = reqOf out :=
        stepPreservesRequired out k v out2 (hks k (by simp [keysOf])) hstep
      have h2 : reqOf m = reqOf out2 :=
        cmfPreservesRequired bs out2 m (fun k2 hk2 => hks k2 (by simp [keysOf] at hk2 ⊢; exact Or.inr hk2)) h
      rw [h2, h1]

theorem cmfRequired : ∀ (bs : List (String × Json)) (os : List (String × Json))
    (ras rbs : List String) (m : Json),
    List.lookup "required" os = some (.arr (ras.map Json.str)) →
    List.lookup "required" bs = some (.arr (rbs.map Json.str)) →
    (keysOf bs).Nodup →
    conservativeMergeFields (.obj os) bs = .ok m →
    reqOf m = some (.arr ((sortStrs ((ras ++ rbs).dedup)).map Json.str))
  | [], _, _, _, _, _, hb, _, _ => by simp [List.lookup] at hb
  | (k, v) :: bs, os, ras, rbs, m, ha, hb, hnd, h => by
      rw [conservativeMergeFields] at h
      obtain ⟨out2, hstep, h⟩ := exceptBind_ok_elim h
      by_cases hk : k = "required"
      · subst hk
        have hv : v = .arr (rbs.map Json.str) := by
          simp [List.lookup] at hb
          exact hb
        subst hv
        obtain ⟨os2, hs2, hlook⟩ := stepRequiredSets os ras rbs ha
        rw [hs2, Except.ok.injEq] at hstep
        subst hstep
        have hrest : ∀ k2, k2 ∈ keysOf bs → k2 ≠ "required" := by
          intro k2 hk2 hcon
          subst hcon
          simp only [keysOf, List.map, List.nodup_cons] at hnd
          exact hnd.1 hk2
        rw [cmfPreservesRequired bs (.obj os2) m hrest h]
        simpa [reqOf] using hlook
      · have hb2 : List.lookup "required" bs = some (.arr (rbs.map Json.str)) := by
          have : ("required" == k) = false := by simp [hk, Ne.symm]
          simpa [List.lookup, this] using hb
        have hreq2 : reqOf out2 = some (.arr (ras.map Json.str)) :=
          (stepPreservesRequired (.obj os) k v out2 (fun hcon => hk hcon) hstep).trans
            (by simpa [reqOf] using ha)
        cases out2 with
        | obj os2 =>
            exact cmfRequired bs os2 ras rbs m (by simpa [reqOf] using hreq2) hb2
              (by simp only [keysOf, List.map, List.nodup_cons] at hnd; exact hnd.2) h
        | null => simp [reqOf] at hreq2
        | bool b => simp [reqOf] at hreq2
        | num n => simp [reqOf] at hreq2
        | str s => simp [reqOf] at hreq2
        | arr xs => simp [reqOf] at hreq2

theorem sortStrs_eq_of_set_eq (l1 l2 : List String) (h1 : l1.Nodup) (h2 : l2.Nodup)
    (hm : ∀ s, s ∈ l1 ↔ s ∈ l2) : sortStrs l1 = sortStrs l2 := by
  apply List.eq_of_perm_of_sorted (r := strRel)
  · exact ((List.perm_insertionSort strRel l1).trans
      ((List.perm_ext_iff_of_nodup h1 h2).2 hm)).trans
      (List.perm_insertionSort strRel l2).symm
  · exact List.sorted_insertionSort strRel l1
  · exact List.sorted_insertionSort strRel l2

theorem sortStrs_dedup_comm (xs ys : List String) :
    sortStrs ((xs ++ ys).dedup) = sortStrs ((ys ++ xs).dedup) := by
  apply sortStrs_eq_of_set_eq _ _ (List.nodup_dedup _) (List.nodup_dedup _)
  intro s
  simp only [List.mem_dedup, List.mem_append]
  exact Or.comm

/-- C6 counterexample: merge(A, B).required = merge(B, A).required fails —
with A carrying required ["b","a"] and B lacking the key, conservative_merge
keeps A's list verbatim in one order and the sorted union in the other; and
merge_schemas keeps base-first append order, so exchanging the arguments
changes the element order. -/
theorem c6_cex_required_not_commutative :
    conservativeMerge (.obj [("required", .arr [.str "b", .str "a"])]) (.obj []) =
        .ok (.obj [("required", .arr [.str "b", .str "a"])]) ∧
    conservativeMerge (.obj []) (.obj [("required", .arr [.str "b", .str "a"])]) =
        .ok (.obj [("required", .arr [.str "a", .str "b"])]) ∧
    Json.arr [.str "b", .str "a"] ≠ Json.arr [.str "a", .str "b"] ∧
    (mergeSchemas (.obj [("required", .arr [.str "b"])])
        (.obj [("required", .arr [.str "a"])])).map Prod.fst =
      .ok (.obj [("required", .arr [.str "b", .str "a"])]) ∧
    (mergeSchemas (.obj [("required", .arr [.str "a"])])
        (.obj [("required", .arr [.str "b"])])).map Prod.fst =
      .ok (.obj [("required", .arr [.str "a", .str "b"])]) := by
  refine ⟨by decide, by decide, by decide, by decide, by decide⟩

/-- C6 amended: for conservative_merge, whenever both nodes carry a
list-of-strings required entry, merge(A,B).required and merge(B,A).required
are the same list: the lexically sorted union of the two required-name
sets.  (When the overlay lacks the key, base's list is kept verbatim and
the equality can fail; merge_schemas instead appends in base-first order,
so only set equality holds there.) -/
theorem c6_amended_required_union (afs bfs : List (String × Json)) (ras rbs : List String)
    (m1 m2 : Json)
    (ha : List.lookup "required" afs = some (.arr (ras.map Json.str)))
    (hb : List.lookup "required" bfs = some (.arr (rbs.map Json.str)))
    (han : (keysOf afs).Nodup) (hbn : (keysOf bfs).Nodup)
    (h1 : conservativeMerge (.obj afs) (.obj bfs) = .ok m1)
    (h2 : conservativeMerge (.obj bfs) (.obj afs) = .ok m2) :
    ∃ u : List String, reqOf m1 = some (.arr (u.map Json.str)) ∧
      reqOf m2 = some (.arr (u.map Json.str)) ∧
      u.Sorted strRel ∧ (∀ s, s ∈ u ↔ s ∈ ras ∨ s ∈ rbs) := by
  simp only [conservativeMerge] at h1 h2
  have r1 := cmfRequired bfs afs ras rbs m1 ha hb hbn h1
  have r2 := cmfRequired afs bfs rbs ras m2 hb ha han h2
  refine ⟨sortStrs ((ras ++ rbs).dedup), r1, ?_, List.sorted_insertionSort strRel _, ?_⟩
  · rw [r2, sortStrs_dedup_comm]
  · intro s
    simp only [sortStrs]
    rw [(List.perm_insertionSort strRel _).mem_iff, List.mem_dedup, List.mem_append]

/-- C6 witness: a concrete pair of nodes both carrying required lists,
where both merge orders produce the sorted union ["a", "b"]. -/
theorem c6_witness :
    ∃ u : List String,
      reqOf (.obj [("required", .arr [.str "a", .str "b"]), ("type", .str "object")]) =
        some (.arr (u.map Json.str)) ∧
      reqOf (.obj [("required", .arr [.str "a", .str "b"]), ("type", .str "object")]) =
        some (.arr (u.map Json.str)) ∧
      u.Sorted strRel ∧ (∀ s, s ∈ u ↔ s ∈ ["b"] ∨ s ∈ ["a"]) :=
  c6_amended_required_union [("required", .arr [.str "b"])]
    [("required", .arr [.str "a"]), ("type", .str "object")] ["b"] ["a"]
    (.obj [("required", .arr [.str "a", .str "b"]), ("type", .str "object")])
    (.obj [("required", .arr [.str "a", .str "b"]), ("type", .str "object")])
    (by decide) (by decide) (by decide) (by decide) (by decide) (by decide)

theorem lookup_objRemove_self : ∀ (fs : List (String × Json)) (k : String),
    List.lookup k (objRemove fs k) = none
  | [], _ => rfl
  | (k1, v1) :: fs, k => by
      simp only [objRemove]
      by_cases h : k1 = k
      · rw [if_pos h]
        exact lookup_objRemove_self fs k
      · rw [if_neg h]
        simp only [List.lookup]
        have hb : (k == k1) = false := by
          simp only [beq_eq_false_iff_ne]
          exact fun hc => h hc.symm
        rw [hb]
        exact lookup_objRemove_self fs k

theorem lookup_objRemove_ne : ∀ (fs : List (String × Json)) (k k2 : String),
    k2 ≠ k → List.lookup k2 (objRemove fs k) = List.lookup k2 fs
  | [], _, _, _ => rfl
  | (k1, v1) :: fs, k, k2, hne => by
      simp only [objRemove]
      by_cases h : k1 = k
      · rw [if_pos h, lookup_objRemove_ne fs k k2 hne]
        simp only [List.lookup]
        have hb : (k2 == k1) = false := by
          simp only [beq_eq_false_iff_ne]
          exact fun hc => hne (hc.trans h)
        rw [hb]
      · rw [if_neg h]
        simp only [List.lookup]
        by_cases h2 : k2 = k1
        · subst h2
          simp
        · have hb2 : (k2 == k1) = false := by
            simp only [beq_eq_false_iff_ne]
            exact h2
          rw [hb2]
          exact lookup_objRemove_ne fs k k2 hne

theorem mergeSchemas_lookup_other (bfs : List (String × Json)) (other m ba : Json)
    (h : mergeSchemas (.obj bfs) other = .ok (m, ba)) :
    ∃ mfs, m = .obj mfs ∧ ∀ k, k ≠ "properties" → k ≠ "required" → k ≠ "type" →
      List.lookup k mfs = List.lookup k bfs := by
  simp only [mergeSchemas] at h
  obtain ⟨pAct, hPA, h⟩ := exceptBind_ok_elim h
  obtain ⟨rAct, hRA, h⟩ := exceptBind_ok_elim h
  obtain ⟨tAct, hTA, h⟩ := exceptBind_ok_elim h
  clear hPA hRA hTA
  rcases pAct with _ | ⟨ps, pmut⟩ <;> rcases rAct with _ | ⟨r, rmut⟩ <;>
    rcases tAct with _ | tv <;>
    (simp only [Except.ok.injEq, Prod.mk.injEq] at h
     obtain ⟨hm, hba⟩ := h
     refine ⟨_, hm.symm, ?_⟩
     intro k hk1 hk2 hk3
     (try rw [lookup_objSet_ne _ _ _ _ hk3])
     (try rw [lookup_objSet_ne _ _ _ _ hk2])
     (try rw [lookup_objSet_ne _ _ _ _ hk1])
     (try rfl))

theorem expandStep_char (n : Nat) (doc : Json) (sfs ofs : List (String × Json)) (comb : String)
    (out2 : Json) (h : expandStep n doc (.obj sfs) (.obj ofs) comb = .ok out2) :
    ∃ ofs2, out2 = .obj ofs2 ∧
      ((∃ xs, List.lookup comb sfs = some (.arr xs)) → List.lookup comb ofs2 = none) ∧
      ((∀ xs, List.lookup comb sfs ≠ some (.arr xs)) →
        List.lookup comb ofs2 = List.lookup comb ofs) ∧
      (∀ k, k ≠ "properties" → k ≠ "required" → k ≠ "type" → k ≠ comb →
        List.lookup k ofs2 = List.lookup k ofs) := by
  cases n with
  | zero => simp [expandStep] at h
  | succ n =>
      simp only [expandStep] at h
      cases hlb : List.lookup comb sfs with
      | none =>
          simp only [hlb, Except.ok.injEq] at h
          subst h
          refine ⟨ofs, rfl, ?_, fun _ => rfl, fun _ _ _ _ _ => rfl⟩
          rintro ⟨xs, hxs⟩
          cases hxs
      | some v =>
          cases v with
          | arr branches =>
              simp only [hlb] at h
              obtain ⟨merged, hmg, h⟩ := exceptBind_ok_elim h
              obtain ⟨pr, hpr, h⟩ := exceptBind_ok_elim h
              obtain ⟨m', ba'⟩ := pr
              obtain ⟨mfs, hm, hpres⟩ := mergeSchemas_lookup_other ofs merged m' ba' hpr
              subst hm
              simp only [Except.ok.injEq] at h
              subst h
              refine ⟨objRemove mfs comb, rfl, ?_, ?_, ?_⟩
              · intro _
                exact lookup_objRemove_self mfs comb
              · intro hno
                exact absurd rfl (hno branches)
              · intro k h1 h2 h3 h4
                rw [lookup_objRemove_ne mfs comb k h4]
                exact hpres k h1 h2 h3
          | null =>
              simp only [hlb, Except.ok.injEq] at h
              subst h
              refine ⟨ofs, rfl, ?_, fun _ => rfl, fun _ _ _ _ _ => rfl⟩
              rintro ⟨xs, hxs⟩
              simp at hxs
          | bool b =>
              simp only [hlb, Except.ok.injEq] at h
              subst h
              refine ⟨ofs, rfl, ?_, fun _ => rfl, fun _ _ _ _ _ => rfl⟩
              rintro ⟨xs, hxs⟩
              simp at hxs
          | num x =>
              simp only [hlb, Except.ok.injEq] at h
              subst h
              refine ⟨ofs, rfl, ?_, fun _ => rfl, fun _ _ _ _ _ => rfl⟩
              rintro ⟨xs, hxs⟩
              simp at hxs
          | str x =>
              simp only [hlb, Except.ok.injEq] at h
              subst h
              refine ⟨ofs, rfl, ?_, fun _ => rfl, fun _ _ _ _ _ => rfl⟩
              rintro ⟨xs, hxs⟩
              simp at hxs
          | obj x =>
              simp only [hlb, Except.ok.injEq] at h
              subst h
              refine ⟨ofs, rfl, ?_, fun _ => rfl, fun _ _ _ _ _ => rfl⟩
              rintro ⟨xs, hxs⟩
              simp at hxs

theorem expandStep_noop (n : Nat) (doc : Json) (rfs : List (String × Json)) (out : Json)
    (comb : String) (hnl : hasListValue (.obj rfs) comb = false) :
    expandStep (n + 1) doc (.obj rfs) out comb = .ok out := by
  simp only [expandStep]
  cases hlb : List.lookup comb rfs with
  | none => rfl
  | some v =>
      cases v with
      | arr xs => simp [hasListValue, hlb] at hnl
      | null => rfl
      | bool b => rfl
      | num x => rfl
      | str x => rfl
      | obj x => rfl

theorem hasListValue_false_of (fsx : List (String × Json)) (k : String)
    (h : ∀ xs, List.lookup k fsx ≠ some (.arr xs)) : hasListValue (.obj fsx) k = false := by
  cases hl : List.lookup k fsx with
  | none => simp [hasListValue, hl]
  | some v =>
      cases v with
      | arr xs => exact absurd hl (h xs)
      | null => simp [hasListValue, hl]
      | bool b => simp [hasListValue, hl]
      | num x => simp [hasListValue, hl]
      | str x => simp [hasListValue, hl]
      | obj x => simp [hasListValue, hl]

/-- C2 counterexample: flatten_composites leaves the composite key in its
output (no pop), so the result of composite expansion in
extract_schema_to_csv still contains allOf; and expand_combinators leaves a
non-sequence-valued composite key in place. -/
theorem c2_cex_flatten_keeps_composite_key :
    (flattenComposites 5 (.obj []) []
        (.obj [("allOf", .arr [.obj [("type", .str "object")]])])).map
        (fun p => hasListValue p.1 "allOf") = .ok true ∧
    expandCombinators 3 (.obj []) (.obj [("oneOf", .num 5)]) =
      .ok (.obj [("oneOf", .num 5)]) := by
  constructor
  · decide
  · decide

/-- C2 amended: the agent's expand_combinators removes every composite key
whose value is a sequence — its result carries no list-valued
allOf/anyOf/oneOf — and re-expanding its result is a no-op; but
flatten_composites (extract_schema_to_csv) keeps the composite keys in its
output, so the no-composite-keys property fails there, and a composite key
bound to a non-sequence value survives even expand_combinators. -/
theorem c2_amended_expansion_removes_combinators (n : Nat) (doc s r : Json)
    (h : expandCombinators n doc s = .ok r) :
    hasListValue r "allOf" = false ∧ hasListValue r "anyOf" = false ∧
      hasListValue r "oneOf" = false ∧
      ∀ m, expandCombinators (m + 2) doc r = .ok r := by
  cases n with
  | zero => simp [expandCombinators] at h
  | succ n =>
      cases s with
      | obj sfs =>
          simp only [expandCombinators] at h
          obtain ⟨o1, h1, h⟩ := exceptBind_ok_elim h
          obtain ⟨o2, h2, h3⟩ := exceptBind_ok_elim h
          obtain ⟨f1, ho1, c1a, c1b, c1c⟩ := expandStep_char n doc sfs sfs "oneOf" o1 h1
          subst ho1
          obtain ⟨f2, ho2, c2a, c2b, c2c⟩ := expandStep_char n doc sfs f1 "anyOf" o2 h2
          subst ho2
          obtain ⟨f3, ho3, c3a, c3b, c3c⟩ := expandStep_char n doc sfs f2 "allOf" r h3
          subst ho3
          have hallOf : ∀ xs, List.lookup "allOf" f3 ≠ some (.arr xs) := by
            by_cases hex : ∃ xs, List.lookup "allOf" sfs = some (.arr xs)
            · rw [c3a hex]
              intro xs hc
              cases hc
            · push_neg at hex
              rw [c3b hex, c2c "allOf" (by decide) (by decide) (by decide) (by decide),
                c1c "allOf" (by decide) (by decide) (by decide) (by decide)]
              exact hex
          have hanyOf : ∀ xs, List.lookup "anyOf" f3 ≠ some (.arr xs) := by
            rw [c3c "anyOf" (by decide) (by decide) (by decide) (by decide)]
            by_cases hex : ∃ xs, List.lookup "anyOf" sfs = some (.arr xs)
            · rw [c2a hex]
              intro xs hc
              cases hc
            · push_neg at hex
              rw [c2b hex, c1c "anyOf" (by decide) (by decide) (by decide) (by decide)]
              exact hex
          have honeOf : ∀ xs, List.lookup "oneOf" f3 ≠ some (.arr xs) := by
            rw [c3c "oneOf" (by decide) (by decide) (by decide) (by decide),
              c2c "oneOf" (by decide) (by decide) (by decide) (by decide)]
            by_cases hex : ∃ xs, List.lookup "oneOf" sfs = some (.arr xs)
            · rw [c1a hex]
              intro xs hc
              cases hc
            · push_neg at hex
              rw [c1b hex]
              exact hex
          refine ⟨hasListValue_false_of f3 "allOf" hallOf,
            hasListValue_false_of f3 "anyOf" hanyOf,
            hasListValue_false_of f3 "oneOf" honeOf, fun m => ?_⟩
          simp only [expandCombinators]
          rw [expandStep_noop m doc f3 (.obj f3) "oneOf"
              (hasListValue_false_of f3 "oneOf" honeOf),
            exceptBind_okLeft,
            expandStep_noop m doc f3 (.obj f3) "anyOf"
              (hasListValue_false_of f3 "anyOf" hanyOf),
            exceptBind_okLeft,
            expandStep_noop m doc f3 (.obj f3) "allOf"
              (hasListValue_false_of f3 "allOf" hallOf)]
      | null =>
          simp only [expandCombinators, Except.ok.injEq] at h
          subst h
          exact ⟨rfl, rfl, rfl, fun m => rfl⟩
      | bool b =>
          simp only [expandCombinators, Except.ok.injEq] at h
          subst h
          exact ⟨rfl, rfl, rfl, fun m => rfl⟩
      | num x =>
          simp only [expandCombinators, Except.ok.injEq] at h
          subst h
          exact ⟨rfl, rfl, rfl, fun m => rfl⟩
      | str x =>
          simp only [expandCombinators, Except.ok.injEq] at h
          subst h
          exact ⟨rfl, rfl, rfl, fun m => rfl⟩
      | arr xs =>
          simp only [expandCombinators, Except.ok.injEq] at h
          subst h
          exact ⟨rfl, rfl, rfl, fun m => rfl⟩

/-- C2 witness: a concrete expansion run whose result carries no
list-valued composite key and is a fixed point of re-expansion. -/
theorem c2_witness :
    hasListValue (.obj []) "allOf" = false ∧ hasListValue (.obj []) "anyOf" = false ∧
      hasListValue (.obj []) "oneOf" = false ∧
      ∀ m, expandCombinators (m + 2) (.obj [("x", .num 1)]) (.obj []) = .ok (.obj []) :=
  c2_amended_expansion_removes_combinators 5 (.obj [("x", .num 1)])
    (.obj [("allOf", .arr [])]) (.obj []) (by decide)

theorem lookup_some_mem : ∀ (fs : List (String × Json)) (k : String) (v : Json),
    List.lookup k fs = some v → (k, v) ∈ fs
  | [], _, _, h => by cases h
  | (k1, v1) :: fs, k, v, h => by
      simp only [List.lookup] at h
      by_cases he : k = k1
      · subst he
        simp only [beq_self_eq_true] at h
        rw [Option.some.injEq] at h
        subst h
        exact List.mem_cons_self _ _
      · have hb : (k == k1) = false := by simp [he]
        rw [hb] at h
        exact List.mem_cons_of_mem _ (lookup_some_mem fs k v h)

theorem lookup_append_self_of_none :
    ∀ (os : List (String × Json)) (k : String) (v : Json),
    List.lookup k os = none → List.lookup k (os ++ [(k, v)]) = some v
  | [], k, v, _ => by simp [List.lookup]
  | (k1, v1) :: os, k, v, h => by
      simp only [List.lookup, List.cons_append] at h ⊢
      cases hb : (k == k1) with
      | true => rw [hb] at h; cases h
      | false =>
          rw [hb] at h
          exact lookup_append_self_of_none os k v h

theorem keysOf_objRemove_sublist : ∀ (fs : List (String × Json)) (k : String),
    List.Sublist (keysOf (objRemove fs k)) (keysOf fs)
  | [], _ => List.Sublist.refl _
  | (k1, v1) :: fs, k => by
      simp only [objRemove]
      by_cases h : k1 = k
      · rw [if_pos h]
        exact List.Sublist.cons _ (keysOf_objRemove_sublist fs k)
      · rw [if_neg h]
        exact List.Sublist.cons₂ _ (keysOf_objRemove_sublist fs k)

theorem cmStep_nonobj_fail (j : Json) (k : String) (v : Json) (out2 : Json)
    (hno : ∀ fs, j ≠ .obj fs) (h : conservativeMergeStep j k v = .ok out2) : False := by
  cases j with
  | obj fs => exact absurd rfl (hno fs)
  | null => simp [conservativeMergeStep] at h
  | bool b => simp [conservativeMergeStep] at h
  | num x => simp [conservativeMergeStep] at h
  | str x => simp [conservativeMergeStep] at h
  | arr x => simp [conservativeMergeStep] at h

theorem cmStep_self_lookup (os : List (String × Json)) (k : String) (v : Json) (out2 : Json)
    (hk1 : k ≠ "enum") (hk2 : k ≠ "required")
    (h : conservativeMergeStep (.obj os) k v = .ok out2) :
    ∃ os2, out2 = .obj os2 ∧ List.lookup k os2 = some ((List.lookup k os).getD v) := by
  simp only [conservativeMergeStep] at h
  rw [if_neg hk1, if_neg hk2] at h
  cases hhk : hasKey os k with
  | true =>
      rw [hhk, if_pos rfl, Except.ok.injEq] at h
      subst h
      have hs : (List.lookup k os).isSome := by rw [← hasKey_eq_isSome, hhk]
      obtain ⟨w, hw⟩ := Option.isSome_iff_exists.1 hs
      exact ⟨os, rfl, by rw [hw]; rfl⟩
  | false =>
      rw [hhk] at h
      simp only [Bool.false_eq_true] at h
      rw [if_neg (fun hc => hc), Except.ok.injEq] at h
      subst h
      have hn : List.lookup k os = none := by
        cases ho : List.lookup k os with
        | none => rfl
        | some w =>
            have : (List.lookup k os).isSome := by rw [ho]; rfl
            rw [← hasKey_eq_isSome, hhk] at this
            cases this
      exact ⟨os ++ [(k, v)], rfl, by rw [lookup_append_self_of_none os k v hn, hn]; rfl⟩

theorem cmStep_other_lookup (os : List (String × Json)) (k : String) (v : Json) (out2 : Json)
    (h : conservativeMergeStep (.obj os) k v = .ok out2) :
    ∃ os2, out2 = .obj os2 ∧ ∀ k2, k2 ≠ k → k2 ≠ "enum" → k2 ≠ "required" →
      List.lookup k2 os2 = List.lookup k2 os := by
  simp only [conservativeMergeStep] at h
  by_cases he : k = "enum"
  · subst he
    rw [if_pos rfl] at h
    obtain ⟨me, hme, h⟩ := exceptBind_ok_elim h
    cases me with
    | some merged =>
        rw [Except.ok.injEq] at h
        subst h
        exact ⟨_, rfl, fun k2 hk2 _ _ => lookup_objSet_ne os "enum" k2 _ hk2⟩
    | none =>
        rw [Except.ok.injEq] at h
        subst h
        exact ⟨os, rfl, fun _ _ _ _ => rfl⟩
  · rw [if_neg he] at h
    by_cases hr : k = "required"
    · subst hr
      rw [if_pos rfl] at h
      obtain ⟨ra, hra, h⟩ := exceptBind_ok_elim h
      obtain ⟨rb, hrb, h⟩ := exceptBind_ok_elim h
      by_cases hz : ra = [] ∧ rb = []
      · rw [if_pos hz, Except.ok.injEq] at h
        subst h
        exact ⟨os, rfl, fun _ _ _ _ => rfl⟩
      · rw [if_neg hz, Except.ok.injEq] at h
        subst h
        exact ⟨_, rfl, fun k2 _ _ hk2 => lookup_objSet_ne os "required" k2 _ hk2⟩
    · rw [if_neg hr] at h
      cases hhk : hasKey os k with
      | true =>
          rw [hhk, if_pos rfl, Except.ok.injEq] at h
          subst h
          exact ⟨os, rfl, fun _ _ _ _ => rfl⟩
      | false =>
          rw [hhk] at h
          simp only [Bool.false_eq_true] at h
          rw [if_neg (fun hc => hc), Except.ok.injEq] at h
          subst h
          exact ⟨os ++ [(k, v)], rfl, fun k2 hk2 _ _ =>
            lookup_append_single_ne os k k2 v hk2⟩

theorem cmf_preserves_other : ∀ (bs : List (String × Json)) (aos : List (String × Json))
    (m : Json) (k : String),
    conservativeMergeFields (.obj aos) bs = .ok m →
    k ≠ "enum" → k ≠ "required" → (∀ p, p ∈ bs → p.1 ≠ k) →
    ∃ mfs, m = .obj mfs ∧ List.lookup k mfs = List.lookup k aos
  | [], aos, m, k, h, _, _, _ => by
      rw [conservativeMergeFields, Except.ok.injEq] at h
      subst h
      exact ⟨aos, rfl, rfl⟩
  | (k0, v0) :: bs, aos, m, k, h, hke, hkr, hall => by
      rw [conservativeMergeFields] at h
      obtain ⟨out2, hstep, h⟩ := exceptBind_ok_elim h
      obtain ⟨os2, ho2, hpres⟩ := cmStep_other_lookup aos k0 v0 out2 hstep
      subst ho2
      have hkk0 : k ≠ k0 := fun hc => hall (k0, v0) (List.mem_cons_self _ _) hc.symm
      obtain ⟨mfs, hm, hl⟩ := cmf_preserves_other bs os2 m k h hke hkr
        (fun p hp => hall p (List.mem_cons_of_mem _ hp))
      exact ⟨mfs, hm, by rw [hl, hpres k hkk0 hke hkr]⟩

theorem cmf_overlay_lookup : ∀ (bs : List (String × Json)) (aos : List (String × Json))
    (m : Json) (k : String) (v : Json),
    conservativeMergeFields (.obj aos) bs = .ok m →
    (keysOf bs).Nodup → (k, v) ∈ bs → k ≠ "enum" → k ≠ "required" →
    ∃ mfs, m = .obj mfs ∧ List.lookup k mfs = some ((List.lookup k aos).getD v)
  | [], _, _, _, _, _, _, hmem, _, _ => by cases hmem
  | (k0, v0) :: bs, aos, m, k, v, h, hnd, hmem, hke, hkr => by
      rw [conservativeMergeFields] at h
      obtain ⟨out2, hstep, h⟩ := exceptBind_ok_elim h
      rcases List.mem_cons.1 hmem with heq | hmem2
      · rw [Prod.mk.injEq] at heq
        obtain ⟨hk0, hv0⟩ := heq
        subst hk0
        subst hv0
        obtain ⟨os2, ho2, hself⟩ := cmStep_self_lookup aos k v out2 hke hkr hstep
        subst ho2
        have hnotin : ∀ p, p ∈ bs → p.1 ≠ k := by
          intro p hp hc
          simp only [keysOf, List.map, List.nodup_cons] at hnd
          exact hnd.1 (hc ▸ List.mem_map_of_mem Prod.fst hp)
        obtain ⟨mfs, hm, hl⟩ := cmf_preserves_other bs os2 m k h hke hkr hnotin
        exact ⟨mfs, hm, by rw [hl, hself]⟩
      · obtain ⟨os2, ho2, hpres⟩ := cmStep_other_lookup aos k0 v0 out2 hstep
        subst ho2
        have hkk0 : k ≠ k0 := by
          intro hc
          subst hc
          simp only [keysOf, List.map, List.nodup_cons] at hnd
          exact hnd.1 (List.mem_map_of_mem Prod.fst hmem2)
        obtain ⟨mfs, hm, hl⟩ := cmf_overlay_lookup bs os2 m k v h
          (by simp only [keysOf, List.map, List.nodup_cons] at hnd; exact hnd.2) hmem2 hke hkr
        exact ⟨mfs, hm, by rw [hl, hpres k hkk0 hke hkr]⟩

/-- C3 counterexample: in the agent a $ref branch with sibling keys is
replaced by the bare resolved target — the sibling required key is
discarded from the expansion result even though the pointer resolves. -/
theorem c3_cex_agent_discards_ref_siblings :
    expandCombinators 10
        (.obj [("components", .obj [("schemas", .obj [("T", .obj [("type", .str "object")])])])])
        (.obj [("allOf",
          .arr [.obj [("$ref", .str "#/components/schemas/T"), ("required", .arr [.str "x"])]])]) =
      .ok (.obj [("type", .str "object")]) ∧
    List.lookup "required" [("type", Json.str "object")] = none ∧
    resolveJsonPointer
        (.obj [("components", .obj [("schemas", .obj [("T", .obj [("type", .str "object")])])])])
        "#/components/schemas/T" = .ok (.obj [("type", .str "object")]) := by
  refine ⟨by decide, by decide, by decide⟩

/-- C3 amended: SchemaWalker.deref (extract_schema_to_csv) merges the
sibling keys onto the recursively dereferenced target via
conservative_merge: every sibling key other than enum/required appears in
the result, bound to the target's value exactly on a per-key conflict and
to the sibling's value otherwise (enum/required siblings are unioned by the
merge policy and an empty union is dropped); the agent's expansion instead
replaces a $ref branch by the bare resolved target, discarding all sibling
keys. -/
theorem c3_amended_deref_merges_siblings (n : Nat) (root : Json) (cache : Cache)
    (sfs : List (String × Json)) (out : Json) (cache2 : Cache) (ref : String)
    (href : List.lookup "$ref" sfs = some (.str ref))
    (hnd : (keysOf sfs).Nodup)
    (h : derefW (n + 1) root cache (.obj sfs) = .ok (out, cache2)) :
    ∃ base, conservativeMerge base (.obj (objRemove sfs "$ref")) = .ok out ∧
      ∀ k v, List.lookup k sfs = some v → k ≠ "$ref" → k ≠ "enum" → k ≠ "required" →
        ∃ mfs, out = .obj mfs ∧ List.lookup k mfs = some ((objLookup base k).getD v) := by
  have hk : hasKey sfs "$ref" = true := by rw [hasKey_eq_isSome, href]; rfl
  simp only [derefW, pyHasKeyE, exceptBind_okLeft, hk, if_pos rfl, pyGetItem, href] at h
  have hmain : ∃ base, conservativeMerge base (.obj (objRemove sfs "$ref")) = .ok out := by
    cases hc : List.lookup ref cache with
    | some b =>
        simp only [hc] at h
        obtain ⟨o, hcm, h⟩ := exceptBind_ok_elim h
        simp only [Except.ok.injEq, Prod.mk.injEq] at h
        obtain ⟨ho, _⟩ := h
        subst ho
        exact ⟨b, hcm⟩
    | none =>
        simp only [hc] at h
        obtain ⟨target, hres, h⟩ := exceptBind_ok_elim h
        cases target with
        | obj tfs =>
            obtain ⟨bc, hbc, h⟩ := exceptBind_ok_elim h
            obtain ⟨o, hcm, h⟩ := exceptBind_ok_elim h
            simp only [Except.ok.injEq, Prod.mk.injEq] at h
            obtain ⟨ho, _⟩ := h
            subst ho
            exact ⟨bc.1, hcm⟩
        | null =>
            obtain ⟨o, hcm, h⟩ := exceptBind_ok_elim h
            simp only [Except.ok.injEq, Prod.mk.injEq] at h
            obtain ⟨ho, _⟩ := h
            subst ho
            exact ⟨Json.null, hcm⟩
        | bool b =>
            obtain ⟨o, hcm, h⟩ := exceptBind_ok_elim h
            simp only [Except.ok.injEq, Prod.mk.injEq] at h
            obtain ⟨ho, _⟩ := h
            subst ho
            exact ⟨Json.bool b, hcm⟩
        | num x =>
            obtain ⟨o, hcm, h⟩ := exceptBind_ok_elim h
            simp only [Except.ok.injEq, Prod.mk.injEq] at h
            obtain ⟨ho, _⟩ := h
            subst ho
            exact ⟨Json.num x, hcm⟩
        | str x =>
            obtain ⟨o, hcm, h⟩ := exceptBind_ok_elim h
            simp only [Except.ok.injEq, Prod.mk.injEq] at h
            obtain ⟨ho, _⟩ := h
            subst ho
            exact ⟨Json.str x, hcm⟩
        | arr x =>
            obtain ⟨o, hcm, h⟩ := exceptBind_ok_elim h
            simp only [Except.ok.injEq, Prod.mk.injEq] at h
            obtain ⟨ho, _⟩ := h
            subst ho
            exact ⟨Json.arr x, hcm⟩
  obtain ⟨base, hcm⟩ := hmain
  refine ⟨base, hcm, ?_⟩
  intro k v hkv hk1 hk2 hk3
  have hmem : (k, v) ∈ objRemove sfs "$ref" :=
    lookup_some_mem _ k v (by rw [lookup_objRemove_ne sfs "$ref" k hk1]; exact hkv)
  have hsnd : (keysOf (objRemove sfs "$ref")).Nodup :=
    (keysOf_objRemove_sublist sfs "$ref").nodup hnd
  cases base with
  | obj bos =>
      simp only [conservativeMerge] at hcm
      obtain ⟨mfs, hm, hl⟩ :=
        cmf_overlay_lookup (objRemove sfs "$ref") bos out k v hcm hsnd hmem hk2 hk3
      exact ⟨mfs, hm, by rw [hl]; rfl⟩
  | null =>
      cases hsl : objRemove sfs "$ref" with
      | nil => rw [hsl] at hmem; cases hmem
      | cons e es =>
          rw [hsl] at hcm
          simp only [conservativeMerge, conservativeMergeFields] at hcm
          obtain ⟨o2, hstep, _⟩ := exceptBind_ok_elim hcm
          exact absurd hstep (fun hs =>
            cmStep_nonobj_fail _ e.1 e.2 o2 (fun fs hf => by cases hf) hs)
  | bool b =>
      cases hsl : objRemove sfs "$ref" with
      | nil => rw [hsl] at hmem; cases hmem
      | cons e es =>
          rw [hsl] at hcm
          simp only [conservativeMerge, conservativeMergeFields] at hcm
          obtain ⟨o2, hstep, _⟩ := exceptBind_ok_elim hcm
          exact absurd hstep (fun hs =>
            cmStep_nonobj_fail _ e.1 e.2 o2 (fun fs hf => by cases hf) hs)
  | num x =>
      cases hsl : objRemove sfs "$ref" with
      | nil => rw [hsl] at hmem; cases hmem
      | cons e es =>
          rw [hsl] at hcm
          simp only [conservativeMerge, conservativeMergeFields] at hcm
          obtain ⟨o2, hstep, _⟩ := exceptBind_ok_elim hcm
          exact absurd hstep (fun hs =>
            cmStep_nonobj_fail _ e.1 e.2 o2 (fun fs hf => by cases hf) hs)
  | str x =>
      cases hsl : objRemove sfs "$ref" with
      | nil => rw [hsl] at hmem; cases hmem
      | cons e es =>
          rw [hsl] at hcm
          simp only [conservativeMerge, conservativeMergeFields] at hcm
          obtain ⟨o2, hstep, _⟩ := exceptBind_ok_elim hcm
          exact absurd hstep (fun hs =>
            cmStep_nonobj_fail _ e.1 e.2 o2 (fun fs hf => by cases hf) hs)
  | arr x =>
      cases hsl : objRemove sfs "$ref" with
      | nil => rw [hsl] at hmem; cases hmem
      | cons e es =>
          rw [hsl] at hcm
          simp only [conservativeMerge, conservativeMergeFields] at hcm
          obtain ⟨o2, hstep, _⟩ := exceptBind_ok_elim hcm
          exact absurd hstep (fun hs =>
            cmStep_nonobj_fail _ e.1 e.2 o2 (fun fs hf => by cases hf) hs)

/-- C3 witness: a concrete deref of a node with a $ref and a description
sibling, where the amended theorem yields the sibling in the result. -/
theorem c3_witness :
    ∃ base,
      conservativeMerge base
          (.obj (objRemove [("$ref", Json.str "#/D"), ("description", Json.str "d")] "$ref")) =
        .ok (.obj [("type", .str "string"), ("enum", .arr [.str "x"]),
          ("description", .str "d")]) ∧
      ∀ k v,
        List.lookup k [("$ref", Json.str "#/D"), ("description", Json.str "d")] = some v →
        k ≠ "$ref" → k ≠ "enum" → k ≠ "required" →
        ∃ mfs,
          (Json.obj [("type", .str "string"), ("enum", .arr [.str "x"]),
            ("description", .str "d")]) = .obj mfs ∧
          List.lookup k mfs = some ((objLookup base k).getD v) :=
  c3_amended_deref_merges_siblings 4
    (.obj [("D", .obj [("type", .str "string"), ("enum", .arr [.str "x"])])]) []
    [("$ref", .str "#/D"), ("description", .str "d")]
    (.obj [("type", .str "string"), ("enum", .arr [.str "x"]), ("description", .str "d")])
    [("#/D", .obj [("type", .str "string"), ("enum", .arr [.str "x"])])] "#/D"
    (by decide) (by decide) (by decide)

theorem keysOf_objSet_mem : ∀ (os : List (String × Json)) (k : String) (v : Json) (k2 : String),
    k2 ∈ keysOf (objSet os k v) → k2 ∈ keysOf os ∨ k2 = k
  | [], k, v, k2, h => by
      simp only [objSet, keysOf, List.map, List.mem_singleton] at h
      exact Or.inr h
  | (k1, v1) :: os, k, v, k2, h => by
      simp only [objSet] at h
      by_cases he : k1 = k
      · rw [if_pos he] at h
        simp only [keysOf, List.map, List.mem_cons] at h ⊢
        rcases h with h | h
        · exact Or.inl (Or.inl h)
        · exact Or.inl (Or.inr h)
      · rw [if_neg he] at h
        simp only [keysOf, List.map, List.mem_cons] at h ⊢
        rcases h with h | h
        · exact Or.inl (Or.inl h)
        · rcases keysOf_objSet_mem os k v k2 h with h2 | h2
          · exact Or.inl (Or.inr h2)
          · exact Or.inr h2

theorem cmStep_keys (os : List (String × Json)) (k : String) (v : Json) (out2 : Json)
    (h : conservativeMergeStep (.obj os) k v = .ok out2) :
    ∃ os2, out2 = .obj os2 ∧ ∀ k2, k2 ∈ keysOf os2 → k2 ∈ keysOf os ∨ k2 = k := by
  simp only [conservativeMergeStep] at h
  by_cases he : k = "enum"
  · subst he
    rw [if_pos rfl] at h
    obtain ⟨me, hme, h⟩ := exceptBind_ok_elim h
    cases me with
    | some merged =>
        rw [Except.ok.injEq] at h
        subst h
        exact ⟨_, rfl, fun k2 hk2 => keysOf_objSet_mem os "enum" _ k2 hk2⟩
    | none =>
        rw [Except.ok.injEq] at h
        subst h
        exact ⟨os, rfl, fun k2 hk2 => Or.inl hk2⟩
  · rw [if_neg he] at h
    by_cases hr : k = "required"
    · subst hr
      rw [if_pos rfl] at h
      obtain ⟨ra, hra, h⟩ := exceptBind_ok_elim h
      obtain ⟨rb, hrb, h⟩ := exceptBind_ok_elim h
      by_cases hz : ra = [] ∧ rb = []
      · rw [if_pos hz, Except.ok.injEq] at h
        subst h
        exact ⟨os, rfl, fun k2 hk2 => Or.inl hk2⟩
      · rw [if_neg hz, Except.ok.injEq] at h
        subst h
        exact ⟨_, rfl, fun k2 hk2 => keysOf_objSet_mem os "required" _ k2 hk2⟩
    · rw [if_neg hr] at h
      cases hhk : hasKey os k with
      | true =>
          rw [hhk, if_pos rfl, Except.ok.injEq] at h
          subst h
          exact ⟨os, rfl, fun k2 hk2 => Or.inl hk2⟩
      | false =>
          rw [hhk] at h
          simp only [Bool.false_eq_true] at h
          rw [if_neg (fun hc => hc), Except.ok.injEq] at h
          subst h
          refine ⟨os ++ [(k, v)], rfl, fun k2 hk2 => ?_⟩
          simp only [keysOf, List.map_append, List.mem_append, List.map,
            List.mem_singleton] at hk2
          rcases hk2 with hk2 | hk2
          · exact Or.inl hk2
          · exact Or.inr hk2

theorem cmf_keys : ∀ (bs : List (String × Json)) (aos : List (String × Json)) (m : Json),
    conservativeMergeFields (.obj aos) bs = .ok m →
    ∃ mfs, m = .obj mfs ∧ ∀ k, k ∈ keysOf mfs → k ∈ keysOf aos ∨ k ∈ keysOf bs
  | [], aos, m, h => by
      rw [conservativeMergeFields, Except.ok.injEq] at h
      subst h
      exact ⟨aos, rfl, fun k hk => Or.inl hk⟩
  | (k0, v0) :: bs, aos, m, h => by
      rw [conservativeMergeFields] at h
      obtain ⟨out2, hstep, h⟩ := exceptBind_ok_elim h
      obtain ⟨os2, ho2, hkeys⟩ := cmStep_keys aos k0 v0 out2 hstep
      subst ho2
      obtain ⟨mfs, hm, hkeys2⟩ := cmf_keys bs os2 m h
      refine ⟨mfs, hm, fun k hk => ?_⟩
      rcases hkeys2 k hk with h2 | h2
      · rcases hkeys k h2 with h3 | h3
        · exact Or.inl h3
        · exact Or.inr (by simp [keysOf, h3])
      · exact Or.inr (by simp only [keysOf, List.map, List.mem_cons]; exact Or.inr h2)

theorem keysOf_filterWhitelist (fs : List (String × Json)) (k : String)
    (h : k ∈ keysOf (filterWhitelist fs)) : k ∈ flattenWhitelist := by
  induction fs with
  | nil => cases h
  | cons e fs ih =>
      obtain ⟨k1, v1⟩ := e
      simp only [filterWhitelist, List.filter] at h ih
      cases hc : flattenWhitelist.contains k1 with
      | true =>
          rw [hc] at h
          simp only [keysOf, List.map, List.mem_cons] at h
          rcases h with h | h
          · subst h
            exact List.mem_of_elem_eq_true hc
          · exact ih h
      | false =>
          rw [hc] at h
          exact ih h

theorem pyGetItem_ok (s : Json) (key : String) (v : Json) (h : pyGetItem s key = .ok v) :
    ∃ fs, s = .obj fs ∧ List.lookup key fs = some v := by
  cases s with
  | obj fs =>
      simp only [pyGetItem] at h
      cases hl : List.lookup key fs with
      | none => rw [hl] at h; cases h
      | some w =>
          rw [hl] at h
          rw [Except.ok.injEq] at h
          subst h
          exact ⟨fs, rfl, hl⟩
  | null => cases h
  | bool b => cases h
  | num x => cases h
  | str x => cases h
  | arr x => cases h

theorem flattenFold_keys : ∀ (n : Nat) (root : Json) (cache : Cache)
    (aos : List (String × Json)) (subs : List Json) (m : Json) (c2 : Cache),
    flattenFold n root cache (.obj aos) subs = .ok (m, c2) →
    ∃ mfs, m = .obj mfs ∧ ∀ k, k ∈ keysOf mfs → k ∈ keysOf aos ∨ k ∈ flattenWhitelist
  | 0, _, _, _, _, _, _, h => by cases h
  | n + 1, root, cache, aos, [], m, c2, h => by
      simp only [flattenFold, Except.ok.injEq, Prod.mk.injEq] at h
      obtain ⟨hm, _⟩ := h
      subst hm
      exact ⟨aos, rfl, fun k hk => Or.inl hk⟩
  | n + 1, root, cache, aos, sub :: rest, m, c2, h => by
      simp only [flattenFold] at h
      obtain ⟨sc, hderef, h⟩ := exceptBind_ok_elim h
      obtain ⟨sc2, hflat, h⟩ := exceptBind_ok_elim h
      cases hx : sc2.1 with
      | obj sfs =>
          rw [hx] at h
          obtain ⟨fsv, hfsv, h⟩ := exceptBind_ok_elim h
          rw [Except.ok.injEq] at hfsv
          subst hfsv
          obtain ⟨acc2, hcm, h⟩ := exceptBind_ok_elim h
          obtain ⟨os2, ho2, hkeys⟩ := cmf_keys (filterWhitelist sfs) aos acc2 hcm
          subst ho2
          obtain ⟨mfs, hm, hkeys2⟩ := flattenFold_keys n root sc2.2 os2 rest m c2 h
          refine ⟨mfs, hm, fun k hk => ?_⟩
          rcases hkeys2 k hk with h2 | h2
          · rcases hkeys k h2 with h3 | h3
            · exact Or.inl h3
            · exact Or.inr (keysOf_filterWhitelist sfs k h3)
          · exact Or.inr h2
      | null => rw [hx] at h; cases h
      | bool b => rw [hx] at h; cases h
      | num x => rw [hx] at h; cases h
      | str x => rw [hx] at h; cases h
      | arr x => rw [hx] at h; cases h

theorem flattenStep_keys : ∀ (n : Nat) (root : Json) (cache : Cache) (s : Json)
    (key : String) (s2 : Json) (c2 : Cache),
    flattenStep n root cache s key = .ok (s2, c2) →
    ∀ k, k ∈ jsonKeys s2 → k ∈ jsonKeys s ∨ k ∈ flattenWhitelist
  | 0, _, _, _, _, _, _, h => by cases h
  | n + 1, root, cache, s, key, s2, c2, h => by
      simp only [flattenStep] at h
      obtain ⟨has, hhas, h⟩ := exceptBind_ok_elim h
      cases has with
      | false =>
          simp only [Bool.false_eq_true] at h
          rw [if_neg (fun hc => hc), Except.ok.injEq, Prod.mk.injEq] at h
          obtain ⟨hm, _⟩ := h
          subst hm
          exact fun k hk => Or.inl hk
      | true =>
          rw [if_pos rfl] at h
          obtain ⟨v, hgv, h⟩ := exceptBind_ok_elim h
          obtain ⟨sfs, hs, hlook⟩ := pyGetItem_ok s key v hgv
          subst hs
          cases v with
          | arr subs =>
              obtain ⟨mc, hfold, h⟩ := exceptBind_ok_elim h
              obtain ⟨s2v, hcm, h⟩ := exceptBind_ok_elim h
              simp only [Except.ok.injEq, Prod.mk.injEq] at h
              obtain ⟨hm, _⟩ := h
              subst hm
              obtain ⟨mfs, hm1, hmk⟩ := flattenFold_keys n root cache [] subs mc.1 mc.2
                (by rw [← hfold])
              rw [hm1] at hcm
              obtain ⟨os2, ho2, hkeys⟩ := cmf_keys mfs sfs s2v hcm
              subst ho2
              intro k hk
              simp only [jsonKeys] at hk ⊢
              rcases hkeys k hk with h2 | h2
              · exact Or.inl h2
              · rcases hmk k h2 with h3 | h3
                · cases h3
                · exact Or.inr h3
          | null =>
              rw [Except.ok.injEq, Prod.mk.injEq] at h
              obtain ⟨hm, _⟩ := h
              subst hm
              exact fun k hk => Or.inl hk
          | bool b =>
              rw [Except.ok.injEq, Prod.mk.injEq] at h
              obtain ⟨hm, _⟩ := h
              subst hm
              exact fun k hk => Or.inl hk
          | num x =>
              rw [Except.ok.injEq, Prod.mk.injEq] at h
              obtain ⟨hm, _⟩ := h
              subst hm
              exact fun k hk => Or.inl hk
          | str x =>
              rw [Except.ok.injEq, Prod.mk.injEq] at h
              obtain ⟨hm, _⟩ := h
              subst hm
              exact fun k hk => Or.inl hk
          | obj x =>
              rw [Except.ok.injEq, Prod.mk.injEq] at h
              obtain ⟨hm, _⟩ := h
              subst hm
              exact fun k hk => Or.inl hk

/-- C10: flatten_composites takes only whitelisted keys from the expanded
combinator branches — every key of its output either already belongs to the
dereferenced input node or is one of the whitelist keys (the constraint
keys, type, description, x-internal, properties, items,
additionalProperties); no other branch key (for example title or another
vendor extension) can reach the result from a branch. -/
theorem c10_flatten_branch_whitelist (n : Nat) (root : Json) (cache : Cache)
    (schema out : Json) (st2 : Cache)
    (h : flattenComposites (n + 1) root cache schema = .ok (out, st2)) :
    ∃ d stx, derefW n root cache schema = .ok (d, stx) ∧
      ∀ k, k ∈ jsonKeys out → k ∈ jsonKeys d ∨ k ∈ flattenWhitelist := by
  simp only [flattenComposites] at h
  obtain ⟨sc, hderef, h⟩ := exceptBind_ok_elim h
  obtain ⟨p2, hs2, h⟩ := exceptBind_ok_elim h
  obtain ⟨p3, hs3, h⟩ := exceptBind_ok_elim h
  refine ⟨sc.1, sc.2, by rw [← hderef], fun k hk => ?_⟩
  rcases flattenStep_keys n root p3.2 p3.1 "oneOf" out st2
      (by rw [← h]) k hk with h1 | h1
  · rcases flattenStep_keys n root p2.2 p2.1 "anyOf" p3.1 p3.2
        (by rw [← hs3]) k h1 with h2 | h2
    · exact flattenStep_keys n root sc.2 sc.1 "allOf" p2.1 p2.2 (by rw [← hs2]) k h2
    · exact Or.inr h2
  · exact Or.inr h1

/-- C10 witness: a concrete run where a branch key outside the whitelist
(title) does not reach the result while whitelisted keys do. -/
theorem c10_witness :
    ∃ d stx,
      derefW 4 (.obj []) []
          (.obj [("allOf", .arr [.obj [("type", .str "object"), ("title", .str "T")]])]) =
        .ok (d, stx) ∧
      ∀ k, k ∈ jsonKeys (.obj [("allOf", .arr [.obj [("type", .str "object"),
            ("title", .str "T")]]), ("type", .str "object")]) →
        k ∈ jsonKeys d ∨ k ∈ flattenWhitelist :=
  c10_flatten_branch_whitelist 4 (.obj []) []
    (.obj [("allOf", .arr [.obj [("type", .str "object"), ("title", .str "T")]])])
    (.obj [("allOf", .arr [.obj [("type", .str "object"), ("title", .str "T")]]),
      ("type", .str "object")]) [] (by decide)

/-! ### C7: dedupe passes -/

theorem errRow_eta (r : ErrRow) :
    ({status := r.status, errorCode := r.errorCode, description := r.description,
      enumValues := r.enumValues} : ErrRow) = r := rfl

theorem dedupeRowsAux_congr (rs : List ErrRow) :
    ∀ s1 s2, (∀ x, x ∈ s1 ↔ x ∈ s2) → dedupeRowsAux s1 rs = dedupeRowsAux s2 rs := by
  induction rs with
  | nil => intro s1 s2 _; rfl
  | cons r rs ih =>
      intro s1 s2 h
      simp only [dedupeRowsAux]
      by_cases hr : r ∈ s1
      · rw [if_pos hr, if_pos ((h r).mp hr)]
        exact ih s1 s2 h
      · rw [if_neg hr, if_neg (fun hc => hr ((h r).mpr hc))]
        congr 1
        refine ih (r :: s1) (r :: s2) ?_
        intro x
        simp only [List.mem_cons, h x]

theorem dedupeRowsAux_filter (rs : List ErrRow) :
    ∀ seen r,
      dedupeRowsAux (r :: seen) rs = dedupeRowsAux seen (rs.filter (fun x => x ≠ r)) := by
  induction rs with
  | nil => intro seen r; rfl
  | cons x rs ih =>
      intro seen r
      by_cases hxr : x = r
      · subst hxr
        have hf : (decide (x ≠ x)) = false := by simp
        simp only [dedupeRowsAux, List.filter_cons, hf]
        rw [if_pos (List.mem_cons_self x seen)]
        rw [if_neg (Bool.false_ne_true)]
        exact ih seen x
      · have ht : (decide (x ≠ r)) = true := by simp [hxr]
        simp only [dedupeRowsAux, List.filter_cons, ht]
        by_cases hxs : x ∈ seen
        · rw [if_pos (List.mem_cons_of_mem _ hxs)]
          rw [if_pos hxs]
          exact ih seen r
        · have hnx : x ∉ r :: seen := by
            intro hc
            rcases List.mem_cons.mp hc with h1 | h2
            · exact hxr h1
            · exact hxs h2
          rw [if_neg hnx]
          rw [if_neg hxs]
          congr 1
          have hcg : dedupeRowsAux (x :: r :: seen) rs = dedupeRowsAux (r :: x :: seen) rs := by
            refine dedupeRowsAux_congr rs _ _ ?_
            intro y
            simp only [List.mem_cons]
            constructor
            · rintro (h1 | h2 | h3)
              · exact Or.inr (Or.inl h1)
              · exact Or.inl h2
              · exact Or.inr (Or.inr h3)
            · rintro (h1 | h2 | h3)
              · exact Or.inr (Or.inl h1)
              · exact Or.inl h2
              · exact Or.inr (Or.inr h3)
          rw [hcg]
          exact ih (x :: seen) r

theorem dedupeRows_spec_aux :
    ∀ n rows, rows.length ≤ n → dedupeRows rows = dedupeSpecFirstSeen rows := by
  intro n
  induction n with
  | zero =>
      intro rows h
      cases rows with
      | nil => rw [dedupeSpecFirstSeen]; rfl
      | cons r rs => simp at h
  | succ n ih =>
      intro rows h
      cases rows with
      | nil => rw [dedupeSpecFirstSeen]; rfl
      | cons r rs =>
          rw [dedupeSpecFirstSeen]
          show dedupeRowsAux [] (r :: rs) = _
          simp only [dedupeRowsAux]
          rw [if_neg (List.not_mem_nil r)]
          rw [errRow_eta]
          congr 1
          rw [dedupeRowsAux_filter rs [] r]
          exact ih (rs.filter (fun x => x ≠ r))
            (le_trans (List.length_filter_le _ _) (Nat.le_of_succ_le_succ h))

theorem bdAux_distinct (ps : List (DRow × Nat)) :
    ∀ seen, (ps.map Prod.snd).Nodup → (∀ p ∈ ps, ∀ q ∈ seen, p.2 ≠ q.2) →
      bdAux seen ps = ps.map Prod.fst := by
  induction ps with
  | nil => intro seen _ _; rfl
  | cons p ps ih =>
      intro seen hnd hdis
      simp only [bdAux, List.map_cons]
      have hp : p ∉ seen := fun hc => hdis p (List.mem_cons_self p ps) p hc rfl
      rw [if_neg hp]
      congr 1
      have hnd2 : (p.2 :: ps.map Prod.snd).Nodup := by simpa using hnd
      have hnd' := List.nodup_cons.mp hnd2
      refine ih (p :: seen) hnd'.2 ?_
      intro q hq t ht
      rcases List.mem_cons.mp ht with h1 | h2
      · subst h1
        intro hc
        exact hnd'.1 (hc ▸ List.mem_map_of_mem Prod.snd hq)
      · exact hdis q (List.mem_cons_of_mem _ hq) t h2

theorem zip_range_fst (rows : List DRow) :
    (rows.zip (List.range rows.length)).map Prod.fst = rows :=
  List.map_fst_zip _ _ (by rw [List.length_range])

theorem zip_range_snd_nodup (rows : List DRow) :
    ((rows.zip (List.range rows.length)).map Prod.snd).Nodup := by
  rw [List.map_snd_zip _ _ (by rw [List.length_range])]
  exact List.nodup_range _

/-- C7 counterexample: the agent's build_dictionary dedupe key includes
id(r) (a per-row discriminator), so an exact duplicate record survives:
the pass is not keyed on the visible fields alone. -/
theorem c7_cex_agent_dedupe_keeps_duplicates :
    buildDictionaryDedupe
        [⟨"name", "desc", "string", "", "Body", "name"⟩,
         ⟨"name", "desc", "string", "", "Body", "name"⟩] =
      [⟨"name", "desc", "string", "", "Body", "name"⟩,
       ⟨"name", "desc", "string", "", "Body", "name"⟩] ∧
    ([⟨"name", "desc", "string", "", "Body", "name"⟩,
      ⟨"name", "desc", "string", "", "Body", "name"⟩] : List DRow) ≠
      [⟨"name", "desc", "string", "", "Body", "name"⟩] := by
  constructor
  · rfl
  · intro h
    exact absurd (congrArg List.length h) (by decide)

/-- C7 (amended): dedupe_rows removes exact duplicates keyed on the full
visible four-field tuple, keeping first-seen order — it equals the
spec-side first-occurrence filter — whereas the agent's build_dictionary
dedupe, whose key also carries id(r), is the identity and preserves every
occurrence. -/
theorem c7_amended_dedupe_first_seen :
    (∀ rows : List ErrRow, dedupeRows rows = dedupeSpecFirstSeen rows) ∧
    (∀ rows : List DRow, buildDictionaryDedupe rows = rows) := by
  constructor
  · intro rows
    exact dedupeRows_spec_aux rows.length rows (le_refl _)
  · intro rows
    show bdAux [] (rows.zip (List.range rows.length)) = rows
    rw [bdAux_distinct _ [] (zip_range_snd_nodup rows)
      (fun p _ q hq => absurd hq (List.not_mem_nil q))]
    exact zip_range_fst rows

/-! ### C9: ordering machinery for sort_rows / group_by_status -/

theorem then_ne_gt (o1 o2 : Ordering) :
    (o1.then o2) ≠ .gt ↔ (o1 = .lt ∨ (o1 = .eq ∧ o2 ≠ .gt)) := by
  cases o1 <;> cases o2 <;> decide

theorem then_swap (o1 o2 : Ordering) : (o1.then o2).swap = o1.swap.then o2.swap := by
  cases o1 <;> cases o2 <;> rfl

theorem ord_ne_gt_cases (o : Ordering) (h : o ≠ .gt) : o = .lt ∨ o = .eq := by
  cases o
  · exact Or.inl rfl
  · exact Or.inr rfl
  · exact absurd rfl h

theorem intCmp_lt_iff (a b : Int) : intCmp a b = .lt ↔ a < b := by
  rcases lt_trichotomy a b with h | h | h
  · simp [intCmp, h]
  · subst h; simp [intCmp, lt_irrefl]
  · simp [intCmp, h, lt_asymm h]

theorem intCmp_eq_iff (a b : Int) : intCmp a b = .eq ↔ a = b := by
  rcases lt_trichotomy a b with h | h | h
  · simp [intCmp, h, ne_of_lt h]
  · subst h; simp [intCmp, lt_irrefl]
  · simp [intCmp, h, lt_asymm h, ne_of_gt h]

theorem intCmp_swap (a b : Int) : intCmp a b = (intCmp b a).swap := by
  rcases lt_trichotomy a b with h | h | h
  · simp [intCmp, h, lt_asymm h, Ordering.swap]
  · subst h; simp [intCmp, lt_irrefl, Ordering.swap]
  · simp [intCmp, h, lt_asymm h, Ordering.swap]

theorem charListCmp_swap (as : List Char) :
    ∀ bs, charListCmp as bs = (charListCmp bs as).swap := by
  induction as with
  | nil => intro bs; cases bs <;> rfl
  | cons a as ih =>
      intro bs
      cases bs with
      | nil => rfl
      | cons b bs =>
          rcases Nat.lt_trichotomy a.toNat b.toNat with h | h | h
          · simp [charListCmp, h, Nat.lt_asymm h, Ordering.swap]
          · simp [charListCmp, h, Ordering.swap, ih bs]
          · simp [charListCmp, h, Nat.lt_asymm h, Ordering.swap]

theorem charListCmp_eq_iff (as : List Char) :
    ∀ bs, charListCmp as bs = .eq ↔ as = bs := by
  induction as with
  | nil =>
      intro bs
      cases bs with
      | nil => simp [charListCmp]
      | cons b bs => simp [charListCmp]
  | cons a as ih =>
      intro bs
      cases bs with
      | nil => simp [charListCmp]
      | cons b bs =>
          simp only [charListCmp, List.cons.injEq]
          rcases Nat.lt_trichotomy a.toNat b.toNat with h | h | h
          · rw [if_pos h]
            constructor
            · intro hc; exact absurd hc (by decide)
            · rintro ⟨h1, -⟩; subst h1; exact absurd h (lt_irrefl _)
          · rw [if_neg (by omega), if_neg (by omega)]
            have hab : a = b := Char.ext (UInt32.ext h)
            rw [ih bs]
            simp [hab]
          · rw [if_neg (by omega), if_pos h]
            constructor
            · intro hc; exact absurd hc (by decide)
            · rintro ⟨h1, -⟩; subst h1; exact absurd h (lt_irrefl _)

theorem charListCmp_cons_lt (a b : Char) (as bs : List Char) :
    charListCmp (a :: as) (b :: bs) = .lt ↔
      a.toNat < b.toNat ∨ (a.toNat = b.toNat ∧ charListCmp as bs = .lt) := by
  simp only [charListCmp]
  rcases Nat.lt_trichotomy a.toNat b.toNat with h | h | h
  · simp [h]
  · simp [h]
  · simp [h, Nat.lt_asymm h, (Nat.ne_of_lt h).symm]

theorem charListCmp_lt_trans (as : List Char) :
    ∀ bs cs, charListCmp as bs = .lt → charListCmp bs cs = .lt →
      charListCmp as cs = .lt := by
  induction as with
  | nil =>
      intro bs cs h1 h2
      cases bs with
      | nil => simp [charListCmp] at h1
      | cons b bs =>
          cases cs with
          | nil => simp [charListCmp] at h2
          | cons c cs => rfl
  | cons a as ih =>
      intro bs cs h1 h2
      cases bs with
      | nil => simp [charListCmp] at h1
      | cons b bs =>
          cases cs with
          | nil => simp [charListCmp] at h2
          | cons c cs =>
              rw [charListCmp_cons_lt] at h1 h2 ⊢
              rcases h1 with h1 | ⟨e1, h1⟩
              · rcases h2 with h2 | ⟨e2, _⟩
                · exact Or.inl (Nat.lt_trans h1 h2)
                · exact Or.inl (by omega)
              · rcases h2 with h2 | ⟨e2, h2⟩
                · exact Or.inl (by omega)
                · exact Or.inr ⟨by omega, ih bs cs h1 h2⟩

theorem strCmp_eq_iff (a b : String) : strCmp a b = .eq ↔ a = b := by
  unfold strCmp
  rw [charListCmp_eq_iff]
  constructor
  · intro h; cases a; cases b; exact congrArg String.mk h
  · intro h; rw [h]

theorem strCmp_swap (a b : String) : strCmp a b = (strCmp b a).swap :=
  charListCmp_swap a.data b.data

theorem strCmp_lt_trans (a b c : String) :
    strCmp a b = .lt → strCmp b c = .lt → strCmp a c = .lt :=
  charListCmp_lt_trans a.data b.data c.data

theorem rowCmp_swap (a b : ErrRow) : rowCmp a b = (rowCmp b a).swap := by
  unfold rowCmp
  rw [then_swap, then_swap, then_swap]
  rw [intCmp_swap (statusNum a) (statusNum b), strCmp_swap a.status b.status,
    strCmp_swap a.errorCode b.errorCode, strCmp_swap a.description b.description]

theorem rowCmp_ne_gt_iff (a b : ErrRow) :
    rowCmp a b ≠ .gt ↔
      (statusNum a < statusNum b ∨ (statusNum a = statusNum b ∧
        (strCmp a.status b.status = .lt ∨ (a.status = b.status ∧
          (strCmp a.errorCode b.errorCode = .lt ∨ (a.errorCode = b.errorCode ∧
            strCmp a.description b.description ≠ .gt)))))) := by
  unfold rowCmp
  rw [then_ne_gt, then_ne_gt, then_ne_gt, intCmp_lt_iff, intCmp_eq_iff,
    strCmp_eq_iff, strCmp_eq_iff]

theorem rowRel_total : ∀ a b : ErrRow, rowRel a b ∨ rowRel b a := by
  intro a b
  by_cases h : rowCmp a b = .gt
  · right
    show rowCmp b a ≠ .gt
    rw [rowCmp_swap b a, h]
    decide
  · left; exact h

theorem rowRel_trans : ∀ a b c : ErrRow, rowRel a b → rowRel b c → rowRel a c := by
  intro a b c hab hbc
  have hab' := (rowCmp_ne_gt_iff a b).mp hab
  have hbc' := (rowCmp_ne_gt_iff b c).mp hbc
  refine (rowCmp_ne_gt_iff a c).mpr ?_
  rcases hab' with h1 | ⟨e1, hab'⟩
  · rcases hbc' with h2 | ⟨e2, _⟩
    · exact Or.inl (lt_trans h1 h2)
    · exact Or.inl (by omega)
  · rcases hbc' with h2 | ⟨e2, hbc'⟩
    · exact Or.inl (by omega)
    · refine Or.inr ⟨by omega, ?_⟩
      rcases hab' with s1 | ⟨se1, hab'⟩
      · rcases hbc' with s2 | ⟨se2, _⟩
        · exact Or.inl (strCmp_lt_trans _ _ _ s1 s2)
        · exact Or.inl (by rw [← se2]; exact s1)
      · rcases hbc' with s2 | ⟨se2, hbc'⟩
        · exact Or.inl (by rw [se1]; exact s2)
        · refine Or.inr ⟨se1.trans se2, ?_⟩
          rcases hab' with t1 | ⟨te1, hab'⟩
          · rcases hbc' with t2 | ⟨te2, _⟩
            · exact Or.inl (strCmp_lt_trans _ _ _ t1 t2)
            · exact Or.inl (by rw [← te2]; exact t1)
          · rcases hbc' with t2 | ⟨te2, hbc'⟩
            · exact Or.inl (by rw [te1]; exact t2)
            · refine Or.inr ⟨te1.trans te2, ?_⟩
              rcases ord_ne_gt_cases _ hbc' with d2 | d2
              · rcases ord_ne_gt_cases _ hab' with d1 | d1
                · simp [strCmp_lt_trans _ _ _ d1 d2]
                · have e := (strCmp_eq_iff _ _).mp d1
                  rw [e]; exact hbc'
              · have e := (strCmp_eq_iff _ _).mp d2
                rw [← e]; exact hab'

instance : IsTotal ErrRow rowRel := ⟨rowRel_total⟩

instance : IsTrans ErrRow rowRel := ⟨rowRel_trans⟩

instance : IsTotal Int intRel := ⟨fun a b => Int.le_total a b⟩

instance : IsTrans Int intRel := ⟨fun a b c h1 h2 => Int.le_trans h1 h2⟩

theorem rowRel_statusNum_le (a b : ErrRow) (h : rowRel a b) :
    statusNum a ≤ statusNum b := by
  have h' := (rowCmp_ne_gt_iff a b).mp h
  rcases h' with h1 | ⟨e1, -⟩
  · omega
  · omega

/-- C9 counterexample: an integer status at or above the 10^9 sentinel
sorts after a non-numeric status, so a row whose status parses as an
integer does not always precede rows whose status does not parse. -/
theorem c9_cex_large_int_status_sorts_after_lexical :
    (pyInt? "2000000000").isSome = true ∧ (pyInt? "zz").isSome = false ∧
    sortRows [⟨"2000000000", "", "", ""⟩, ⟨"zz", "", "", ""⟩] =
      [⟨"zz", "", "", ""⟩, ⟨"2000000000", "", "", ""⟩] := by
  refine ⟨rfl, rfl, ?_⟩
  rfl

/-- C9 (amended): group_by_status output is sorted by the numeric-aware
key status_num (the parsed integer, or the sentinel 10^9 when the status
does not parse, so a parsing row precedes a non-parsing one exactly when
its value is below 10^9 and integer statuses appear in ascending order);
smart_sort splits any value list into the numerically sorted parse-able
values, rendered with str, followed by the lexically sorted rest; and the
two 404 rows with codes NOT_FOUND and GONE collapse into one row with
ErrorCode "GONE, NOT_FOUND" sorted before the 500 row. -/
theorem c9_amended_group_sort :
    (∀ rows : List ErrRow,
        List.Pairwise (fun a b => statusNum a ≤ statusNum b) (groupByStatus rows)) ∧
    (∀ vs : List String, ∃ ns ss,
        smartSort vs = ns.map (fun n => toString n) ++ ss ∧
        List.Pairwise intRel ns ∧
        List.Pairwise strRel ss ∧
        List.Perm ns (vs.filterMap pyInt?) ∧
        List.Perm ss (vs.filter (fun v => (pyInt? v).isNone))) ∧
    groupByStatus
        [⟨"500", "INTERNAL", "", ""⟩, ⟨"404", "NOT_FOUND", "", ""⟩,
         ⟨"404", "GONE", "", ""⟩] =
      [⟨"404", "GONE, NOT_FOUND", "", ""⟩, ⟨"500", "INTERNAL", "", ""⟩] := by
  refine ⟨?_, ?_, ?_⟩
  · intro rows
    exact List.Pairwise.imp (fun h => rowRel_statusNum_le _ _ h)
      (List.sorted_insertionSort rowRel _)
  · intro vs
    refine ⟨List.insertionSort intRel (vs.filterMap pyInt?),
      sortStrs (vs.filter (fun v => (pyInt? v).isNone)), rfl, ?_, ?_, ?_, ?_⟩
    · exact List.sorted_insertionSort intRel _
    · exact List.sorted_insertionSort strRel _
    · exact List.perm_insertionSort intRel _
    · exact List.perm_insertionSort strRel _
  · rfl

/-! ### C8: path uniqueness of the walk -/

set_option maxHeartbeats 1000000 in
/-- C8 counterexample: a schema with a property literally named "*" next
to an additionalProperties entry emits the path "*" twice in one run. -/
theorem c8_cex_star_paths_collide :
    emittedPaths 15 c8CexSchema [] c8CexSchema "" = .ok ["*", "*"] ∧
    ¬ (["*", "*"] : List String).Nodup := ⟨rfl, by decide⟩

theorem goodList_iff : ∀ xs : List Json,
    GoodList xs = true ↔ ∀ x ∈ xs, GoodJson x = true := by
  intro xs
  induction xs with
  | nil => simp [GoodList]
  | cons x xs ih => simp [GoodList, Bool.and_eq_true, ih, List.forall_mem_cons]

theorem goodFields_iff : ∀ fs : List (String × Json),
    GoodFields fs = true ↔ ∀ kv ∈ fs, goodKey kv.1 = true ∧ GoodJson kv.2 = true := by
  intro fs
  induction fs with
  | nil => simp [GoodFields]
  | cons kv fs ih =>
      obtain ⟨k, v⟩ := kv
      simp [GoodFields, Bool.and_eq_true, ih, List.forall_mem_cons, and_assoc]

theorem nodupKeys_iff : ∀ ks : List String, nodupKeys ks = true ↔ ks.Nodup := by
  intro ks
  induction ks with
  | nil => simp [nodupKeys]
  | cons k ks ih =>
      simp [nodupKeys, Bool.and_eq_true, ih, List.nodup_cons, List.elem_iff,
        List.contains]

theorem goodObj_iff (fs : List (String × Json)) :
    GoodJson (.obj fs) = true ↔ (keysOf fs).Nodup ∧ GoodFields fs = true := by
  simp [GoodJson, Bool.and_eq_true, nodupKeys_iff]

theorem good_lookup (fs : List (String × Json)) (k : String) (v : Json)
    (hg : GoodFields fs = true) (h : List.lookup k fs = some v) : GoodJson v = true :=
  ((goodFields_iff fs).mp hg (k, v) (lookup_some_mem fs k v h)).2

theorem goodJson_lookup (fs : List (String × Json)) (k : String) (v : Json)
    (hg : GoodJson (.obj fs) = true) (h : List.lookup k fs = some v) : GoodJson v = true :=
  good_lookup fs k v ((goodObj_iff fs).mp hg).2 h

theorem goodFields_objSet : ∀ (fs : List (String × Json)) (k : String) (v : Json),
    GoodFields fs = true → goodKey k = true → GoodJson v = true →
    GoodFields (objSet fs k v) = true
  | [], k, v, _, hk, hv => by simp [objSet, GoodFields, hk, hv]
  | (k1, v1) :: fs, k, v, hg, hk, hv => by
      simp only [GoodFields, Bool.and_eq_true] at hg
      by_cases he : k1 = k
      · simp only [objSet, if_pos he, GoodFields, Bool.and_eq_true]
        exact ⟨⟨hg.1.1, hv⟩, hg.2⟩
      · simp only [objSet, if_neg he, GoodFields, Bool.and_eq_true]
        exact ⟨⟨hg.1.1, hg.1.2⟩, goodFields_objSet fs k v hg.2 hk hv⟩

theorem keysOf_objSet_nodup : ∀ (fs : List (String × Json)) (k : String) (v : Json),
    (keysOf fs).Nodup → (keysOf (objSet fs k v)).Nodup
  | [], k, v, _ => by simp [objSet, keysOf]
  | (k1, v1) :: fs, k, v, hg => by
      simp only [keysOf, List.map_cons, List.nodup_cons] at hg
      by_cases he : k1 = k
      · simp only [objSet, if_pos he, keysOf, List.map_cons, List.nodup_cons]
        exact hg
      · simp only [objSet, if_neg he, keysOf, List.map_cons, List.nodup_cons]
        refine ⟨?_, keysOf_objSet_nodup fs k v hg.2⟩
        intro hc
        rcases keysOf_objSet_mem fs k v k1 hc with h | h
        · exact hg.1 h
        · exact he h

theorem goodJson_objSet (fs : List (String × Json)) (k : String) (v : Json)
    (hg : GoodJson (.obj fs) = true) (hk : goodKey k = true) (hv : GoodJson v = true) :
    GoodJson (.obj (objSet fs k v)) = true := by
  rw [goodObj_iff] at hg ⊢
  exact ⟨keysOf_objSet_nodup fs k v hg.1, goodFields_objSet fs k v hg.2 hk hv⟩

theorem goodFields_append_one (fs : List (String × Json)) (k : String) (v : Json)
    (hg : GoodFields fs = true) (hk : goodKey k = true) (hv : GoodJson v = true) :
    GoodFields (fs ++ [(k, v)]) = true := by
  rw [goodFields_iff] at hg ⊢
  intro kv hkv
  rcases List.mem_append.mp hkv with h | h
  · exact hg kv h
  · rcases List.mem_singleton.mp h with rfl
    exact ⟨hk, hv⟩

theorem hasKey_false_not_mem (fs : List (String × Json)) (k : String)
    (h : hasKey fs k = false) : k ∉ keysOf fs := by
  intro hc
  rcases List.mem_map.mp hc with ⟨⟨k1, v1⟩, hm, he⟩
  have : hasKey fs k = true := by
    apply List.any_eq_true.mpr
    exact ⟨(k1, v1), hm, by simpa using he⟩
  rw [h] at this
  cases this

theorem goodJson_append_one (fs : List (String × Json)) (k : String) (v : Json)
    (hg : GoodJson (.obj fs) = true) (hk : goodKey k = true) (hv : GoodJson v = true)
    (habs : hasKey fs k = false) : GoodJson (.obj (fs ++ [(k, v)])) = true := by
  rw [goodObj_iff] at hg ⊢
  refine ⟨?_, goodFields_append_one fs k v hg.2 hk hv⟩
  have : keysOf (fs ++ [(k, v)]) = keysOf fs ++ [k] := by simp [keysOf]
  rw [this]
  apply List.Nodup.append hg.1 (List.nodup_singleton k)
  intro x hx hx2
  rcases List.mem_singleton.mp hx2 with rfl
  exact hasKey_false_not_mem fs x habs hx

theorem mem_objRemove : ∀ (fs : List (String × Json)) (k : String)
    (kv : String × Json), kv ∈ objRemove fs k → kv ∈ fs
  | [], _, _, h => h
  | (k1, v1) :: fs, k, kv, h => by
      simp only [objRemove] at h
      by_cases he : k1 = k
      · rw [if_pos he] at h
        exact List.mem_cons_of_mem _ (mem_objRemove fs k kv h)
      · rw [if_neg he] at h
        rcases List.mem_cons.mp h with h | h
        · exact h ▸ List.mem_cons_self _ _
        · exact List.mem_cons_of_mem _ (mem_objRemove fs k kv h)

theorem goodFields_objRemove : ∀ (fs : List (String × Json)) (k : String),
    GoodFields fs = true → GoodFields (objRemove fs k) = true := by
  intro fs k hg
  rw [goodFields_iff] at hg ⊢
  intro kv hkv
  exact hg kv (mem_objRemove fs k kv hkv)

theorem goodJson_objRemove (fs : List (String × Json)) (k : String)
    (hg : GoodJson (.obj fs) = true) : GoodJson (.obj (objRemove fs k)) = true := by
  rw [goodObj_iff] at hg ⊢
  exact ⟨(keysOf_objRemove_sublist fs k).nodup hg.1,
    goodFields_objRemove fs k hg.2⟩

theorem goodList_append_elem (acc : List Json) (x : Json)
    (ha : GoodList acc = true) (hx : GoodJson x = true) :
    GoodList (acc ++ [x]) = true := by
  rw [goodList_iff] at ha ⊢
  intro y hy
  rcases List.mem_append.mp hy with h | h
  · exact ha y h
  · rcases List.mem_singleton.mp h with rfl
    exact hx

theorem enumElems_good : ∀ (xs acc out : List Json),
    GoodList acc = true → GoodList xs = true → enumElems acc xs = .ok out →
    GoodList out = true := by
  intro xs
  induction xs with
  | nil =>
      intro acc out ha _ h
      simp only [enumElems, Except.ok.injEq] at h
      exact h ▸ ha
  | cons x xs ih =>
      intro acc out ha hx h
      have hgx : GoodJson x = true ∧ GoodList xs = true := by
        simpa [GoodList, Bool.and_eq_true] using hx
      cases x
      case arr ys => simp [enumElems] at h
      case obj fs2 => simp [enumElems] at h
      all_goals
        simp only [enumElems] at h
        split at h
        · exact ih acc out ha hgx.2 h
        · exact ih _ out (goodList_append_elem acc _ ha hgx.1) hgx.2 h

theorem mergeEnumsAux_good : ∀ (vs : List (Option Json)) (acc out : List Json),
    GoodList acc = true → (∀ j, some j ∈ vs → GoodJson j = true) →
    mergeEnumsAux acc vs = .ok out → GoodList out = true := by
  intro vs
  induction vs with
  | nil =>
      intro acc out ha _ h
      simp only [mergeEnumsAux, Except.ok.injEq] at h
      exact h ▸ ha
  | cons v vs ih =>
      intro acc out ha hv h
      cases v with
      | none =>
          simp only [mergeEnumsAux] at h
          exact ih acc out ha (fun j hj => hv j (List.mem_cons_of_mem _ hj)) h
      | some j =>
          have hgj : GoodJson j = true := hv j (List.mem_cons_self _ _)
          cases j with
          | arr ys =>
              simp only [mergeEnumsAux] at h
              obtain ⟨acc2, hacc2, h⟩ := exceptBind_ok_elim h
              have hys : GoodList ys = true := by simpa [GoodJson] using hgj
              exact ih acc2 out (enumElems_good ys acc acc2 ha hys hacc2)
                (fun j2 hj2 => hv j2 (List.mem_cons_of_mem _ hj2)) h
          | null =>
              simp only [mergeEnumsAux] at h
              exact ih acc out ha (fun j2 hj2 => hv j2 (List.mem_cons_of_mem _ hj2)) h
          | bool b =>
              simp only [mergeEnumsAux] at h
              exact ih acc out ha (fun j2 hj2 => hv j2 (List.mem_cons_of_mem _ hj2)) h
          | num m =>
              simp only [mergeEnumsAux] at h
              exact ih acc out ha (fun j2 hj2 => hv j2 (List.mem_cons_of_mem _ hj2)) h
          | str s =>
              simp only [mergeEnumsAux] at h
              exact ih acc out ha (fun j2 hj2 => hv j2 (List.mem_cons_of_mem _ hj2)) h
          | obj fs2 =>
              simp only [mergeEnumsAux] at h
              exact ih acc out ha (fun j2 hj2 => hv j2 (List.mem_cons_of_mem _ hj2)) h

theorem mergeEnums_good (vs : List (Option Json)) (merged : List Json)
    (hv : ∀ j, some j ∈ vs → GoodJson j = true)
    (h : mergeEnums vs = .ok (some merged)) : GoodList merged = true := by
  unfold mergeEnums at h
  obtain ⟨acc, hacc, h⟩ := exceptBind_ok_elim h
  have hga := mergeEnumsAux_good vs [] acc rfl hv hacc
  cases acc with
  | nil => simp at h
  | cons y ys =>
      simp only [Except.ok.injEq, Option.some.injEq] at h
      exact h ▸ hga

theorem sortEnums_good (l : List Json) (h : GoodList l = true) :
    GoodList (sortEnums l) = true := by
  rw [goodList_iff] at h ⊢
  intro x hx
  exact h x ((List.perm_insertionSort jdRel l).mem_iff.mp hx)

theorem goodList_map_str : ∀ l : List String, GoodList (l.map Json.str) = true
  | [] => rfl
  | s :: l => by simp [GoodList, GoodJson, goodList_map_str l]

theorem mapError_ok {e e2 a : Type} (f : e → e2) (x : Except e a) (v : a) :
    x.mapError f = .ok v ↔ x = .ok v := by
  cases x <;> simp [Except.mapError]

theorem cmStep_good (base : Json) (k : String) (v : Json) (out2 : Json)
    (hg : GoodJson base = true) (hk : goodKey k = true) (hv : GoodJson v = true)
    (h : conservativeMergeStep base k v = .ok out2) : GoodJson out2 = true := by
  cases base with
  | obj os =>
      simp only [conservativeMergeStep] at h
      by_cases hke : k = "enum"
      · rw [if_pos hke] at h
        obtain ⟨mr, hmr, h⟩ := exceptBind_ok_elim h
        cases mr with
        | none =>
            simp only [Except.ok.injEq] at h
            exact h ▸ hg
        | some merged =>
            simp only [Except.ok.injEq] at h
            subst h
            refine goodJson_objSet os "enum" _ hg (by decide) ?_
            show GoodList (sortEnums merged) = true
            refine sortEnums_good merged (mergeEnums_good _ merged ?_ hmr)
            intro j hj
            rcases List.mem_cons.mp hj with h1 | h1
            · cases hlk : List.lookup "enum" os with
              | none => rw [hlk] at h1; cases h1
              | some w =>
                  rw [hlk] at h1
                  cases h1
                  exact goodJson_lookup os "enum" j hg hlk
            · rcases List.mem_singleton.mp h1 with h2
              cases h2
              exact hv
      · rw [if_neg hke] at h
        by_cases hkr : k = "required"
        · rw [if_pos hkr] at h
          obtain ⟨ra, hra, h⟩ := exceptBind_ok_elim h
          obtain ⟨rb, hrb, h⟩ := exceptBind_ok_elim h
          split at h
          · simp only [Except.ok.injEq] at h
            exact h ▸ hg
          · simp only [Except.ok.injEq] at h
            subst h
            refine goodJson_objSet os "required" _ hg (by decide) ?_
            show GoodList (List.map Json.str _) = true
            exact goodList_map_str _
        · rw [if_neg hkr] at h
          cases hhk : hasKey os k with
          | true =>
              rw [hhk] at h
              rw [if_pos rfl] at h
              simp only [Except.ok.injEq] at h
              exact h ▸ hg
          | false =>
              rw [hhk] at h
              rw [if_neg (by simp)] at h
              simp only [Except.ok.injEq] at h
              exact h ▸ goodJson_append_one os k v hg hk hv hhk
  | null => simp [conservativeMergeStep] at h
  | bool b => simp [conservativeMergeStep] at h
  | num m => simp [conservativeMergeStep] at h
  | str s => simp [conservativeMergeStep] at h
  | arr xs => simp [conservativeMergeStep] at h

theorem cmFields_good : ∀ (bs : List (String × Json)) (a out : Json),
    GoodJson a = true → (∀ kv ∈ bs, goodKey kv.1 = true ∧ GoodJson kv.2 = true) →
    conservativeMergeFields a bs = .ok out → GoodJson out = true := by
  intro bs
  induction bs with
  | nil =>
      intro a out ha _ h
      simp only [conservativeMergeFields, Except.ok.injEq] at h
      exact h ▸ ha
  | cons kv bs ih =>
      intro a out ha hb h
      obtain ⟨k, v⟩ := kv
      simp only [conservativeMergeFields] at h
      obtain ⟨a2, ha2, h⟩ := exceptBind_ok_elim h
      have hkv := hb (k, v) (List.mem_cons_self _ _)
      exact ih a2 out (cmStep_good a k v a2 ha hkv.1 hkv.2 ha2)
        (fun kv2 hkv2 => hb kv2 (List.mem_cons_of_mem _ hkv2)) h

theorem conservativeMerge_good (a b out : Json)
    (ha : GoodJson a = true) (hb : GoodJson b = true)
    (h : conservativeMerge a b = .ok out) : GoodJson out = true := by
  cases b with
  | obj bs =>
      exact cmFields_good bs a out ha ((goodFields_iff bs).mp ((goodObj_iff bs).mp hb).2) h
  | null => cases h
  | bool x => cases h
  | num x => cases h
  | str x => cases h
  | arr x => cases h

theorem descendPtr_good : ∀ (segs : List String) (cur v : Json),
    GoodJson cur = true → descendPtr cur segs = .ok v → GoodJson v = true
  | [], cur, v, hg, h => by
      simp only [descendPtr, Except.ok.injEq] at h
      exact h ▸ hg
  | part :: rest, cur, v, hg, h => by
      cases cur with
      | obj fs =>
          simp only [descendPtr] at h
          cases hlk : List.lookup (unescapeSegment part) fs with
          | none => simp only [hlk] at h; cases h
          | some w =>
              simp only [hlk] at h
              exact descendPtr_good rest w v (goodJson_lookup fs _ w hg hlk) h
      | arr xs =>
          simp only [descendPtr] at h
          cases hi : pyInt? (unescapeSegment part) with
          | none => simp only [hi] at h; cases h
          | some i =>
              simp only [hi] at h
              by_cases hb : 0 ≤ i ∧ i.toNat < xs.length
              · rw [dif_pos hb] at h
                refine descendPtr_good rest _ v ?_ h
                have hgl : GoodList xs = true := by simpa [GoodJson] using hg
                rw [goodList_iff] at hgl
                exact hgl _ (List.get_mem xs _ _)
              · rw [dif_neg hb] at h
                cases h
      | null => simp [descendPtr] at h
      | bool b => simp [descendPtr] at h
      | num m => simp [descendPtr] at h
      | str s => simp [descendPtr] at h

theorem resolveJsonPointer_good (doc : Json) (p : String) (v : Json)
    (hg : GoodJson doc = true) (h : resolveJsonPointer doc p = .ok v) :
    GoodJson v = true := by
  unfold resolveJsonPointer at h
  split at h
  · cases h
  · split at h
    · simp only [Except.ok.injEq] at h
      exact h ▸ hg
    · exact descendPtr_good (ptrSegments p) doc v hg h

theorem cacheGood_lookup (cache : Cache) (r : String) (b : Json)
    (hc : CacheGood cache = true) (h : List.lookup r cache = some b) :
    GoodJson b = true := by
  have hm := lookup_some_mem cache r b h
  have := List.all_eq_true.mp hc (r, b) hm
  simpa using this

theorem derefW_good : ∀ (n : Nat) (root : Json) (cache : Cache) (schema out : Json)
    (cache2 : Cache), GoodJson root = true → CacheGood cache = true →
    GoodJson schema = true → derefW n root cache schema = .ok (out, cache2) →
    GoodJson out = true ∧ CacheGood cache2 = true := by
  intro n
  induction n with
  | zero => intro root cache schema out cache2 _ _ _ h; cases h
  | succ n ih =>
      intro root cache schema out cache2 hroot hcache hschema h
      simp only [derefW] at h
      obtain ⟨hasv, hhas, h⟩ := exceptBind_ok_elim h
      cases hasv with
      | false =>
          rw [if_neg (by simp)] at h
          simp only [Except.ok.injEq, Prod.mk.injEq] at h
          rcases h with ⟨h1, h2⟩
          exact ⟨h1 ▸ hschema, h2 ▸ hcache⟩
      | true =>
          rw [if_pos rfl] at h
          obtain ⟨rv, hrv, h⟩ := exceptBind_ok_elim h
          cases rv
          case null => simp only [exceptBind_errLeft] at h; cases h
          case bool x => simp only [exceptBind_errLeft] at h; cases h
          case num x => simp only [exceptBind_errLeft] at h; cases h
          case arr x => simp only [exceptBind_errLeft] at h; cases h
          case obj x => simp only [exceptBind_errLeft] at h; cases h
          case str rs =>
          simp only [exceptBind_okLeft] at h
          cases hsc : schema with
          | null => rw [hsc] at h; simp only [exceptBind_errLeft] at h; cases h
          | bool x => rw [hsc] at h; simp only [exceptBind_errLeft] at h; cases h
          | num x => rw [hsc] at h; simp only [exceptBind_errLeft] at h; cases h
          | str x => rw [hsc] at h; simp only [exceptBind_errLeft] at h; cases h
          | arr x => rw [hsc] at h; simp only [exceptBind_errLeft] at h; cases h
          | obj fs =>
              rw [hsc] at h
              simp only [exceptBind_okLeft] at h
              have hsibg : GoodJson (.obj (objRemove fs "$ref")) = true :=
                goodJson_objRemove fs "$ref" (hsc ▸ hschema)
              cases hlk : List.lookup rs cache with
              | some b =>
                  simp only [hlk] at h
                  obtain ⟨mout, hmout, h⟩ := exceptBind_ok_elim h
                  simp only [Except.ok.injEq, Prod.mk.injEq] at h
                  rcases h with ⟨h1, h2⟩
                  refine ⟨h1 ▸ ?_, h2 ▸ hcache⟩
                  exact conservativeMerge_good b _ mout
                    (cacheGood_lookup cache rs b hcache hlk) hsibg hmout
              | none =>
                  simp only [hlk] at h
                  obtain ⟨target, htgt, h⟩ := exceptBind_ok_elim h
                  rw [mapError_ok] at htgt
                  have htg : GoodJson target = true :=
                    resolveJsonPointer_good root rs target hroot htgt
                  have step : ∀ (bc : Json × Cache),
                      GoodJson bc.1 = true → CacheGood bc.2 = true →
                      ((conservativeMerge bc.1 (Json.obj (objRemove fs "$ref")) >>=
                          fun mout => Except.ok (mout, (rs, bc.1) :: bc.2)) =
                        .ok (out, cache2)) →
                      GoodJson out = true ∧ CacheGood cache2 = true := by
                    intro bc hbc1 hbc2 hh
                    obtain ⟨mout, hmout, hh⟩ := exceptBind_ok_elim hh
                    simp only [Except.ok.injEq, Prod.mk.injEq] at hh
                    rcases hh with ⟨h1, h2⟩
                    constructor
                    · exact h1 ▸ conservativeMerge_good bc.1 _ mout hbc1 hsibg hmout
                    · refine h2 ▸ ?_
                      show CacheGood ((rs, bc.1) :: bc.2) = true
                      simp only [CacheGood, List.all_cons, Bool.and_eq_true]
                      exact ⟨hbc1, hbc2⟩
                  cases htc : target with
                  | obj tfs =>
                      rw [htc] at h
                      obtain ⟨bc, hbc, h⟩ := exceptBind_ok_elim h
                      obtain ⟨b1, b2⟩ := bc
                      have hg2 := ih root cache (.obj tfs) b1 b2 hroot hcache
                        (htc ▸ htg) hbc
                      exact step (b1, b2) hg2.1 hg2.2 h
                  | null =>
                      rw [htc] at h
                      exact step (.null, cache) (by rfl) hcache h
                  | bool x =>
                      rw [htc] at h
                      exact step (.bool x, cache) (by rfl) hcache h
                  | num x =>
                      rw [htc] at h
                      exact step (.num x, cache) (by rfl) hcache h
                  | str x =>
                      rw [htc] at h
                      exact step (.str x, cache) (by rfl) hcache h
                  | arr x =>
                      rw [htc] at h
                      exact step (.arr x, cache) (htc ▸ htg) hcache h

theorem pyGetItem_good (j : Json) (k : String) (v : Json)
    (hg : GoodJson j = true) (h : pyGetItem j k = .ok v) : GoodJson v = true := by
  cases j with
  | obj fs =>
      simp only [pyGetItem] at h
      cases hlk : List.lookup k fs with
      | none => simp only [hlk] at h; cases h
      | some w =>
          simp only [hlk, Except.ok.injEq] at h
          exact h ▸ goodJson_lookup fs k w hg hlk
  | null => cases h
  | bool x => cases h
  | num x => cases h
  | str x => cases h
  | arr x => cases h

theorem filterWhitelist_good (sfs : List (String × Json))
    (hg : GoodJson (.obj sfs) = true) :
    GoodJson (.obj (filterWhitelist sfs)) = true := by
  rw [goodObj_iff] at hg ⊢
  constructor
  · refine List.Sublist.nodup ?_ hg.1
    exact List.Sublist.map Prod.fst (List.filter_sublist sfs)
  · rw [goodFields_iff] at hg ⊢
    intro kv hkv
    exact hg.2 kv (List.mem_of_mem_filter hkv)

theorem flatten_good_all : ∀ n : Nat,
    (∀ (root : Json) (cache : Cache) (schema : Json) (pr : Json × Cache),
        GoodJson root = true → CacheGood cache = true → GoodJson schema = true →
        flattenComposites n root cache schema = .ok pr →
        GoodJson pr.1 = true ∧ CacheGood pr.2 = true) ∧
    (∀ (root : Json) (cache : Cache) (schema : Json) (key : String) (pr : Json × Cache),
        GoodJson root = true → CacheGood cache = true → GoodJson schema = true →
        flattenStep n root cache schema key = .ok pr →
        GoodJson pr.1 = true ∧ CacheGood pr.2 = true) ∧
    (∀ (root : Json) (cache : Cache) (acc : Json) (subs : List Json) (pr : Json × Cache),
        GoodJson root = true → CacheGood cache = true → GoodJson acc = true →
        GoodList subs = true → flattenFold n root cache acc subs = .ok pr →
        GoodJson pr.1 = true ∧ CacheGood pr.2 = true) := by
  intro n
  induction n with
  | zero =>
      refine ⟨?_, ?_, ?_⟩
      · intro root cache schema pr _ _ _ h; cases h
      · intro root cache schema key pr _ _ _ h; cases h
      · intro root cache acc subs pr _ _ _ _ h; cases h
  | succ n ih =>
      obtain ⟨ihF, ihS, ihD⟩ := ih
      refine ⟨?_, ?_, ?_⟩
      · intro root cache schema pr hroot hcache hschema h
        simp only [flattenComposites] at h
        obtain ⟨sc, hsc, h⟩ := exceptBind_ok_elim h
        obtain ⟨s1, c1⟩ := sc
        have hg1 := derefW_good n root cache schema s1 c1 hroot hcache hschema hsc
        obtain ⟨sc2, hsc2, h⟩ := exceptBind_ok_elim h
        have hg2 := ihS root c1 s1 "allOf" sc2 hroot hg1.2 hg1.1 hsc2
        obtain ⟨sc3, hsc3, h⟩ := exceptBind_ok_elim h
        have hg3 := ihS root sc2.2 sc2.1 "anyOf" sc3 hroot hg2.2 hg2.1 hsc3
        exact ihS root sc3.2 sc3.1 "oneOf" pr hroot hg3.2 hg3.1 h
      · intro root cache schema key pr hroot hcache hschema h
        simp only [flattenStep] at h
        obtain ⟨hasv, hhas, h⟩ := exceptBind_ok_elim h
        cases hasv with
        | false =>
            rw [if_neg (by simp)] at h
            simp only [Except.ok.injEq] at h
            exact h ▸ ⟨hschema, hcache⟩
        | true =>
            rw [if_pos rfl] at h
            obtain ⟨v, hv, h⟩ := exceptBind_ok_elim h
            have hgv := pyGetItem_good schema key v hschema hv
            cases v with
            | arr subs =>
                obtain ⟨mc, hmc, h⟩ := exceptBind_ok_elim h
                have hgm := ihD root cache (.obj []) subs mc hroot hcache rfl
                  (by simpa [GoodJson] using hgv) hmc
                obtain ⟨s2, hs2, h⟩ := exceptBind_ok_elim h
                simp only [Except.ok.injEq] at h
                subst h
                exact ⟨conservativeMerge_good schema mc.1 s2 hschema hgm.1 hs2, hgm.2⟩
            | null =>
                simp only [Except.ok.injEq] at h
                exact h ▸ ⟨hschema, hcache⟩
            | bool x =>
                simp only [Except.ok.injEq] at h
                exact h ▸ ⟨hschema, hcache⟩
            | num x =>
                simp only [Except.ok.injEq] at h
                exact h ▸ ⟨hschema, hcache⟩
            | str x =>
                simp only [Except.ok.injEq] at h
                exact h ▸ ⟨hschema, hcache⟩
            | obj x =>
                simp only [Except.ok.injEq] at h
                exact h ▸ ⟨hschema, hcache⟩
      · intro root cache acc subs pr hroot hcache hacc hsubs h
        cases subs with
        | nil =>
            simp only [flattenFold, Except.ok.injEq] at h
            exact h ▸ ⟨hacc, hcache⟩
        | cons sub rest =>
            have hgs : GoodJson sub = true ∧ GoodList rest = true := by
              simpa [GoodList, Bool.and_eq_true] using hsubs
            simp only [flattenFold] at h
            obtain ⟨sc, hsc, h⟩ := exceptBind_ok_elim h
            obtain ⟨s1, c1⟩ := sc
            have hg1 := derefW_good n root cache sub s1 c1 hroot hcache hgs.1 hsc
            obtain ⟨sc2, hsc2, h⟩ := exceptBind_ok_elim h
            obtain ⟨s2, c2⟩ := sc2
            have hg2 := ihF root c1 s1 (s2, c2) hroot hg1.2 hg1.1 hsc2
            cases s2 with
            | obj sfs =>
                simp only [exceptBind_okLeft] at h
                obtain ⟨acc2, hacc2, h⟩ := exceptBind_ok_elim h
                have hga2 : GoodJson acc2 = true :=
                  conservativeMerge_good acc _ acc2 hacc
                    (filterWhitelist_good sfs hg2.1) hacc2
                exact ihD root c2 acc2 rest pr hroot hg2.2 hga2 hgs.2 h
            | null => simp only [exceptBind_errLeft] at h; cases h
            | bool x => simp only [exceptBind_errLeft] at h; cases h
            | num x => simp only [exceptBind_errLeft] at h; cases h
            | str x => simp only [exceptBind_errLeft] at h; cases h
            | arr x => simp only [exceptBind_errLeft] at h; cases h

theorem digitChar10_toNat : ∀ d, d < 10 → (digitChar10 d).toNat = 48 + d := by decide

theorem digitChar10_isDigit : ∀ d, d < 10 → myIsDigit (digitChar10 d) = true := by decide

theorem digitsToNat_append (ds : List Char) (c : Char) :
    digitsToNat (ds ++ [c]) = digitsToNat ds * 10 + (c.toNat - 48) := by
  simp [digitsToNat, List.foldl_append]

theorem natDigitsAux_val : ∀ (fuel n : Nat), n < fuel →
    digitsToNat (natDigitsAux fuel n) = n := by
  intro fuel
  induction fuel with
  | zero => intro n h; exact absurd h (Nat.not_lt_zero n)
  | succ f ihf =>
      intro n h
      simp only [natDigitsAux]
      by_cases h10 : n < 10
      · rw [if_pos h10]
        show digitsToNat [digitChar10 n] = n
        simp only [digitsToNat, List.foldl]
        rw [digitChar10_toNat n h10]
        omega
      · rw [if_neg h10]
        rw [digitsToNat_append]
        have h1 : n / 10 < n := Nat.div_lt_self (by omega) (by omega)
        rw [ihf (n / 10) (by omega)]
        rw [digitChar10_toNat (n % 10) (Nat.mod_lt n (by omega))]
        omega

theorem natToStr_inj (a b : Nat) (h : natToStr a = natToStr b) : a = b := by
  unfold natToStr at h
  have h2 : natDigitsAux (a + 1) a = natDigitsAux (b + 1) b := congrArg String.data h
  have ha := natDigitsAux_val (a + 1) a (by omega)
  rw [h2, natDigitsAux_val (b + 1) b (by omega)] at ha
  omega

theorem natDigitsAux_digits : ∀ (fuel n : Nat) (c : Char),
    c ∈ natDigitsAux fuel n → myIsDigit c = true := by
  intro fuel
  induction fuel with
  | zero => intro n c h; cases h
  | succ f ihf =>
      intro n c h
      simp only [natDigitsAux] at h
      by_cases h10 : n < 10
      · rw [if_pos h10] at h
        rcases List.mem_singleton.mp h with rfl
        exact digitChar10_isDigit n h10
      · rw [if_neg h10] at h
        rcases List.mem_append.mp h with h | h
        · exact ihf (n / 10) c h
        · rcases List.mem_singleton.mp h with rfl
          exact digitChar10_isDigit (n % 10) (Nat.mod_lt n (by omega))

theorem natToStr_ne_nil (n : Nat) : (natToStr n).data ≠ [] := by
  show natDigitsAux (n + 1) n ≠ []
  simp only [natDigitsAux]
  by_cases h10 : n < 10
  · rw [if_pos h10]; simp
  · rw [if_neg h10]; simp

theorem myIsDigit_good (c : Char) (h : myIsDigit c = true) : goodChar c = true := by
  unfold goodChar
  have hne : (c == '.') = false ∧ (c == '*') = false ∧ (c == '[') = false ∧
      (c == ']') = false := by
    refine ⟨?_, ?_, ?_, ?_⟩ <;>
      (rw [beq_eq_false_iff_ne]; intro hc; subst hc; exact absurd h (by decide))
  rw [hne.1, hne.2.1, hne.2.2.1, hne.2.2.2]
  rfl

theorem goodKey_parts (s : String) (h : goodKey s = true) :
    s.data ≠ [] ∧ ∀ c ∈ s.data, goodChar c = true := by
  simp only [goodKey, Bool.and_eq_true, Bool.not_eq_true'] at h
  constructor
  · intro hc
    have : s = "" := by
      cases s with
      | mk d => cases hc; rfl
    rw [this] at h
    simp at h
  · exact List.all_eq_true.mp h.2

theorem chunk_split (p : Char → Bool) : ∀ (a1 b1 a2 b2 : List Char),
    (∀ c ∈ a1, p c = true) → (∀ c ∈ a2, p c = true) →
    (∀ c, b1.head? = some c → p c = false) → (∀ c, b2.head? = some c → p c = false) →
    a1 ++ b1 = a2 ++ b2 → a1 = a2 ∧ b1 = b2 := by
  intro a1
  induction a1 with
  | nil =>
      intro b1 a2 b2 _ ha2 hb1 _ h
      cases a2 with
      | nil => exact ⟨rfl, h⟩
      | cons x a2 =>
          simp only [List.nil_append, List.cons_append] at h
          have hf := hb1 x (by rw [h]; rfl)
          have ht := ha2 x (List.mem_cons_self _ _)
          rw [ht] at hf
          cases hf
  | cons x a1 ih =>
      intro b1 a2 b2 ha1 ha2 hb1 hb2 h
      cases a2 with
      | nil =>
          simp only [List.cons_append, List.nil_append] at h
          have hf := hb2 x (by rw [← h]; rfl)
          have ht := ha1 x (List.mem_cons_self _ _)
          rw [ht] at hf
          cases hf
      | cons y a2 =>
          simp only [List.cons_append, List.cons.injEq] at h
          obtain ⟨hxy, hrest⟩ := h
          subst hxy
          obtain ⟨he1, he2⟩ := ih b1 a2 b2
            (fun c hc => ha1 c (List.mem_cons_of_mem _ hc))
            (fun c hc => ha2 c (List.mem_cons_of_mem _ hc)) hb1 hb2 hrest
          exact ⟨by rw [he1], he2⟩

theorem segChunk_ne_nil (first : Bool) (s : Seg) (hs : goodSeg s) :
    segChunk first s ≠ [] := by
  cases s with
  | prop name =>
      have hk := hs name rfl
      have hd := (goodKey_parts name hk).1
      cases first with
      | true => simpa [segChunk] using hd
      | false => simp [segChunk]
  | star => cases first <;> simp [segChunk]
  | items => simp [segChunk]
  | idx i => simp [segChunk]

theorem trackChars_head_notGood : ∀ (t : List Seg) (c : Char),
    (trackChars false t).head? = some c → goodChar c = false := by
  intro t c h
  cases t with
  | nil => cases h
  | cons s rest =>
      cases s with
      | prop name =>
          simp only [trackChars, segChunk, List.cons_append, List.head?] at h
          cases h
          decide
      | star =>
          simp only [trackChars, segChunk, List.cons_append, List.head?] at h
          cases h
          decide
      | items =>
          simp only [trackChars, segChunk, List.cons_append, List.head?] at h
          cases h
          decide
      | idx i =>
          simp only [trackChars, segChunk, List.cons_append, List.head?] at h
          cases h
          decide

theorem prop_chunk_head_clash (n1 : String) (T1 rest : List Char) (c0 : Char)
    (hk : goodKey n1 = true) (hg : goodChar c0 = false)
    (h : n1.data ++ T1 = c0 :: rest) : False := by
  obtain ⟨hne, hall⟩ := goodKey_parts n1 hk
  cases hn : n1.data with
  | nil => exact hne hn
  | cons c cs =>
      rw [hn] at h
      simp only [List.cons_append, List.cons.injEq] at h
      have hcg := hall c (by rw [hn]; exact List.mem_cons_self _ _)
      rw [h.1, hg] at hcg
      cases hcg

theorem digits_head_rbracket_clash (i : Nat) (T1 T2 : List Char)
    (h : ']' :: T1 = (natToStr i).data ++ (']' :: T2)) : False := by
  cases hdg : (natToStr i).data with
  | nil => exact natToStr_ne_nil i hdg
  | cons c cs =>
      rw [hdg] at h
      simp only [List.cons_append, List.cons.injEq] at h
      have hc : myIsDigit c = true := by
        refine natDigitsAux_digits (i + 1) i c ?_
        have : natDigitsAux (i + 1) i = c :: cs := hdg
        rw [this]
        exact List.mem_cons_self _ _
      rw [← h.1] at hc
      exact absurd hc (by decide)


theorem trackChars_inj : ∀ (t1 : List Seg) (first : Bool) (t2 : List Seg),
    GoodTrack t1 → GoodTrack t2 → trackChars first t1 = trackChars first t2 →
    t1 = t2 := by
  intro t1
  induction t1 with
  | nil =>
      intro first t2 _ hg2 h
      cases t2 with
      | nil => rfl
      | cons s2 r2 =>
          exfalso
          simp only [trackChars] at h
          rcases List.append_eq_nil.mp h.symm with ⟨hc, -⟩
          exact segChunk_ne_nil first s2 (hg2 s2 (List.mem_cons_self _ _)) hc
  | cons s1 r1 ih =>
      intro first t2 hg1 hg2 h
      have g1 : goodSeg s1 := hg1 s1 (List.mem_cons_self _ _)
      have gr1 : GoodTrack r1 := fun s hs => hg1 s (List.mem_cons_of_mem _ hs)
      cases t2 with
      | nil =>
          exfalso
          simp only [trackChars] at h
          rcases List.append_eq_nil.mp h with ⟨hc, -⟩
          exact segChunk_ne_nil first s1 g1 hc
      | cons s2 r2 =>
          have g2 : goodSeg s2 := hg2 s2 (List.mem_cons_self _ _)
          have gr2 : GoodTrack r2 := fun s hs => hg2 s (List.mem_cons_of_mem _ hs)
          simp only [trackChars] at h
          have hsplitP : ∀ (n1 n2 : String), goodKey n1 = true → goodKey n2 = true →
              n1.data ++ trackChars false r1 = n2.data ++ trackChars false r2 →
              n1 = n2 ∧ r1 = r2 := by
            intro n1 n2 hk1 hk2 hh
            obtain ⟨ha, hb⟩ := chunk_split goodChar _ _ _ _
              (goodKey_parts n1 hk1).2 (goodKey_parts n2 hk2).2
              (fun c hc => trackChars_head_notGood r1 c hc)
              (fun c hc => trackChars_head_notGood r2 c hc) hh
            exact ⟨String.ext_iff.mpr ha, ih false r2 gr1 gr2 hb⟩
          have hsplitI : ∀ (i j : Nat),
              (natToStr i).data ++ (']' :: trackChars false r1) =
                (natToStr j).data ++ (']' :: trackChars false r2) →
              i = j ∧ r1 = r2 := by
            intro i j hh
            obtain ⟨ha, hb⟩ := chunk_split myIsDigit _ _ _ _
              (fun c hc => natDigitsAux_digits (i + 1) i c hc)
              (fun c hc => natDigitsAux_digits (j + 1) j c hc)
              (fun c hc => by cases hc; decide)
              (fun c hc => by cases hc; decide) hh
            injection hb with hb1 hb2
            exact ⟨natToStr_inj i j (String.ext_iff.mpr ha), ih false r2 gr1 gr2 hb2⟩
          cases s1 with
          | prop n1 =>
              have hk1 := g1 n1 rfl
              cases s2 with
              | prop n2 =>
                  have hk2 := g2 n2 rfl
                  cases first with
                  | true =>
                      simp only [segChunk] at h
                      obtain ⟨he1, he2⟩ := hsplitP n1 n2 hk1 hk2 h
                      rw [he1, he2]
                  | false =>
                      simp only [segChunk, List.cons_append] at h
                      injection h with h1 h2
                      obtain ⟨he1, he2⟩ := hsplitP n1 n2 hk1 hk2 h2
                      rw [he1, he2]
              | star =>
                  exfalso
                  cases first with
                  | true =>
                      simp only [segChunk, List.cons_append] at h
                      exact prop_chunk_head_clash n1 _ _ '*' hk1 (by decide) h
                  | false =>
                      simp only [segChunk, List.cons_append] at h
                      injection h with h1 h2
                      exact prop_chunk_head_clash n1 _ _ '*' hk1 (by decide) h2
              | items =>
                  exfalso
                  cases first with
                  | true =>
                      simp only [segChunk, List.cons_append] at h
                      exact prop_chunk_head_clash n1 _ _ '[' hk1 (by decide) h
                  | false =>
                      simp only [segChunk, List.cons_append] at h
                      injection h with h1 h2
                      exact absurd h1 (by decide)
              | idx i =>
                  exfalso
                  cases first with
                  | true =>
                      simp only [segChunk, List.cons_append] at h
                      exact prop_chunk_head_clash n1 _ _ '[' hk1 (by decide) h
                  | false =>
                      simp only [segChunk, List.cons_append] at h
                      injection h with h1 h2
                      exact absurd h1 (by decide)
          | star =>
              cases s2 with
              | prop n2 =>
                  exfalso
                  have hk2 := g2 n2 rfl
                  cases first with
                  | true =>
                      simp only [segChunk, List.cons_append] at h
                      exact prop_chunk_head_clash n2 _ _ '*' hk2 (by decide) h.symm
                  | false =>
                      simp only [segChunk, List.cons_append] at h
                      injection h with h1 h2
                      exact prop_chunk_head_clash n2 _ _ '*' hk2 (by decide) h2.symm
              | star =>
                  cases first with
                  | true =>
                      simp only [segChunk, List.cons_append] at h
                      injection h with h1 h2
                      rw [ih false r2 gr1 gr2 h2]
                  | false =>
                      simp only [segChunk, List.cons_append] at h
                      injection h with h1 h2
                      injection h2 with h3 h4
                      rw [ih false r2 gr1 gr2 h4]
              | items =>
                  exfalso
                  cases first with
                  | true =>
                      simp only [segChunk, List.cons_append] at h
                      injection h with h1 h2
                      exact absurd h1 (by decide)
                  | false =>
                      simp only [segChunk, List.cons_append] at h
                      injection h with h1 h2
                      exact absurd h1 (by decide)
              | idx i =>
                  exfalso
                  cases first with
                  | true =>
                      simp only [segChunk, List.cons_append] at h
                      injection h with h1 h2
                      exact absurd h1 (by decide)
                  | false =>
                      simp only [segChunk, List.cons_append] at h
                      injection h with h1 h2
                      exact absurd h1 (by decide)
          | items =>
              cases s2 with
              | prop n2 =>
                  exfalso
                  have hk2 := g2 n2 rfl
                  cases first with
                  | true =>
                      simp only [segChunk, List.cons_append] at h
                      exact prop_chunk_head_clash n2 _ _ '[' hk2 (by decide) h.symm
                  | false =>
                      simp only [segChunk, List.cons_append] at h
                      injection h with h1 h2
                      exact absurd h1 (by decide)
              | star =>
                  exfalso
                  cases first with
                  | true =>
                      simp only [segChunk, List.cons_append] at h
                      injection h with h1 h2
                      exact absurd h1 (by decide)
                  | false =>
                      simp only [segChunk, List.cons_append] at h
                      injection h with h1 h2
                      exact absurd h1 (by decide)
              | items =>
                  cases first <;>
                    (simp only [segChunk, List.cons_append] at h
                     injection h with h1 h2
                     injection h2 with h3 h4
                     rw [ih false r2 gr1 gr2 h4])
              | idx i =>
                  exfalso
                  cases first <;>
                    (simp only [segChunk, List.cons_append, List.append_assoc,
                       List.singleton_append] at h
                     injection h with h1 h2
                     exact digits_head_rbracket_clash i _ _ h2)
          | idx i =>
              cases s2 with
              | prop n2 =>
                  exfalso
                  have hk2 := g2 n2 rfl
                  cases first with
                  | true =>
                      simp only [segChunk, List.cons_append] at h
                      exact prop_chunk_head_clash n2 _ _ '[' hk2 (by decide) h.symm
                  | false =>
                      simp only [segChunk, List.cons_append] at h
                      injection h with h1 h2
                      exact absurd h1 (by decide)
              | star =>
                  exfalso
                  cases first with
                  | true =>
                      simp only [segChunk, List.cons_append] at h
                      injection h with h1 h2
                      exact absurd h1 (by decide)
                  | false =>
                      simp only [segChunk, List.cons_append] at h
                      injection h with h1 h2
                      exact absurd h1 (by decide)
              | items =>
                  exfalso
                  cases first <;>
                    (simp only [segChunk, List.cons_append, List.append_assoc,
                       List.singleton_append] at h
                     injection h with h1 h2
                     exact digits_head_rbracket_clash i _ _ h2.symm)
              | idx j =>
                  cases first <;>
                    (simp only [segChunk, List.cons_append, List.append_assoc,
                       List.singleton_append] at h
                     injection h with h1 h2
                     obtain ⟨hij, hr⟩ := hsplitI i j h2
                     rw [hij, hr])

theorem appendSeg_data (p : String) (s : Seg) :
    (appendSeg p s).data = p.data ++ segChunk (decide (p = "")) s := by
  cases s <;> by_cases hp : p = "" <;>
    simp [appendSeg, segChunk, hp, String.data_append, List.append_assoc]

theorem renderAux_append : ∀ (t1 t2 : List Seg) (p : String),
    renderAux p (t1 ++ t2) = renderAux (renderAux p t1) t2 := by
  intro t1
  induction t1 with
  | nil => intro t2 p; rfl
  | cons s r ih =>
      intro t2 p
      simp only [List.cons_append, renderAux]
      exact ih t2 _

theorem renderTrack_append_seg (t : List Seg) (s : Seg) :
    renderTrack (t ++ [s]) = appendSeg (renderTrack t) s := by
  unfold renderTrack
  rw [renderAux_append]
  rfl

theorem str_eq_empty_iff (p : String) : (p = "") ↔ p.data = [] := by
  rw [String.ext_iff]

theorem appendSeg_ne_empty (p : String) (s : Seg) (hs : goodSeg s) :
    appendSeg p s ≠ "" := by
  intro hc
  rw [str_eq_empty_iff, appendSeg_data] at hc
  rcases List.append_eq_nil.mp hc with ⟨-, h2⟩
  exact segChunk_ne_nil _ s hs h2

theorem renderAux_data : ∀ (t : List Seg) (p : String), GoodTrack t →
    (renderAux p t).data = p.data ++ trackChars (decide (p = "")) t := by
  intro t
  induction t with
  | nil => intro p _; simp [renderAux, trackChars]
  | cons s r ih =>
      intro p hg
      have gs : goodSeg s := hg s (List.mem_cons_self _ _)
      have gr : GoodTrack r := fun x hx => hg x (List.mem_cons_of_mem _ hx)
      simp only [renderAux, trackChars]
      rw [ih (appendSeg p s) gr, appendSeg_data,
        decide_eq_false (appendSeg_ne_empty p s gs)]
      simp [List.append_assoc]

theorem renderTrack_data (t : List Seg) (hg : GoodTrack t) :
    (renderTrack t).data = trackChars true t := by
  unfold renderTrack
  rw [renderAux_data t "" hg]
  rfl

theorem renderTrack_inj (t1 t2 : List Seg) (h1 : GoodTrack t1) (h2 : GoodTrack t2)
    (h : renderTrack t1 = renderTrack t2) : t1 = t2 := by
  refine trackChars_inj t1 true t2 h1 h2 ?_
  rw [← renderTrack_data t1 h1, ← renderTrack_data t2 h2, h]

theorem asObjFields_ok (j : Json) (fs : List (String × Json))
    (h : asObjFields j = .ok fs) : j = .obj fs := by
  cases j with
  | obj f =>
      simp only [asObjFields, Except.ok.injEq] at h
      rw [h]
  | null => cases h
  | bool x => cases h
  | num x => cases h
  | str x => cases h
  | arr x => cases h

theorem goodSeg_star : goodSeg Seg.star := fun _ h => by cases h

theorem goodSeg_items : goodSeg Seg.items := fun _ h => by cases h

theorem goodSeg_idx (i : Nat) : goodSeg (Seg.idx i) := fun _ h => by cases h

theorem goodSeg_prop (name : String) (hk : goodKey name = true) :
    goodSeg (Seg.prop name) := fun nm hh => by cases hh; exact hk

theorem goodTrack_nil : GoodTrack [] := fun s hs => absurd hs (List.not_mem_nil s)

theorem goodTrack_append_seg (t : List Seg) (s : Seg) (ht : GoodTrack t)
    (hs : goodSeg s) : GoodTrack (t ++ [s]) := by
  intro x hx
  rcases List.mem_append.mp hx with h | h
  · exact ht x h
  · rcases List.mem_singleton.mp h with rfl
    exact hs

theorem goodObj_tail (kv : String × Json) (fs : List (String × Json))
    (h : GoodJson (.obj (kv :: fs)) = true) : GoodJson (.obj fs) = true := by
  rw [goodObj_iff] at h ⊢
  obtain ⟨k, v⟩ := kv
  refine ⟨?_, ?_⟩
  · have := h.1
    simp only [keysOf, List.map_cons, List.nodup_cons] at this
    exact this.2
  · rw [goodFields_iff] at h ⊢
    · exact fun kv2 hkv2 => h.2 kv2 (List.mem_cons_of_mem _ hkv2)

theorem goodObj_head (k : String) (v : Json) (fs : List (String × Json))
    (h : GoodJson (.obj ((k, v) :: fs)) = true) :
    goodKey k = true ∧ GoodJson v = true ∧ k ∉ keysOf fs := by
  rw [goodObj_iff] at h
  have hf := (goodFields_iff _).mp h.2 (k, v) (List.mem_cons_self _ _)
  have hn := h.1
  simp only [keysOf, List.map_cons, List.nodup_cons] at hn
  exact ⟨hf.1, hf.2, hn.1⟩

theorem map_render_cons (t : List Seg) (s : Seg) (exts : List (List Seg)) :
    exts.map (fun e => renderTrack ((t ++ [s]) ++ e)) =
      (exts.map (fun e => s :: e)).map (fun e => renderTrack (t ++ e)) := by
  induction exts with
  | nil => rfl
  | cons e rest ih =>
      simp only [List.map_cons]
      rw [ih]
      congr 1
      rw [List.append_assoc]
      rfl

theorem map_cons_nodup (s : Seg) (exts : List (List Seg)) (h : exts.Nodup) :
    (exts.map (fun e => s :: e)).Nodup := by
  refine List.Nodup.map ?_ h
  intro a b hh
  injection hh

theorem nodup_append4 {α : Type} (l0 l1 l2 l3 : List α)
    (h0 : l0.Nodup) (h1 : l1.Nodup) (h2 : l2.Nodup) (h3 : l3.Nodup)
    (d01 : ∀ a ∈ l0, a ∉ l1) (d02 : ∀ a ∈ l0, a ∉ l2) (d03 : ∀ a ∈ l0, a ∉ l3)
    (d12 : ∀ a ∈ l1, a ∉ l2) (d13 : ∀ a ∈ l1, a ∉ l3) (d23 : ∀ a ∈ l2, a ∉ l3) :
    (l0 ++ l1 ++ l2 ++ l3).Nodup := by
  refine List.Nodup.append (List.Nodup.append (List.Nodup.append h0 h1 d01) h2 ?_) h3 ?_
  · intro a ha
    rcases List.mem_append.mp ha with h | h
    · exact d02 a h
    · exact d12 a h
  · intro a ha
    rcases List.mem_append.mp ha with h | h
    · rcases List.mem_append.mp h with h' | h'
      · exact d03 a h'
      · exact d13 a h'
    · exact d23 a h

theorem derefIfDict_good (n : Nat) (root : Json) (cache : Cache) (sub out : Json)
    (cache2 : Cache) (hroot : GoodJson root = true) (hcache : CacheGood cache = true)
    (hsub : GoodJson sub = true)
    (h : derefIfDict n root cache sub = .ok (out, cache2)) :
    GoodJson out = true ∧ CacheGood cache2 = true := by
  cases sub with
  | obj sfs => exact derefW_good n root cache (.obj sfs) out cache2 hroot hcache hsub h
  | null =>
      simp only [derefIfDict, Except.ok.injEq, Prod.mk.injEq] at h
      exact ⟨h.1 ▸ hsub, h.2 ▸ hcache⟩
  | bool x =>
      simp only [derefIfDict, Except.ok.injEq, Prod.mk.injEq] at h
      exact ⟨h.1 ▸ hsub, h.2 ▸ hcache⟩
  | num x =>
      simp only [derefIfDict, Except.ok.injEq, Prod.mk.injEq] at h
      exact ⟨h.1 ▸ hsub, h.2 ▸ hcache⟩
  | str x =>
      simp only [derefIfDict, Except.ok.injEq, Prod.mk.injEq] at h
      exact ⟨h.1 ▸ hsub, h.2 ▸ hcache⟩
  | arr x =>
      simp only [derefIfDict, Except.ok.injEq, Prod.mk.injEq] at h
      exact ⟨h.1 ▸ hsub, h.2 ▸ hcache⟩

theorem walkOut_glue (t : List Seg) (s : Seg) (hs : goodSeg s)
    (wc rc : List WRec) (exts1 exts2 : List (List Seg))
    (hp1 : wc.map WRec.path = exts1.map (fun e => renderTrack ((t ++ [s]) ++ e)))
    (hn1 : exts1.Nodup) (hg1 : ∀ e ∈ exts1, ∀ x ∈ e, goodSeg x)
    (hp2 : rc.map WRec.path = exts2.map (fun e => renderTrack (t ++ e)))
    (hn2 : exts2.Nodup) (hg2 : ∀ e ∈ exts2, ∀ x ∈ e, goodSeg x)
    (hdis : ∀ e2 ∈ exts2, ∀ e1, s :: e1 ≠ e2) :
    (wc ++ rc).map WRec.path =
        (exts1.map (fun e => s :: e) ++ exts2).map (fun e => renderTrack (t ++ e)) ∧
    (exts1.map (fun e => s :: e) ++ exts2).Nodup ∧
    (∀ e ∈ exts1.map (fun e => s :: e) ++ exts2, ∀ x ∈ e, goodSeg x) := by
  refine ⟨?_, ?_, ?_⟩
  · rw [List.map_append, List.map_append, hp1, hp2, map_render_cons]
  · refine List.Nodup.append (map_cons_nodup s exts1 hn1) hn2 ?_
    intro a ha ha2
    rcases List.mem_map.mp ha with ⟨e1, -, he1⟩
    exact hdis a ha2 e1 he1
  · intro e he x hx
    rcases List.mem_append.mp he with h | h
    · rcases List.mem_map.mp h with ⟨e1, he1, rfl⟩
      rcases List.mem_cons.mp hx with rfl | hx2
      · exact hs
      · exact hg1 e1 he1 x hx2
    · exact hg2 e h x hx

theorem walk_main : ∀ n : Nat,
    (∀ (root : Json) (cache : Cache) (schema : Json) (t : List Seg)
        (parentReq : Json) (pr : List WRec × Cache),
        GoodJson root = true → CacheGood cache = true → GoodJson schema = true →
        GoodTrack t →
        walkF n root cache schema (renderTrack t) parentReq = .ok pr →
        WalkOut t pr (fun _ => True)) ∧
    (∀ (root : Json) (cache : Cache) (fs : List (String × Json)) (t : List Seg)
        (reqHere : Json) (pr : List WRec × Cache),
        GoodJson root = true → CacheGood cache = true →
        GoodJson (.obj fs) = true → GoodTrack t →
        walkPropsPart n root cache fs (renderTrack t) reqHere = .ok pr →
        WalkOut t pr (fun e => ∃ name rest, e = Seg.prop name :: rest)) ∧
    (∀ (root : Json) (cache : Cache) (fs : List (String × Json)) (t : List Seg)
        (pr : List WRec × Cache),
        GoodJson root = true → CacheGood cache = true →
        GoodJson (.obj fs) = true → GoodTrack t →
        walkAddlPart n root cache fs (renderTrack t) = .ok pr →
        WalkOut t pr (fun e => ∃ rest, e = Seg.star :: rest)) ∧
    (∀ (root : Json) (cache : Cache) (fs : List (String × Json)) (t : List Seg)
        (pr : List WRec × Cache),
        GoodJson root = true → CacheGood cache = true →
        GoodJson (.obj fs) = true → GoodTrack t →
        walkArrayPart n root cache fs (renderTrack t) = .ok pr →
        WalkOut t pr (fun e =>
          (∃ rest, e = Seg.items :: rest) ∨ ∃ j rest, e = Seg.idx j :: rest)) ∧
    (∀ (root : Json) (cache : Cache) (pfs : List (String × Json)) (t : List Seg)
        (reqHere : Json) (pr : List WRec × Cache),
        GoodJson root = true → CacheGood cache = true →
        GoodJson (.obj pfs) = true → GoodTrack t →
        walkProps n root cache pfs (renderTrack t) reqHere = .ok pr →
        WalkOut t pr (fun e =>
          ∃ name rest, e = Seg.prop name :: rest ∧ name ∈ keysOf pfs)) ∧
    (∀ (root : Json) (cache : Cache) (its : List Json) (t : List Seg)
        (idx : Nat) (pr : List WRec × Cache),
        GoodJson root = true → CacheGood cache = true →
        GoodList its = true → GoodTrack t →
        walkItems n root cache its (renderTrack t) idx = .ok pr →
        WalkOut t pr (fun e => ∃ j rest, e = Seg.idx j :: rest ∧ idx ≤ j)) := by
  intro n
  induction n with
  | zero =>
      refine ⟨?_, ?_, ?_, ?_, ?_, ?_⟩
      · intro root cache schema t parentReq pr _ _ _ _ h; cases h
      · intro root cache fs t reqHere pr _ _ _ _ h; cases h
      · intro root cache fs t pr _ _ _ _ h; cases h
      · intro root cache fs t pr _ _ _ _ h; cases h
      · intro root cache pfs t reqHere pr _ _ _ _ h; cases h
      · intro root cache its t idx pr _ _ _ _ h; cases h
  | succ n ih =>
      obtain ⟨ihA, ihB, ihC, ihD, ihE, ihF⟩ := ih
      refine ⟨?_, ?_, ?_, ?_, ?_, ?_⟩
      -- walkF
      · intro root cache schema t parentReq pr hroot hcache hschema ht h
        simp only [walkF] at h
        obtain ⟨sc, hsc, h⟩ := exceptBind_ok_elim h
        obtain ⟨s1, c1⟩ := sc
        have hg1 := (flatten_good_all n).1 root cache schema (s1, c1)
          hroot hcache hschema hsc
        obtain ⟨fs, hfs, h⟩ := exceptBind_ok_elim h
        have hobj := asObjFields_ok s1 fs hfs
        subst hobj
        obtain ⟨pc, hpc, h⟩ := exceptBind_ok_elim h
        obtain ⟨hcg_p, exts_p, hp_p, hn_p, hg_p, hs_p⟩ :=
          ihB root c1 fs t _ pc hroot hg1.2 hg1.1 ht hpc
        obtain ⟨ac, hac, h⟩ := exceptBind_ok_elim h
        obtain ⟨hcg_a, exts_a, hp_a, hn_a, hg_a, hs_a⟩ :=
          ihC root pc.2 fs t ac hroot hcg_p hg1.1 ht hac
        obtain ⟨ic, hic, h⟩ := exceptBind_ok_elim h
        obtain ⟨hcg_i, exts_i, hp_i, hn_i, hg_i, hs_i⟩ :=
          ihD root ac.2 fs t ic hroot hcg_a hg1.1 ht hic
        simp only [Except.ok.injEq] at h
        subst h
        refine ⟨hcg_i, (if renderTrack t = "" then [] else [([] : List Seg)]) ++
          exts_p ++ exts_a ++ exts_i, ?_, ?_, ?_, fun _ _ => trivial⟩
        · simp only [List.map_append]
          rw [hp_p, hp_a, hp_i]
          congr 1
          congr 1
          congr 1
          by_cases h0 : renderTrack t = ""
          · rw [if_pos h0, if_pos h0]
            rfl
          · rw [if_neg h0, if_neg h0]
            simp
        · refine nodup_append4 _ _ _ _ ?_ hn_p hn_a hn_i ?_ ?_ ?_ ?_ ?_ ?_
          · by_cases h0 : renderTrack t = ""
            · rw [if_pos h0]; exact List.nodup_nil
            · rw [if_neg h0]; exact List.nodup_singleton _
          · intro a ha hc
            have ha0 : a = [] := by
              by_cases h0 : renderTrack t = ""
              · rw [if_pos h0] at ha; cases ha
              · rw [if_neg h0] at ha; exact List.mem_singleton.mp ha
            obtain ⟨name, rest, hshape⟩ := hs_p a hc
            rw [ha0] at hshape
            cases hshape
          · intro a ha hc
            have ha0 : a = [] := by
              by_cases h0 : renderTrack t = ""
              · rw [if_pos h0] at ha; cases ha
              · rw [if_neg h0] at ha; exact List.mem_singleton.mp ha
            obtain ⟨rest, hshape⟩ := hs_a a hc
            rw [ha0] at hshape
            cases hshape
          · intro a ha hc
            have ha0 : a = [] := by
              by_cases h0 : renderTrack t = ""
              · rw [if_pos h0] at ha; cases ha
              · rw [if_neg h0] at ha; exact List.mem_singleton.mp ha
            rcases hs_i a hc with ⟨rest, hshape⟩ | ⟨j, rest, hshape⟩ <;>
              (rw [ha0] at hshape; cases hshape)
          · intro a ha hc
            obtain ⟨n1, r1, hs1⟩ := hs_p a ha
            obtain ⟨r2, hs2⟩ := hs_a a hc
            rw [hs1] at hs2
            cases hs2
          · intro a ha hc
            obtain ⟨n1, r1, hs1⟩ := hs_p a ha
            rcases hs_i a hc with ⟨r2, hs2⟩ | ⟨j, r2, hs2⟩ <;>
              (rw [hs1] at hs2; cases hs2)
          · intro a ha hc
            obtain ⟨r1, hs1⟩ := hs_a a ha
            rcases hs_i a hc with ⟨r2, hs2⟩ | ⟨j, r2, hs2⟩ <;>
              (rw [hs1] at hs2; cases hs2)
        · intro e he x hx
          rcases List.mem_append.mp he with he | he
          · rcases List.mem_append.mp he with he | he
            · rcases List.mem_append.mp he with he | he
              · have he0 : e = [] := by
                  by_cases h0 : renderTrack t = ""
                  · rw [if_pos h0] at he; cases he
                  · rw [if_neg h0] at he; exact List.mem_singleton.mp he
                rw [he0] at hx
                cases hx
              · exact hg_p e he x hx
            · exact hg_a e he x hx
          · exact hg_i e he x hx
      -- walkPropsPart
      · intro root cache fs t reqHere pr hroot hcache hfs ht h
        simp only [walkPropsPart] at h
        cases hlp : List.lookup "properties" fs with
        | none =>
            simp only [hlp, Except.ok.injEq] at h
            subst h
            exact ⟨hcache, [], rfl, List.nodup_nil, fun e he => absurd he (List.not_mem_nil e),
              fun e he => absurd he (List.not_mem_nil e)⟩
        | some v =>
            cases v with
            | obj pfs =>
                simp only [hlp] at h
                obtain ⟨hcg, exts, hp, hn, hg, hs⟩ := ihE root cache pfs t reqHere pr
                  hroot hcache (goodJson_lookup fs _ _ hfs hlp) ht h
                refine ⟨hcg, exts, hp, hn, hg, ?_⟩
                intro e he
                obtain ⟨name, rest, he2, -⟩ := hs e he
                exact ⟨name, rest, he2⟩
            | null =>
                simp only [hlp, Except.ok.injEq] at h
                subst h
                exact ⟨hcache, [], rfl, List.nodup_nil,
                  fun e he => absurd he (List.not_mem_nil e),
                  fun e he => absurd he (List.not_mem_nil e)⟩
            | bool x =>
                simp only [hlp, Except.ok.injEq] at h
                subst h
                exact ⟨hcache, [], rfl, List.nodup_nil,
                  fun e he => absurd he (List.not_mem_nil e),
                  fun e he => absurd he (List.not_mem_nil e)⟩
            | num x =>
                simp only [hlp, Except.ok.injEq] at h
                subst h
                exact ⟨hcache, [], rfl, List.nodup_nil,
                  fun e he => absurd he (List.not_mem_nil e),
                  fun e he => absurd he (List.not_mem_nil e)⟩
            | str x =>
                simp only [hlp, Except.ok.injEq] at h
                subst h
                exact ⟨hcache, [], rfl, List.nodup_nil,
                  fun e he => absurd he (List.not_mem_nil e),
                  fun e he => absurd he (List.not_mem_nil e)⟩
            | arr x =>
                simp only [hlp, Except.ok.injEq] at h
                subst h
                exact ⟨hcache, [], rfl, List.nodup_nil,
                  fun e he => absurd he (List.not_mem_nil e),
                  fun e he => absurd he (List.not_mem_nil e)⟩
      -- walkAddlPart
      · intro root cache fs t pr hroot hcache hfs ht h
        simp only [walkAddlPart] at h
        cases hla : List.lookup "additionalProperties" fs with
        | none =>
            simp only [hla, Except.ok.injEq] at h
            subst h
            exact ⟨hcache, [], rfl, List.nodup_nil,
              fun e he => absurd he (List.not_mem_nil e),
              fun e he => absurd he (List.not_mem_nil e)⟩
        | some v =>
            cases v with
            | obj afs =>
                simp only [hla] at h
                obtain ⟨dc, hdc, h⟩ := exceptBind_ok_elim h
                obtain ⟨d1, d2⟩ := dc
                have hdg := derefW_good n root cache (.obj afs) d1 d2 hroot hcache
                  (goodJson_lookup fs _ _ hfs hla) hdc
                have hpath : (if renderTrack t = "" then "*" else renderTrack t ++ ".*") =
                    renderTrack (t ++ [Seg.star]) :=
                  (renderTrack_append_seg t Seg.star).symm
                rw [hpath] at h
                obtain ⟨hcg, exts, hp, hn, hg, -⟩ := ihA root d2 d1 (t ++ [Seg.star])
                  (.arr []) pr hroot hdg.2 hdg.1
                  (goodTrack_append_seg t Seg.star ht goodSeg_star) h
                refine ⟨hcg, exts.map (fun e => Seg.star :: e), ?_, ?_, ?_, ?_⟩
                · rw [hp, map_render_cons]
                · exact map_cons_nodup _ _ hn
                · intro e he x hx
                  rcases List.mem_map.mp he with ⟨e1, he1, rfl⟩
                  rcases List.mem_cons.mp hx with rfl | hx2
                  · exact goodSeg_star
                  · exact hg e1 he1 x hx2
                · intro e he
                  rcases List.mem_map.mp he with ⟨e1, -, rfl⟩
                  exact ⟨e1, rfl⟩
            | null =>
                simp only [hla, Except.ok.injEq] at h
                subst h
                exact ⟨hcache, [], rfl, List.nodup_nil,
                  fun e he => absurd he (List.not_mem_nil e),
                  fun e he => absurd he (List.not_mem_nil e)⟩
            | bool x =>
                simp only [hla, Except.ok.injEq] at h
                subst h
                exact ⟨hcache, [], rfl, List.nodup_nil,
                  fun e he => absurd he (List.not_mem_nil e),
                  fun e he => absurd he (List.not_mem_nil e)⟩
            | num x =>
                simp only [hla, Except.ok.injEq] at h
                subst h
                exact ⟨hcache, [], rfl, List.nodup_nil,
                  fun e he => absurd he (List.not_mem_nil e),
                  fun e he => absurd he (List.not_mem_nil e)⟩
            | str x =>
                simp only [hla, Except.ok.injEq] at h
                subst h
                exact ⟨hcache, [], rfl, List.nodup_nil,
                  fun e he => absurd he (List.not_mem_nil e),
                  fun e he => absurd he (List.not_mem_nil e)⟩
            | arr x =>
                simp only [hla, Except.ok.injEq] at h
                subst h
                exact ⟨hcache, [], rfl, List.nodup_nil,
                  fun e he => absurd he (List.not_mem_nil e),
                  fun e he => absurd he (List.not_mem_nil e)⟩
      -- walkArrayPart
      · intro root cache fs t pr hroot hcache hfs ht h
        simp only [walkArrayPart] at h
        cases hcond : (typeIsArray fs || hasKey fs "items") with
        | false =>
            rw [hcond] at h
            rw [if_neg (by simp)] at h
            simp only [Except.ok.injEq] at h
            subst h
            exact ⟨hcache, [], rfl, List.nodup_nil,
              fun e he => absurd he (List.not_mem_nil e),
              fun e he => absurd he (List.not_mem_nil e)⟩
        | true =>
            rw [hcond] at h
            rw [if_pos rfl] at h
            cases hli : List.lookup "items" fs with
            | none =>
                simp only [hli, Except.ok.injEq] at h
                subst h
                exact ⟨hcache, [], rfl, List.nodup_nil,
                  fun e he => absurd he (List.not_mem_nil e),
                  fun e he => absurd he (List.not_mem_nil e)⟩
            | some v =>
                cases v with
                | obj ifs =>
                    simp only [hli] at h
                    obtain ⟨dc, hdc, h⟩ := exceptBind_ok_elim h
                    obtain ⟨d1, d2⟩ := dc
                    have hdg := derefW_good n root cache (.obj ifs) d1 d2 hroot hcache
                      (goodJson_lookup fs _ _ hfs hli) hdc
                    have hpath : (if renderTrack t = "" then "[]"
                        else renderTrack t ++ "[]") = renderTrack (t ++ [Seg.items]) :=
                      (renderTrack_append_seg t Seg.items).symm
                    rw [hpath] at h
                    obtain ⟨hcg, exts, hp, hn, hg, -⟩ := ihA root d2 d1 (t ++ [Seg.items])
                      (.arr []) pr hroot hdg.2 hdg.1
                      (goodTrack_append_seg t Seg.items ht goodSeg_items) h
                    refine ⟨hcg, exts.map (fun e => Seg.items :: e), ?_, ?_, ?_, ?_⟩
                    · rw [hp, map_render_cons]
                    · exact map_cons_nodup _ _ hn
                    · intro e he x hx
                      rcases List.mem_map.mp he with ⟨e1, he1, rfl⟩
                      rcases List.mem_cons.mp hx with rfl | hx2
                      · exact goodSeg_items
                      · exact hg e1 he1 x hx2
                    · intro e he
                      rcases List.mem_map.mp he with ⟨e1, -, rfl⟩
                      exact Or.inl ⟨e1, rfl⟩
                | arr its =>
                    simp only [hli] at h
                    obtain ⟨hcg, exts, hp, hn, hg, hs⟩ := ihF root cache its t 0 pr
                      hroot hcache
                      (by simpa [GoodJson] using goodJson_lookup fs _ _ hfs hli) ht h
                    refine ⟨hcg, exts, hp, hn, hg, ?_⟩
                    intro e he
                    obtain ⟨j, rest, he2, -⟩ := hs e he
                    exact Or.inr ⟨j, rest, he2⟩
                | null =>
                    simp only [hli, Except.ok.injEq] at h
                    subst h
                    exact ⟨hcache, [], rfl, List.nodup_nil,
                      fun e he => absurd he (List.not_mem_nil e),
                      fun e he => absurd he (List.not_mem_nil e)⟩
                | bool x =>
                    simp only [hli, Except.ok.injEq] at h
                    subst h
                    exact ⟨hcache, [], rfl, List.nodup_nil,
                      fun e he => absurd he (List.not_mem_nil e),
                      fun e he => absurd he (List.not_mem_nil e)⟩
                | num x =>
                    simp only [hli, Except.ok.injEq] at h
                    subst h
                    exact ⟨hcache, [], rfl, List.nodup_nil,
                      fun e he => absurd he (List.not_mem_nil e),
                      fun e he => absurd he (List.not_mem_nil e)⟩
                | str x =>
                    simp only [hli, Except.ok.injEq] at h
                    subst h
                    exact ⟨hcache, [], rfl, List.nodup_nil,
                      fun e he => absurd he (List.not_mem_nil e),
                      fun e he => absurd he (List.not_mem_nil e)⟩
      -- walkProps
      · intro root cache pfs t reqHere pr hroot hcache hpfs ht h
        cases pfs with
        | nil =>
            simp only [walkProps, Except.ok.injEq] at h
            subst h
            exact ⟨hcache, [], rfl, List.nodup_nil,
              fun e he => absurd he (List.not_mem_nil e),
              fun e he => absurd he (List.not_mem_nil e)⟩
        | cons kv rest =>
            obtain ⟨name, sub⟩ := kv
            obtain ⟨hkname, hsub, hknotin⟩ := goodObj_head name sub rest hpfs
            simp only [walkProps] at h
            obtain ⟨dc, hdc, h⟩ := exceptBind_ok_elim h
            obtain ⟨d1, d2⟩ := dc
            have hdg := derefIfDict_good n root cache sub d1 d2 hroot hcache hsub hdc
            obtain ⟨wc, hwc, h⟩ := exceptBind_ok_elim h
            have hpath : (if renderTrack t = "" then name
                else renderTrack t ++ "." ++ name) =
                renderTrack (t ++ [Seg.prop name]) :=
              (renderTrack_append_seg t (Seg.prop name)).symm
            rw [hpath] at hwc
            obtain ⟨hcg_w, exts_w, hp_w, hn_w, hg_w, -⟩ :=
              ihA root d2 d1 (t ++ [Seg.prop name]) reqHere wc hroot hdg.2 hdg.1
                (goodTrack_append_seg t (Seg.prop name) ht (goodSeg_prop name hkname)) hwc
            obtain ⟨rc, hrc, h⟩ := exceptBind_ok_elim h
            obtain ⟨hcg_r, exts_r, hp_r, hn_r, hg_r, hs_r⟩ :=
              ihE root wc.2 rest t reqHere rc hroot hcg_w
                (goodObj_tail (name, sub) rest hpfs) ht hrc
            simp only [Except.ok.injEq] at h
            subst h
            have hdis : ∀ e2 ∈ exts_r, ∀ e1, Seg.prop name :: e1 ≠ e2 := by
              intro e2 he2 e1 hc
              obtain ⟨nm, rest2, hshape, hmem⟩ := hs_r e2 he2
              rw [hshape] at hc
              injection hc with h1 h2
              injection h1 with h3
              rw [h3] at hknotin
              exact hknotin hmem
            obtain ⟨hp, hn, hg⟩ := walkOut_glue t (Seg.prop name)
              (goodSeg_prop name hkname) wc.1 rc.1 exts_w exts_r hp_w hn_w hg_w
              hp_r hn_r hg_r hdis
            refine ⟨hcg_r, exts_w.map (fun e => Seg.prop name :: e) ++ exts_r,
              hp, hn, hg, ?_⟩
            intro e he
            rcases List.mem_append.mp he with he | he
            · rcases List.mem_map.mp he with ⟨e1, -, rfl⟩
              exact ⟨name, e1, rfl, by simp [keysOf]⟩
            · obtain ⟨nm, rest2, he2, hmem⟩ := hs_r e he
              refine ⟨nm, rest2, he2, ?_⟩
              simp only [keysOf, List.map_cons, List.mem_cons]
              right
              simpa [keysOf] using hmem
      -- walkItems
      · intro root cache its t idx pr hroot hcache hits ht h
        cases its with
        | nil =>
            simp only [walkItems, Except.ok.injEq] at h
            subst h
            exact ⟨hcache, [], rfl, List.nodup_nil,
              fun e he => absurd he (List.not_mem_nil e),
              fun e he => absurd he (List.not_mem_nil e)⟩
        | cons it rest =>
            have hgi : GoodJson it = true ∧ GoodList rest = true := by
              simpa [GoodList, Bool.and_eq_true] using hits
            simp only [walkItems] at h
            obtain ⟨dc, hdc, h⟩ := exceptBind_ok_elim h
            obtain ⟨d1, d2⟩ := dc
            have hdg := derefW_good n root cache it d1 d2 hroot hcache hgi.1 hdc
            obtain ⟨wc, hwc, h⟩ := exceptBind_ok_elim h
            have hpath : (if renderTrack t = "" then "[" ++ natToStr idx ++ "]"
                else renderTrack t ++ "[" ++ natToStr idx ++ "]") =
                renderTrack (t ++ [Seg.idx idx]) :=
              (renderTrack_append_seg t (Seg.idx idx)).symm
            rw [hpath] at hwc
            obtain ⟨hcg_w, exts_w, hp_w, hn_w, hg_w, -⟩ :=
              ihA root d2 d1 (t ++ [Seg.idx idx]) (.arr []) wc hroot hdg.2 hdg.1
                (goodTrack_append_seg t (Seg.idx idx) ht (goodSeg_idx idx)) hwc
            obtain ⟨rc, hrc, h⟩ := exceptBind_ok_elim h
            obtain ⟨hcg_r, exts_r, hp_r, hn_r, hg_r, hs_r⟩ :=
              ihF root wc.2 rest t (idx + 1) rc hroot hcg_w hgi.2 ht hrc
            simp only [Except.ok.injEq] at h
            subst h
            have hdis : ∀ e2 ∈ exts_r, ∀ e1, Seg.idx idx :: e1 ≠ e2 := by
              intro e2 he2 e1 hc
              obtain ⟨j, rest2, hshape, hj⟩ := hs_r e2 he2
              rw [hshape] at hc
              injection hc with h1 h2
              injection h1 with h3
              omega
            obtain ⟨hp, hn, hg⟩ := walkOut_glue t (Seg.idx idx)
              (goodSeg_idx idx) wc.1 rc.1 exts_w exts_r hp_w hn_w hg_w
              hp_r hn_r hg_r hdis
            refine ⟨hcg_r, exts_w.map (fun e => Seg.idx idx :: e) ++ exts_r,
              hp, hn, hg, ?_⟩
            intro e he
            rcases List.mem_append.mp he with he | he
            · rcases List.mem_map.mp he with ⟨e1, -, rfl⟩
              exact ⟨idx, e1, rfl, Nat.le_refl idx⟩
            · obtain ⟨j, rest2, he2, hj⟩ := hs_r e he
              exact ⟨j, rest2, he2, by omega⟩

/-- C8 (amended): over a document and schema all of whose object keys are
nonempty, pairwise distinct and free of the path punctuation characters
. * [ ] (and a cache of such values), a successful iter_elements run
emits records with pairwise-distinct path values; without that hypothesis
the paths can collide, as a property named "*" shows. -/
theorem c8_amended_paths_unique (n : Nat) (root : Json) (cache : Cache)
    (schema : Json) (recs : List WRec)
    (hroot : GoodJson root = true) (hcache : CacheGood cache = true)
    (hschema : GoodJson schema = true)
    (hrun : iterElements n root cache schema "" = .ok recs) :
    (recs.map WRec.path).Nodup := by
  simp only [iterElements] at hrun
  obtain ⟨sc, hsc, hrun⟩ := exceptBind_ok_elim hrun
  obtain ⟨s1, c1⟩ := sc
  have hg1 := (flatten_good_all n).1 root cache schema (s1, c1) hroot hcache hschema hsc
  obtain ⟨wc, hwc, hrun⟩ := exceptBind_ok_elim hrun
  obtain ⟨hcg, exts, hp, hn, hg, -⟩ :=
    (walk_main n).1 root c1 s1 [] _ wc hroot hg1.2 hg1.1 goodTrack_nil hwc
  simp only [Except.ok.injEq] at hrun
  subst hrun
  rw [hp]
  refine List.Nodup.map_on ?_ hn
  intro x hx y hy hxy
  have hgx : GoodTrack ([] ++ x) := by rw [List.nil_append]; exact hg x hx
  have hgy : GoodTrack ([] ++ y) := by rw [List.nil_append]; exact hg y hy
  have hres := renderTrack_inj ([] ++ x) ([] ++ y) hgx hgy hxy
  simpa using hres

set_option maxHeartbeats 1000000 in
theorem c8_witness :
    GoodJson c8WitSchema = true ∧ CacheGood ([] : Cache) = true ∧
    iterElements 15 c8WitSchema [] c8WitSchema "" = .ok c8WitRecs ∧
    (c8WitRecs.map WRec.path).Nodup :=
  ⟨rfl, rfl, rfl,
    c8_amended_paths_unique 15 c8WitSchema [] c8WitSchema c8WitRecs rfl rfl rfl rfl⟩
